import Mathlib

/-!
Verification of the amafi-industry-data job pipeline.

The definitions below are a shallow embedding of the TypeScript sources in
`src/services/jobs/JobProcessorFactory.ts` (which bundles the processor
strategies, the Bull-backed `JobQueue`, and the `PerplexityClient` with its
truncation-resilient response parser), together with the small pieces of
`JobConfig` they rely on.  Provider text is modelled as `List Char`; JS
values produced by `JSON.parse` are modelled by the inductive `Json`, with
numbers as exact rationals (JS numbers are IEEE doubles; all documents
studied here stay well inside the range where the two agree digit for
digit).  Regular-expression operations in the source are embedded as
dedicated scanning functions with the same semantics on the inputs they are
ever applied to; each carries a comment naming the regex it models.
-/

/-- JS value as produced by `JSON.parse` / the salvage extractors.  `nan`
models the IEEE NaN that `parseFloat` yields on a digitless match; neither
`JSON.parse` nor the renderer ever produces it.  Object fields are kept in
insertion order. -/
inductive Json where
  | null : Json
  | bool (b : Bool) : Json
  | num (q : Rat) : Json
  | nan : Json
  | str (s : List Char) : Json
  | arr (elems : List Json) : Json
  | obj (fields : List (List Char × Json)) : Json
deriving Repr

mutual

/-- Structural equality test for `Json`; written by hand because the nested
`List` positions defeat the deriving handler. -/
def jsonBeq : Json → Json → Bool
  | .null, .null => true
  | .bool a, .bool b => a == b
  | .num a, .num b => a == b
  | .nan, .nan => true
  | .str a, .str b => a == b
  | .arr a, .arr b => jsonBeqList a b
  | .obj a, .obj b => jsonBeqFields a b
  | _, _ => false

def jsonBeqList : List Json → List Json → Bool
  | [], [] => true
  | a :: as, b :: bs => jsonBeq a b && jsonBeqList as bs
  | _, _ => false

def jsonBeqFields : List (List Char × Json) → List (List Char × Json) → Bool
  | [], [] => true
  | (ka, va) :: as, (kb, vb) :: bs =>
      ka == kb && jsonBeq va vb && jsonBeqFields as bs
  | _, _ => false

end

mutual

theorem jsonBeq_iff : ∀ a b : Json, jsonBeq a b = true ↔ a = b
  | .null, .null => by simp [jsonBeq]
  | .bool _, .bool _ => by simp [jsonBeq]
  | .num _, .num _ => by simp [jsonBeq]
  | .nan, .nan => by simp [jsonBeq]
  | .str _, .str _ => by simp [jsonBeq]
  | .arr x, .arr y => by simp [jsonBeq, jsonBeqList_iff x y]
  | .obj x, .obj y => by simp [jsonBeq, jsonBeqFields_iff x y]
  | .null, .bool _ | .null, .num _ | .null, .nan | .null, .str _ | .null, .arr _ | .null, .obj _
  | .bool _, .null | .bool _, .num _ | .bool _, .nan | .bool _, .str _ | .bool _, .arr _ | .bool _, .obj _
  | .num _, .null | .num _, .bool _ | .num _, .nan | .num _, .str _ | .num _, .arr _ | .num _, .obj _
  | .nan, .null | .nan, .bool _ | .nan, .num _ | .nan, .str _ | .nan, .arr _ | .nan, .obj _
  | .str _, .null | .str _, .bool _ | .str _, .num _ | .str _, .nan | .str _, .arr _ | .str _, .obj _
  | .arr _, .null | .arr _, .bool _ | .arr _, .num _ | .arr _, .nan | .arr _, .str _ | .arr _, .obj _
  | .obj _, .null | .obj _, .bool _ | .obj _, .num _ | .obj _, .nan | .obj _, .str _ | .obj _, .arr _ => by
    simp [jsonBeq]

theorem jsonBeqList_iff : ∀ xs ys : List Json, jsonBeqList xs ys = true ↔ xs = ys
  | [], [] => by simp [jsonBeqList]
  | x :: xs, y :: ys => by simp [jsonBeqList, jsonBeq_iff x y, jsonBeqList_iff xs ys]
  | [], _ :: _ => by simp [jsonBeqList]
  | _ :: _, [] => by simp [jsonBeqList]

theorem jsonBeqFields_iff : ∀ xs ys : List (List Char × Json), jsonBeqFields xs ys = true ↔ xs = ys
  | [], [] => by simp [jsonBeqFields]
  | (ka, va) :: as, (kb, vb) :: bs => by
    simp [jsonBeqFields, jsonBeq_iff va vb, jsonBeqFields_iff as bs, and_assoc]
  | [], _ :: _ => by simp [jsonBeqFields]
  | _ :: _, [] => by simp [jsonBeqFields]

end

instance : DecidableEq Json := fun a b => decidable_of_iff _ (jsonBeq_iff a b)

/-- Character list of a string literal (beautifies the many field names
below). -/
def cl (s : String) : List Char := s.toList


/-- The whitespace class used by JS `trim` and by `\s` in the source's
regexes, restricted to the ASCII whitespace that provider text contains. -/
def isWsChar (c : Char) : Bool := c = ' ' || c = '\t' || c = '\n' || c = '\r'

/-- Numeric value of a list of decimal digit characters, most significant
first (the value `parseFloat` and `JSON.parse` assign to a digit run). -/
def digitsToNat (ds : List Char) : Nat :=
  ds.foldl (fun a c => a * 10 + (c.toNat - '0'.toNat)) 0

/-- Decimal digit character of `d < 10`. -/
def digitChar (d : Nat) : Char := Char.ofNat ('0'.toNat + d)

/-- Fuel-driven digit expansion; `natDigits` supplies sufficient fuel, and
the fuel recursion keeps the definition kernel-reducible. -/
def natDigitsGo : Nat → Nat → List Char
  | 0, _ => []
  | fuel + 1, n =>
    if n < 10 then [digitChar n]
    else natDigitsGo fuel (n / 10) ++ [digitChar (n % 10)]

/-- Decimal digits of a natural number, most significant first. -/
def natDigits (n : Nat) : List Char := natDigitsGo (n + 1) n

/-- JS string `trim`: drop leading and trailing whitespace. -/
def jsTrim (s : List Char) : List Char :=
  ((s.dropWhile isWsChar).reverse.dropWhile isWsChar).reverse

/-- `skipWs` drops leading JSON whitespace, as `JSON.parse` does between
tokens. -/
def skipWs (s : List Char) : List Char := s.dropWhile isWsChar

/-- Value of a hexadecimal digit character, if it is one. -/
def hexVal (c : Char) : Option Nat :=
  let n := c.toNat
  if 48 ≤ n && n ≤ 57 then some (n - 48)
  else if 97 ≤ n && n ≤ 102 then some (n - 87)
  else if 65 ≤ n && n ≤ 70 then some (n - 55)
  else none

/-- Single-character JSON string escapes. -/
def escChar (c : Char) : Option Char :=
  if c = '"' then some '"'
  else if c = '\\' then some '\\'
  else if c = '/' then some '/'
  else if c = 'b' then some (Char.ofNat 8)
  else if c = 'f' then some (Char.ofNat 12)
  else if c = 'n' then some '\n'
  else if c = 'r' then some '\r'
  else if c = 't' then some '\t'
  else none

/-- Body of a JSON string after the opening quote: returns the decoded
content and the remainder after the closing quote.  Mirrors the string
grammar `JSON.parse` implements: raw control characters are rejected, the
eight single-character escapes and `\uXXXX` are decoded. -/
def parseStringBody : List Char → Option (List Char × List Char)
  | [] => none
  | c :: cs =>
    if c = '"' then some ([], cs)
    else if c = '\\' then
      match cs with
      | 'u' :: h1 :: h2 :: h3 :: h4 :: cs2 =>
        match hexVal h1, hexVal h2, hexVal h3, hexVal h4 with
        | some a, some b, some c2, some d =>
          (parseStringBody cs2).map (fun p => (Char.ofNat (((a * 16 + b) * 16 + c2) * 16 + d) :: p.1, p.2))
        | _, _, _, _ => none
      | e :: cs2 =>
        match escChar e with
        | some r => (parseStringBody cs2).map (fun p => (r :: p.1, p.2))
        | none => none
      | [] => none
    else if c.toNat < 32 then none
    else (parseStringBody cs).map (fun p => (c :: p.1, p.2))

/-- Integer-part digits of a JSON number: one or more digits, where a
leading `0` must stand alone (`JSON.parse` rejects `01`). -/
def parseIntDigits (s : List Char) : Option (List Char × List Char) :=
  let ds := s.takeWhile Char.isDigit
  if ds = [] then none
  else if ds.head? = some '0' && decide (1 < ds.length) then none
  else some (ds, s.drop ds.length)

/-- Exponent digits of a JSON number (leading zeros permitted there). -/
def parseExpDigits (v : Rat) (s : List Char) : Option (Rat × List Char) :=
  let p := match s with
    | '+' :: t => ((1 : Int), t)
    | '-' :: t => ((-1 : Int), t)
    | _ => ((1 : Int), s)
  let ds := p.2.takeWhile Char.isDigit
  if ds = [] then none
  else some (v * (10 : Rat) ^ (p.1 * (digitsToNat ds : Int)), p.2.drop ds.length)

/-- Application of the leading minus sign. -/
def signApply (neg : Bool) (base : Rat) : Rat := if neg then -base else base

/-- Optional exponent part of a JSON number. -/
def parseExpPart (neg : Bool) (base : Rat) (s : List Char) : Option (Rat × List Char) :=
  match s with
  | 'e' :: t => parseExpDigits (signApply neg base) t
  | 'E' :: t => parseExpDigits (signApply neg base) t
  | _ => some (signApply neg base, s)

/-- Fraction and exponent of a JSON number after its integer digits. -/
def parseFracExp (neg : Bool) (ids : List Char) (s2 : List Char) : Option (Rat × List Char) :=
  match s2 with
  | '.' :: t =>
    let fds := t.takeWhile Char.isDigit
    if fds = [] then none
    else
      parseExpPart neg ((digitsToNat ids : Rat) + (digitsToNat fds : Rat) / (10 : Rat) ^ fds.length)
        (t.drop fds.length)
  | _ => parseExpPart neg (digitsToNat ids : Rat) s2

/-- A JSON number literal after the optional sign. -/
def parseNumberBody (neg : Bool) (s : List Char) : Option (Rat × List Char) :=
  match parseIntDigits s with
  | none => none
  | some (ids, s2) => parseFracExp neg ids s2

/-- A JSON number literal (sign, integer part, optional fraction, optional
exponent), with its exact rational value. -/
def parseNumber (s : List Char) : Option (Rat × List Char) :=
  match s with
  | '-' :: t => parseNumberBody true t
  | s => parseNumberBody false s

mutual

/-- One JSON value, fuel-bounded recursive descent; returns the value and
the unconsumed remainder.  This is the model of what `JSON.parse` accepts:
`jsonParse` below supplies sufficient fuel and requires the remainder to be
whitespace. -/
def parseVal : Nat → List Char → Option (Json × List Char)
  | 0, _ => none
  | fuel + 1, s =>
    match skipWs s with
    | [] => none
    | c :: cs =>
      if c = '{' then
        match skipWs cs with
        | '}' :: r => some (.obj [], r)
        | _ => (parseFields fuel cs).map (fun p => (Json.obj p.1, p.2))
      else if c = '[' then
        match skipWs cs with
        | ']' :: r => some (.arr [], r)
        | _ => (parseElems fuel cs).map (fun p => (Json.arr p.1, p.2))
      else if c = '"' then
        (parseStringBody cs).map (fun p => (Json.str p.1, p.2))
      else if c = 't' then
        match cs with
        | 'r' :: 'u' :: 'e' :: r => some (.bool true, r)
        | _ => none
      else if c = 'f' then
        match cs with
        | 'a' :: 'l' :: 's' :: 'e' :: r => some (.bool false, r)
        | _ => none
      else if c = 'n' then
        match cs with
        | 'u' :: 'l' :: 'l' :: r => some (.null, r)
        | _ => none
      else
        (parseNumber (c :: cs)).map (fun p => (Json.num p.1, p.2))

/-- Elements of a non-empty JSON array after the opening bracket. -/
def parseElems : Nat → List Char → Option (List Json × List Char)
  | 0, _ => none
  | fuel + 1, s =>
    match parseVal fuel s with
    | none => none
    | some (v, r) =>
      match skipWs r with
      | ',' :: r2 => (parseElems fuel r2).map (fun p => (v :: p.1, p.2))
      | ']' :: r2 => some ([v], r2)
      | _ => none

/-- Fields of a non-empty JSON object after the opening brace. -/
def parseFields : Nat → List Char → Option (List (List Char × Json) × List Char)
  | 0, _ => none
  | fuel + 1, s =>
    match skipWs s with
    | '"' :: cs =>
      match parseStringBody cs with
      | none => none
      | some (k, r) =>
        match skipWs r with
        | ':' :: r2 =>
          match parseVal fuel r2 with
          | none => none
          | some (v, r3) =>
            match skipWs r3 with
            | ',' :: r4 => (parseFields fuel r4).map (fun p => ((k, v) :: p.1, p.2))
            | '}' :: r4 => some ([(k, v)], r4)
            | _ => none
        | _ => none
    | _ => none

end

/-- Model of `JSON.parse`: one value, then nothing but whitespace.  `none`
models the thrown `SyntaxError`. -/
def jsonParse (s : List Char) : Option Json :=
  match parseVal (s.length + 1) s with
  | some (v, r) => if skipWs r = [] then some v else none
  | none => none

/-- Smallest `k ≤ 39` with `q * 10^k` integral: the number of decimal
places needed to write `q` exactly, when one exists. -/
def decExp (q : Rat) : Option Nat := (List.range 40).find? (fun k => (q * (10 : Rat) ^ k).den = 1)

/-- Digit string of a non-negative integer `m` written with `k` decimal
places (`m` is the value scaled by `10^k`). -/
def renderDec (m : Nat) (k : Nat) : List Char :=
  let ds := List.replicate (k + 1 - (natDigits m).length) '0' ++ natDigits m
  ds.take (ds.length - k) ++ '.' :: ds.drop (ds.length - k)

/-- Decimal rendering of a rational with a power-of-ten denominator; for
other rationals (never reached from the safety predicates) it falls back to
`0`. -/
def renderNumChars (q : Rat) : List Char :=
  (if q < 0 then ['-'] else []) ++
    match decExp q with
    | some 0 => natDigits q.num.natAbs
    | some (k + 1) => renderDec (q * (10 : Rat) ^ (k + 1)).num.natAbs (k + 1)
    | none => ['0']

mutual

/-- Compact canonical rendering of a `Json` value (the shape provider
documents studied in the theorems take): no whitespace, strings unescaped
(the safety predicates below restrict to contents that need no escape),
numbers via `renderNumChars`. -/
def renderJson : Json → List Char
  | .nan => ['N', 'a', 'N']
  | .bool true => ['t', 'r', 'u', 'e']
  | .obj [] => ['{', '}']
  | .null => ['n', 'u', 'l', 'l']
  | .arr [] => ['[', ']']
  | .bool false => ['f', 'a', 'l', 's', 'e']
  | .num q => renderNumChars q
  | .obj (f :: fs) => '{' :: (renderField f ++ renderFieldsTail fs) ++ ['}']
  | .str s => '"' :: s ++ ['"']
  | .arr (v :: vs) => '[' :: (renderJson v ++ renderElemsTail vs) ++ [']']

def renderField : List Char × Json → List Char
  | (k, v) => '"' :: k ++ '"' :: ':' :: renderJson v

def renderElemsTail : List Json → List Char
  | [] => []
  | v :: vs => ',' :: renderJson v ++ renderElemsTail vs

def renderFieldsTail : List (List Char × Json) → List Char
  | [] => []
  | f :: fs => ',' :: renderField f ++ renderFieldsTail fs

end

/-- Dropping a while-prefix never lengthens a list. -/
theorem dropWhile_len_le (p : Char → Bool) (l : List Char) : (l.dropWhile p).length ≤ l.length := by
  induction l with
  | nil => simp [List.dropWhile]
  | cons a t ih =>
    by_cases h : p a
    · simpa [List.dropWhile, h] using Nat.le_succ_of_le ih
    · simp [List.dropWhile, h]

/-- First index at which `pat` occurs as a contiguous substring (the model
of JS `String.indexOf` for a multi-character needle). -/
def indexOfSub (pat : List Char) : List Char → Option Nat
  | [] => if pat = [] then some 0 else none
  | c :: cs => if pat.isPrefixOf (c :: cs) then some 0 else (indexOfSub pat cs).map (· + 1)

/-- First index of character `c` (JS `String.indexOf(c)`), as an option. -/
def indexOfChar (c : Char) (s : List Char) : Option Nat := s.findIdx? (· = c)

/-- Last index of character `c` (JS `String.lastIndexOf(c)`), as an
option. -/
def lastIndexOfChar (c : Char) (s : List Char) : Option Nat :=
  (s.reverse.findIdx? (· = c)).map (fun i => s.length - 1 - i)

/-- Global removal of `pat` followed by `\s*` — the model of
`content.replace(/```json\s*‍/g, '')` and `content.replace(/```\s*‍/g, '')`
(lines 1553 and 1608): leftmost match removed, scanning resumes after the
consumed whitespace, exactly as a JS global replace does. -/
def removePatGo (pat : List Char) : Nat → List Char → List Char
  | 0, s => s
  | _, [] => []
  | fuel + 1, c :: cs =>
    if pat.isPrefixOf (c :: cs) && !pat.isEmpty then
      removePatGo pat fuel (((c :: cs).drop pat.length).dropWhile isWsChar)
    else c :: removePatGo pat fuel cs

def removePat (pat : List Char) (s : List Char) : List Char := removePatGo pat s.length s

/-- The three-backtick fence marker. -/
def fenceChars : List Char := [Char.ofNat 96, Char.ofNat 96, Char.ofNat 96]

/-- `stripFences` models lines 1553/1608: remove every ```` ```json ````
(with trailing whitespace) and then every ```` ``` ```` (with trailing
whitespace). -/
def stripFences (s : List Char) : List Char :=
  removePat fenceChars (removePat (fenceChars ++ ['j', 's', 'o', 'n']) s)

/-- The literal `<think>` opener. -/
def thinkOpen : List Char := ['<', 't', 'h', 'i', 'n', 'k', '>']

/-- The literal `</think>` closer (8 characters, hence the `+ 8` in the
source). -/
def thinkClose : List Char := ['<', '/', 't', 'h', 'i', 'n', 'k', '>']

/-- Model of the `<think>` block removal (lines 1544–1550 and 1611–1616):
if the text starts with `<think>` and contains `</think>`, keep the trimmed
text after the closer; otherwise leave the text unchanged. -/
def stripThink (s : List Char) : List Char :=
  if thinkOpen.isPrefixOf s then
    match indexOfSub thinkClose s with
    | some i => jsTrim (s.drop (i + 8))
    | none => s
  else s

/-- The depth-counting loop shared by lines 1453–1462, 1489–1498 and
1565–1576: starting at index `i` with running count `depth`, find the index
at which the count returns to zero on a closing token; `none` models the
loop running off the end (`endIndex === -1`, the truncation signal).  Only
the two bracket characters are inspected; the count is only tested against
zero after a decrement, exactly as in the source. -/
def scanBalGo (oc cc : Char) : List Char → Int → Nat → Option Nat
  | [], _, _ => none
  | c :: cs, depth, i =>
    if c = oc then scanBalGo oc cc cs (depth + 1) (i + 1)
    else if c = cc then
      if depth - 1 = 0 then some i else scanBalGo oc cc cs (depth - 1) (i + 1)
    else scanBalGo oc cc cs depth (i + 1)

/-- Balanced scan over `s` starting at absolute index `start`; returns the
absolute index of the matching closing token. -/
def scanBalanced (oc cc : Char) (s : List Char) (start : Nat) : Option Nat :=
  scanBalGo oc cc (s.drop start) 0 start

/-- Global replace of `,(\s*X)` by the captured group for closers `X` drawn
from `cl` — the model of `.replace(/,(\s*[}\]])/g, '$1')` (line 1596) and
its one-closer variants (lines 1469 and 1505).  A leftmost match consumes
the comma, the whitespace and the closer; the replacement re-emits all but
the comma and scanning resumes after the closer.  Because the re-emitted
region is whitespace and a closer — never a comma — emitting it through the
ordinary copy branches is observably identical to skipping it, which keeps
the recursion structural. -/
def cleanTrailing (cl : List Char) : List Char → List Char
  | [] => []
  | c :: cs =>
    if c = ',' then
      match cs.dropWhile isWsChar with
      | r :: _ =>
        if cl.contains r then cleanTrailing cl cs
        else ',' :: cleanTrailing cl cs
      | [] => ',' :: cleanTrailing cl cs
    else c :: cleanTrailing cl cs

/-- The quoted-key token `"name":` that every per-field extraction regex
begins with (`new RegExp('"' + fieldName + '":...')`, lines 1445, 1481,
1517, 1518); faithful for the alphanumeric/underscore field names the
callers supply, which contain no regex metacharacters. -/
def keyToken (name : List Char) : List Char := '"' :: name ++ ['"', ':']

/-- If `t` begins with `"name":`, the offset in `t` of the first character
after the token and the following `\s*` run. -/
def keyValOffset (name : List Char) (t : List Char) : Option Nat :=
  if (keyToken name).isPrefixOf t then
    some ((keyToken name).length + ((t.drop (keyToken name).length).takeWhile isWsChar).length)
  else none

/-- Leftmost match of `"name":\s*` followed by the literal `opener` —
the model of `content.match(new RegExp('"name":\\s*\\['))` and its `{`
variant; returns the absolute index of the opener (the source computes it
as `match.index + match[0].length - 1`). -/
def findFieldOpen (name : List Char) (opener : Char) : List Char → Option Nat
  | [] => none
  | c :: cs =>
    match keyValOffset name (c :: cs) with
    | some k =>
      if ((c :: cs).drop k).head? = some opener then some k
      else (findFieldOpen name opener cs).map (· + 1)
    | none => (findFieldOpen name opener cs).map (· + 1)

/-- Leftmost match of `"name":\s*"([^"]*)"` (line 1517), returning the
captured group. -/
def findStringField (name : List Char) : List Char → Option (List Char)
  | [] => none
  | c :: cs =>
    match keyValOffset name (c :: cs) with
    | some k =>
      let t := (c :: cs).drop k
      match t with
      | '"' :: body =>
        let captured := body.takeWhile (· ≠ '"')
        if (body.drop captured.length).head? = some '"' then some captured
        else findStringField name cs
      | _ => findStringField name cs
    | none => findStringField name cs

/-- The character class `[0-9.]` of the numeric field pattern. -/
def isNumRunChar (c : Char) : Bool := c.isDigit || c = '.'

/-- Leftmost match of `"name":\s*([0-9.]+)` (line 1518), returning the
captured run. -/
def findNumField (name : List Char) : List Char → Option (List Char)
  | [] => none
  | c :: cs =>
    match keyValOffset name (c :: cs) with
    | some k =>
      let run := ((c :: cs).drop k).takeWhile isNumRunChar
      if run = [] then findNumField name cs else some run
    | none => findNumField name cs

/-- JS `parseFloat` on a run matched by `[0-9.]+`: longest valid decimal
prefix, `NaN` when the run starts with dots only. -/
def jsParseFloat (run : List Char) : Json :=
  let ids := run.takeWhile Char.isDigit
  match run.drop ids.length with
  | '.' :: t =>
    let fds := t.takeWhile Char.isDigit
    if ids = [] && fds = [] then Json.nan
    else Json.num ((digitsToNat ids : Rat) + (digitsToNat fds : Rat) / (10 : Rat) ^ fds.length)
  | _ => if ids = [] then Json.nan else Json.num (digitsToNat ids : Rat)

/-- `PerplexityClient.extractCompleteArray` (lines 1443–1474): find
`"name": [`, bracket-count to the matching `]`, strip trailing commas, and
`JSON.parse` the slice; `none` on a truncated array or a parse failure. -/
def extractCompleteArray (content : List Char) (name : List Char) : Option Json :=
  match findFieldOpen name '[' content with
  | none => none
  | some start =>
    match scanBalanced '[' ']' content start with
    | none => none
    | some endIdx =>
      jsonParse (cleanTrailing [']'] ((content.drop start).take (endIdx + 1 - start)))

/-- `PerplexityClient.extractCompleteObject` (lines 1479–1510): the brace
analogue of `extractCompleteArray`. -/
def extractCompleteObject (content : List Char) (name : List Char) : Option Json :=
  match findFieldOpen name '{' content with
  | none => none
  | some start =>
    match scanBalanced '{' '}' content start with
    | none => none
    | some endIdx =>
      jsonParse (cleanTrailing ['}'] ((content.drop start).take (endIdx + 1 - start)))

/-- `PerplexityClient.extractSimpleField` (lines 1515–1527): quoted-string
pattern first, then the numeric pattern through `parseFloat`. -/
def extractSimpleField (content : List Char) (name : List Char) : Option Json :=
  match findStringField name content with
  | some body => some (Json.str body)
  | none =>
    match findNumField name content with
    | some run => some (jsParseFloat run)
    | none => none

/-- The `extractedValue` chain of line 1424: try the three extractors in
order (the source's `||` chain is faithfully `Option`-biased here, because
a non-null array or object is always truthy and the string/number extractor
sits last). -/
def extractFieldValue (content : List Char) (name : List Char) : Option Json :=
  ((extractCompleteArray content name).orElse fun _ =>
    extractCompleteObject content name).orElse fun _ =>
    extractSimpleField content name

/-- The per-field loop body of `extractCompleteSubObjects`. -/
def extractStep (content : List Char) (acc : List (List Char × Json)) (name : List Char) :
    List (List Char × Json) :=
  match extractFieldValue content name with
  | some v => acc ++ [(name, v)]
  | none => acc

/-- `PerplexityClient.extractCompleteSubObjects` (lines 1417–1438): run the
extractor chain for each expected field and keep the fields that yielded a
value, in expected-field order. -/
def extractCompleteSubObjects (content : List Char) (expectedFields : List (List Char)) :
    List (List Char × Json) :=
  expectedFields.foldl (extractStep content) []

/-- `PerplexityClient.parseResponseWithTruncationHandling` (lines
1532–1632) on a string input.  `none` models the `null` return on every
hard-failure path; all exceptions raised inside are caught by the source,
so totality of this function is the `never throws` part of the spec.  The
non-string pass-through branch (line 1535/1631) is outside this model. -/
def parseResponseWithTruncationHandling (searchResult : List Char)
    (expectedFields : List (List Char)) : Option Json :=
  let content := stripFences (stripThink (jsTrim searchResult))
  match indexOfChar '{' content, lastIndexOfChar '}' content with
  | some jsonStartIndex, some _ =>
    match scanBalanced '{' '}' content jsonStartIndex with
    | none =>
      let extracted := extractCompleteSubObjects content expectedFields
      if extracted.isEmpty then none else some (Json.obj extracted)
    | some properJsonEndIndex =>
      let jsonString := (content.drop jsonStartIndex).take (properJsonEndIndex + 1 - jsonStartIndex)
      match jsonParse (cleanTrailing ['}', ']'] jsonString) with
      | some v => some v
      | none =>
        let salvageContent := stripThink (stripFences searchResult)
        let extracted := extractCompleteSubObjects salvageContent expectedFields
        if extracted.isEmpty then none else some (Json.obj extracted)
  | _, _ => none

/-- Global replace of `(\d)_(\d)` by `$1$2` (lines 1355/1361): a thousands
separator between two digits is removed; scanning resumes after the second
digit, reproducing the JS quirk that `1_2_3` becomes `12_3`. -/
def fixUnderscores : List Char → List Char
  | c1 :: '_' :: c2 :: rest =>
    if c1.isDigit && c2.isDigit then c1 :: c2 :: fixUnderscores rest
    else c1 :: fixUnderscores ('_' :: c2 :: rest)
  | c :: rest => c :: fixUnderscores rest
  | [] => []

/-- Lazy body of the fence-extraction regex `([\s\S]*?)` of line 1359: the
shortest prefix whose continuation matches `\n?``` `. -/
def fenceBody : List Char → Option (List Char)
  | [] => none
  | c :: cs =>
    if c = '\n' && fenceChars.isPrefixOf cs then some []
    else if fenceChars.isPrefixOf (c :: cs) then some []
    else (fenceBody cs).map (c :: ·)

/-- Continuation of the fence-extraction regex after the literal
```` ```jso ````: greedy optional `n`, greedy optional newline, then the
lazy body. -/
def fenceTail (t : List Char) : Option (List Char) :=
  let t1 := if t.head? = some 'n' then t.drop 1 else t
  let t2 := if t1.head? = some '\n' then t1.drop 1 else t1
  fenceBody t2

/-- Leftmost match of `/```json?\n?([\s\S]*?)\n?```/` (line 1359),
returning the captured group. -/
def extractFenceJson : List Char → Option (List Char)
  | [] => none
  | c :: cs =>
    match (if (fenceChars ++ ['j', 's', 'o']).isPrefixOf (c :: cs) then fenceTail ((c :: cs).drop 6) else none) with
    | some body => some body
    | none => extractFenceJson cs

/-- The content-parsing step of `PerplexityClient.query` (lines 1349–1366):
if the trimmed content looks like JSON, parse it after fixing underscored
numbers; on failure fall back to the fenced block, whose parse failure
(line 1362 sits inside the catch with no further guard) escapes as a thrown
error, modelled by `none`.  `Sum.inl` is a parsed structure, `Sum.inr` the
raw content passed through. -/
def queryContentParse (content : List Char) : Option (Sum Json (List Char)) :=
  if (jsTrim content).head? = some '{' || (jsTrim content).head? = some '[' then
    match jsonParse (fixUnderscores content) with
    | some v => some (Sum.inl v)
    | none =>
      match extractFenceJson content with
      | some inner =>
        match jsonParse (fixUnderscores inner) with
        | some v => some (Sum.inl v)
        | none => none
      | none => some (Sum.inr content)
  else some (Sum.inr content)

/-- JS truthiness of a value, as used by the `||` defaulting chains in the
processors (`0`, `''`, `null`, `undefined`, `false` and `NaN` are falsy). -/
def jsTruthy : Json → Bool
  | .null => false
  | .bool b => b
  | .num q => decide (q ≠ 0)
  | .nan => false
  | .str s => !s.isEmpty
  | .arr _ => true
  | .obj _ => true

/-- Property read `obj.k`: the last binding of `k` wins, as for a JS
object built by repeated assignment; a missing property (JS `undefined`)
and a read on a non-object are modelled as `null`, which every use site
(`||` defaulting, truthiness tests) treats identically. -/
def jsGet (j : Json) (k : List Char) : Json :=
  match j with
  | .obj fs =>
    match fs.reverse.find? (fun p => p.1 = k) with
    | some p => p.2
    | none => .null
  | _ => .null

/-- The JS `a || d` defaulting idiom. -/
def jsOr (a d : Json) : Json := if jsTruthy a then a else d

/-- Property write `obj.k = v` on an object whose key may be read back by
`jsGet`. -/
def setField (j : Json) (k : List Char) (v : Json) : Json :=
  match j with
  | .obj fs => .obj (fs.map (fun p => if p.1 = k then (p.1, v) else p))
  | _ => j

/-- The `geographic_distribution` key. -/
def gdName : List Char := cl "geographic_distribution"

/-- The `market_share` key. -/
def msName : List Char := cl "market_share"

/-- The `market_share` read `(region.market_share || 0)` of line 152,
restricted to the numeric shares the claim is about (a truthy non-numeric
share would be handled by JS coercion, which no claim touches). -/
def shareOf (r : Json) : Rat :=
  match jsGet r msName with
  | .num q => q
  | _ => 0

/-- The reduce of lines 151–153: sum of `(region.market_share || 0)`. -/
def geoTotal (regions : List Json) : Rat := regions.foldl (fun sum r => sum + shareOf r) 0

/-- Division `region.market_share / totalShare` of line 160; a missing
share divides to IEEE NaN. -/
def divShare (r : Json) (t : Rat) : Json :=
  match jsGet r msName with
  | .num q => .num (q / t)
  | _ => .nan

/-- Lines 150–164 of `IndustryProcessor.process`: when the parsed
`geographic_distribution` is an array whose shares sum outside
`[0.95, 1.05]`, divide every region's `market_share` by the (positive)
total in place; otherwise leave the parsed data untouched. -/
def normalizeGeoDistribution (parsed : Json) : Json :=
  match jsGet parsed gdName with
  | .arr regions =>
    let totalShare := geoTotal regions
    if totalShare < (0.95 : Rat) || totalShare > (1.05 : Rat) then
      setField parsed gdName (.arr (regions.map (fun r =>
        if totalShare > 0 then
          setField r msName (divShare r totalShare)
        else r)))
    else parsed
  | _ => parsed

/-- Lines 167–203 of `IndustryProcessor.process`: the persistence-ready
industry record built from the parsed mapping, with every optional field
defaulted through `||` exactly as in the source (string-list fields to
`[]`, everything else to `null`), and the citation-bearing `overview_data`
column attached only when citations arrived. -/
def buildIndustryData (parsed : Json) (companyName entityId profileId : List Char)
    (citations : List Json) (now : List Char) : List (List Char × Json) :=
  [ (cl "entity_id", .str entityId),
    (cl "profile_id", .str profileId),
    (cl "industry_name", jsOr (jsGet parsed (cl "industry_name")) (.str (companyName ++ (cl " Market")))),
    (cl "industry_description", jsOr (jsGet parsed (cl "industry_description")) .null),
    (cl "market_size_usd_m", jsOr (jsGet parsed (cl "market_size_usd_m")) .null),
    (cl "market_growth_rate", jsOr (jsGet parsed (cl "market_growth_rate")) .null),
    (cl "growth_drivers", jsOr (jsGet parsed (cl "growth_drivers")) (.arr [])),
    (cl "key_trends", jsOr (jsGet parsed (cl "key_trends")) (.arr [])),
    (cl "regulatory_factors", jsOr (jsGet parsed (cl "regulatory_factors")) (.arr [])),
    (cl "technology_disruptions", jsOr (jsGet parsed (cl "technology_disruptions")) (.arr [])),
    (cl "market_maturity", jsOr (jsGet parsed (cl "market_maturity")) .null),
    (cl "competitive_intensity", jsOr (jsGet parsed (cl "competitive_intensity")) .null),
    (cl "barriers_to_entry", jsOr (jsGet parsed (cl "barriers_to_entry")) (.arr [])),
    (cl "avg_gross_margin", jsOr (jsGet parsed (cl "avg_gross_margin")) .null),
    (cl "avg_ebitda_margin", jsOr (jsGet parsed (cl "avg_ebitda_margin")) .null),
    (cl "regulatory_risk", jsOr (jsGet parsed (cl "regulatory_risk")) .null),
    (cl "technology_risk", jsOr (jsGet parsed (cl "technology_risk")) .null),
    (cl "competitive_risk", jsOr (jsGet parsed (cl "competitive_risk")) .null),
    (cl "key_opportunities", jsOr (jsGet parsed (cl "key_opportunities")) (.arr [])),
    (cl "key_challenges", jsOr (jsGet parsed (cl "key_challenges")) (.arr [])),
    (cl "market_sizing_data", jsOr (jsGet parsed (cl "market_sizing_data")) .null),
    (cl "industry_lifecycle_stage", jsOr (jsGet parsed (cl "industry_lifecycle_stage")) .null),
    (cl "market_overview", jsOr (jsGet parsed (cl "market_overview")) .null),
    (cl "geographic_distribution", jsOr (jsGet parsed (cl "geographic_distribution")) .null),
    (cl "overview_data",
      if citations.length > 0 then
        .obj
          [ (cl "industry_name", jsOr (jsGet parsed (cl "industry_name")) (.str (companyName ++ (cl " Market")))),
            (cl "market_size", jsGet parsed (cl "market_size_usd_m")),
            (cl "growth_rate", jsGet parsed (cl "market_growth_rate")),
            (cl "citations", .arr citations) ]
      else .null),
    (cl "generated_at", .str now),
    (cl "updated_at", .str now) ]

/-- The outcome of the industry attempt after the parse step (lines
143–206): a `null` parse is thrown as the hard failure; any non-null parse
is normalized, reshaped and handed to
`supabaseService.saveIndustryOverview` — the `.ok` payload is exactly the
record passed to `save`. -/
def industryAttempt (parsed : Option Json) (companyName entityId profileId : List Char)
    (citations : List Json) (now : List Char) : Except (List Char) (List (List Char × Json)) :=
  match parsed with
  | none => .error (cl "Failed to parse industry data from Perplexity")
  | some p =>
    .ok (buildIndustryData (normalizeGeoDistribution p) companyName entityId profileId citations now)

/-- Progress percentages emitted by `IndustryProcessor.process` in one
invocation (lines 42–208), as a function of which awaited step fails: the
provider query, the parse (a `null` result throws after the 50% report),
and the persistence write.  A failed step throws, so the trace is cut at
that point. -/
def industryProgressTrace (queryOk parseOk saveOk : Bool) : List Nat :=
  10 :: 20 :: 30 ::
    (if queryOk then
      50 :: (if parseOk then 70 :: 85 :: (if saveOk then [90] else []) else [])
     else [])

/-- Progress percentages of `CompetitorsProcessor.process` (lines
226–339). -/
def competitorsProgressTrace (queryOk parseOk saveOk : Bool) : List Nat :=
  10 :: 20 :: 30 ::
    (if queryOk then
      50 :: (if parseOk then 70 :: 85 :: (if saveOk then [90] else []) else [])
     else [])

/-- Progress percentages of `SupplyChainProcessor.process` (lines
346–690). -/
def supplyChainProgressTrace (queryOk parseOk saveOk : Bool) : List Nat :=
  10 :: 20 :: 30 ::
    (if queryOk then
      50 :: (if parseOk then 70 :: 85 :: (if saveOk then [90] else []) else [])
     else [])

/-- Progress percentages of `EndMarketsProcessor.process` (lines
696–854). -/
def endMarketsProgressTrace (queryOk parseOk saveOk : Bool) : List Nat :=
  10 :: 20 :: 30 ::
    (if queryOk then
      50 :: (if parseOk then 70 :: 85 :: (if saveOk then [90] else []) else [])
     else [])

/-- Progress percentages of `RegulationsProcessor.process` (lines
861–997), which performs two persistence writes between the 85% and 90%
reports. -/
def regulationsProgressTrace (queryOk parseOk save1Ok save2Ok : Bool) : List Nat :=
  10 :: 20 :: 30 ::
    (if queryOk then
      50 :: (if parseOk then 70 :: 85 :: (if save1Ok && save2Ok then [90] else []) else [])
     else [])

/-- The processor registry of `JobProcessorFactory` (lines 1002–1014): the
five job types registered in the static initializer.  Job types are plain
strings at runtime (the TypeScript union is erased). -/
def registeredProcessorTypes : List (List Char) :=
  [cl "industry", cl "competitors", cl "supplychain", cl "endmarkets", cl "regulations"]

/-- `JobProcessorFactory.getProcessor` (lines 1019–1027): the registered
processor, or the thrown dispatch error naming the job type. -/
def getProcessor (jobType : List Char) : Except (List Char) (List Char) :=
  if registeredProcessorTypes.contains jobType then .ok jobType
  else .error (cl "No processor registered for job type: " ++ jobType)

/-- `JobProcessorFactory.hasProcessor` (lines 1032–1034). -/
def hasProcessor (jobType : List Char) : Bool := registeredProcessorTypes.contains jobType

/-- One attempt of the queue's process handler (lines 1085–1128): look the
processor up — a dispatch failure is rethrown by the catch unchanged — then
run it, whose external outcome is abstracted by `externalOk`. -/
def processAttempt (jobType : List Char) (externalOk : Bool) : Except (List Char) Unit :=
  match getProcessor jobType with
  | .error e => .error e
  | .ok _ => if externalOk then .ok () else .error (cl "provider failure")

/-- Modelled from the spec and the queue configuration of `addJob` (lines
1171–1191), since Bull itself is an external collaborator: `attempts: 3`
with backoff retries every thrown error, consuming one attempt per try;
the pair returned is (attempts consumed, final outcome).  Nothing in the
handler exempts any error class from this retry loop. -/
def runWithRetries : Nat → (Nat → Except (List Char) Unit) → Nat × Except (List Char) Unit
  | 0, _ => (0, .error [])
  | 1, attempt => (1, attempt 0)
  | n + 2, attempt =>
    match attempt 0 with
    | .ok r => (1, .ok r)
    | .error _ =>
      let rest := runWithRetries (n + 1) (fun i => attempt (i + 1))
      (rest.1 + 1, rest.2)

/-- Bull job states: the four the source queries, plus the `delayed` state
a job occupies while waiting out its retry backoff and the `paused` state
of a paused queue. -/
inductive BullState where
  | waiting | active | completed | failed | delayed | paused
deriving Repr, DecidableEq

/-- The payload a job carries (`JobData`, lines 1041–1053), reduced to the
identifying field the status lookup matches on plus an opaque remainder. -/
structure JobData where
  jobId : List Char
  payload : List Char
deriving Repr, DecidableEq

/-- A job held by the Bull queue, with the snapshot fields `getJobStatus`
reads. -/
structure BullJob where
  data : JobData
  state : BullState
  progress : Nat
  returnvalue : Option Json
  failedReason : Option (List Char)
deriving Repr, DecidableEq

/-- The state list passed to `getJobs` on line 1194. -/
def queriedStates : List BullState :=
  [.active, .waiting, .completed, .failed]

/-- The snapshot `getJobStatus` returns (lines 1204–1211). -/
structure JobSnapshot where
  jobId : List Char
  status : BullState
  progress : Nat
  data : JobData
  result : Option Json
  failedReason : Option (List Char)
deriving Repr, DecidableEq

/-- `JobQueue.getJobStatus` (lines 1193–1212): fetch the jobs in the four
queried states, find the one whose payload `jobId` matches, and return its
snapshot; `none` models the `null` not-found return. -/
def getJobStatus (store : List BullJob) (jobId : List Char) : Option JobSnapshot :=
  match (store.filter (fun j => queriedStates.contains j.state)).find?
      (fun j => j.data.jobId = jobId) with
  | some j =>
    some
      { jobId := jobId, status := j.state, progress := j.progress, data := j.data,
        result := j.returnvalue, failedReason := j.failedReason }
  | none => none

deriving instance DecidableEq for Except

/-- Executable check that a percentage list never decreases. -/
def nondecreasing : List Nat → Bool
  | [] => true
  | [_] => true
  | a :: b :: t => decide (a ≤ b) && nondecreasing (b :: t)

/-- The executable check coincides with `List.Chain' (· ≤ ·)`. -/
theorem nondecreasing_iff_chain : ∀ l : List Nat, nondecreasing l = true ↔ List.Chain' (· ≤ ·) l
  | [] => by simp [nondecreasing]
  | [_] => by simp [nondecreasing]
  | a :: b :: t => by
    simp [nondecreasing, List.chain'_cons, nondecreasing_iff_chain (b :: t)]

/-- A document truncated after two fully-closed array fields that contains
no closing brace at all. -/
def truncNoBraceText : List Char := ("\x7b\"a\": [1, 2], \"b\": [3").toList

/-- A complete JSON object one of whose string values contains a closing
brace. -/
def braceInStringText : List Char := ("\x7b\"a\": \x7b\"b\": \"\x7d\"\x7d\x7d").toList

/-- A truncated document whose complete numeric field uses an underscore
thousands separator. -/
def underscoreTruncText : List Char :=
  ("\x7b\"a\": \x7b\"x\": 1\x7d, \"market_size_usd_m\": 55_750, \"b\": [").toList

/-- A complete document with an underscore thousands separator, as handed
to the parse step of `query`. -/
def underscoreQueryText : List Char := ("\x7b\"x\": 55_750\x7d").toList

/-- A truncated document (open array at the end) that still contains a
closing brace, so the boundary checks pass and the truncation path runs. -/
def truncWithBraceText : List Char := ("\x7b\"a\": \x7b\"x\": 1\x7d, \"b\": [2").toList

/-- C9 (confirmed): within one invocation of each registered processor's
`process`, whatever the outcomes of the awaited external steps (provider
query, parse, persistence writes), the percentages handed to the progress
callback form a non-decreasing sequence. -/
theorem c9_progress_monotone :
    ∀ q p s s2 : Bool,
      List.Chain' (· ≤ ·) (industryProgressTrace q p s) ∧
      List.Chain' (· ≤ ·) (competitorsProgressTrace q p s) ∧
      List.Chain' (· ≤ ·) (supplyChainProgressTrace q p s) ∧
      List.Chain' (· ≤ ·) (endMarketsProgressTrace q p s) ∧
      List.Chain' (· ≤ ·) (regulationsProgressTrace q p s s2) := by
  intro q p s s2
  refine ⟨(nondecreasing_iff_chain _).mp ?_, (nondecreasing_iff_chain _).mp ?_,
    (nondecreasing_iff_chain _).mp ?_, (nondecreasing_iff_chain _).mp ?_,
    (nondecreasing_iff_chain _).mp ?_⟩ <;> revert q p s s2 <;> decide

/-- C3 counterexample: a job with an unregistered type consumes all three
configured attempts — exactly as many as a transiently failing registered
job — so the dispatch error is retried, contrary to the claim. -/
theorem c3_counterexample :
    (runWithRetries 3 (fun _ => processAttempt (cl "unknown-type") true)).1 = 3 ∧
    (runWithRetries 3 (fun _ => processAttempt (cl "unknown-type") true)).2 =
      .error (cl "No processor registered for job type: unknown-type") ∧
    (runWithRetries 3 (fun _ => processAttempt (cl "industry") false)).1 = 3 := by
  decide

/-- C3 (corrected): `getProcessor` does throw a distinct error naming the
unregistered job type, but nothing exempts that error from the queue's
retry policy: the job consumes all three attempts before failing with the
dispatch message. -/
theorem c3_amended (t : List Char) (h : registeredProcessorTypes.contains t = false)
    (ext : Bool) :
    runWithRetries 3 (fun _ => processAttempt t ext) =
      (3, .error (cl "No processor registered for job type: " ++ t)) := by
  show runWithRetries (1 + 2) _ = _
  rw [runWithRetries]
  simp only [processAttempt, getProcessor, h, Bool.false_eq_true, if_false]
  show (_, _) = _
  rw [show (1:Nat) + 1 = 0 + 2 by rfl, runWithRetries]
  simp only [processAttempt, getProcessor, h, Bool.false_eq_true, if_false]
  rw [show (0:Nat) + 1 = 1 by rfl, runWithRetries]

/-- Witness for `c3_amended` at the concrete unregistered type `foo`. -/
theorem c3_amended_witness :
    registeredProcessorTypes.contains (cl "foo") = false ∧
    runWithRetries 3 (fun _ => processAttempt (cl "foo") true) =
      (3, .error (cl "No processor registered for job type: " ++ cl "foo")) :=
  ⟨by decide, c3_amended (cl "foo") (by decide) true⟩

/-- A job sitting out its retry backoff: Bull holds it in the `delayed`
state. -/
def delayedJob : BullJob :=
  { data := { jobId := cl "job-1", payload := cl "acme" }, state := .delayed,
    progress := 30, returnvalue := none, failedReason := some (cl "provider failure") }

/-- An actively running job used by the status witnesses. -/
def activeJob : BullJob :=
  { data := { jobId := cl "job-2", payload := cl "acme" }, state := .active,
    progress := 50, returnvalue := none, failedReason := none }

/-- C4 counterexample: a job that failed transiently and is waiting out its
backoff (state `delayed`) is held by the queue, yet `getJobStatus` answers
with the not-found signal, because line 1194 only queries the four states
`active`, `waiting`, `completed`, `failed`. -/
theorem c4_counterexample :
    delayedJob ∈ [delayedJob] ∧ delayedJob.data.jobId = cl "job-1" ∧
    getJobStatus [delayedJob] (cl "job-1") = none :=
  ⟨List.mem_singleton_self _, rfl, by decide⟩

/-- C4 (corrected): `getJobStatus` returns the snapshot exactly for jobs in
one of the four queried states (`active`, `waiting`, `completed`,
`failed`); a held job in any other state — in particular `delayed`, the
state of a job waiting out its retry backoff — is reported as not found. -/
theorem c4_amended (store : List BullJob) (jobId : List Char) :
    ((∀ j ∈ store, j.data.jobId = jobId → queriedStates.contains j.state = false) →
      getJobStatus store jobId = none) ∧
    (∀ j ∈ store, j.data.jobId = jobId → queriedStates.contains j.state = true →
      (∀ j2 ∈ store, j2.data.jobId = jobId → j2 = j) →
      getJobStatus store jobId =
        some { jobId := jobId, status := j.state, progress := j.progress, data := j.data,
               result := j.returnvalue, failedReason := j.failedReason }) := by
  constructor
  · intro h
    unfold getJobStatus
    rw [List.find?_eq_none.mpr]
    intro j hj
    have hj2 := List.mem_filter.mp hj
    simp only [decide_eq_true_eq]
    intro he
    have := h j hj2.1 he
    rw [this] at hj2
    exact absurd hj2.2 (by simp)
  · intro j hj hid hstate huniq
    have key : (store.filter (fun j2 => queriedStates.contains j2.state)).find?
        (fun j2 => j2.data.jobId = jobId) = some j := by
      induction store with
      | nil => cases hj
      | cons x rest ih =>
        rcases List.mem_cons.mp hj with hx | hrest
        · subst hx
          simp only [List.filter_cons, hstate, if_true]
          rw [List.find?_cons_of_pos _ (by simpa using hid)]
        · by_cases hxid : x.data.jobId = jobId
          · have hxj : x = j := huniq x (List.mem_cons_self x rest) hxid
            subst hxj
            simp only [List.filter_cons, hstate, if_true]
            rw [List.find?_cons_of_pos _ (by simpa using hxid)]
          · have step : ∀ j2 ∈ rest, j2.data.jobId = jobId → j2 = j := fun j2 h2 he =>
              huniq j2 (List.mem_cons_of_mem x h2) he
            by_cases hxs : queriedStates.contains x.state = true
            · simp only [List.filter_cons, hxs, if_true]
              rw [List.find?_cons_of_neg _ (by simpa using hxid)]
              exact ih hrest step
            · have hxs2 : queriedStates.contains x.state = false := by simpa using hxs
              simp only [List.filter_cons, hxs2, if_false]
              exact ih hrest step
    unfold getJobStatus
    rw [key]

/-- Witness for `c4_amended` at a two-job store: the active job is found
with its snapshot. -/
theorem c4_amended_witness :
    activeJob ∈ [delayedJob, activeJob] ∧
    getJobStatus [delayedJob, activeJob] (cl "job-2") =
      some { jobId := cl "job-2", status := .active, progress := 50, data := activeJob.data,
             result := none, failedReason := none } :=
  ⟨by decide, (c4_amended [delayedJob, activeJob] (cl "job-2")).2 activeJob (by decide) (by decide)
    (by decide) (by decide)⟩

/-- Updating a key that is present is read back by `jsGet`: the mapped
binding list has the new value at every `k` binding, so the last-wins read
returns it. -/
theorem find_map_update (k : List Char) (v : Json) :
    ∀ l : List (List Char × Json),
      (l.map (fun p => if p.1 = k then (p.1, v) else p)).find? (fun p => p.1 = k) =
        (l.find? (fun p => p.1 = k)).map (fun p => (p.1, v))
  | [] => rfl
  | p :: t => by
    by_cases h : p.1 = k
    · rw [List.map_cons, if_pos h]
      rw [List.find?_cons_of_pos _ (by simpa using h), List.find?_cons_of_pos _ (by simpa using h)]
      rfl
    · simp only [List.map_cons, if_neg h]
      rw [List.find?_cons_of_neg _ (by simpa using h), List.find?_cons_of_neg _ (by simpa using h)]
      exact find_map_update k v t

/-- Unfolding equation of `jsGet` on an object. -/
theorem jsGet_obj (fs : List (List Char × Json)) (k : List Char) :
    jsGet (Json.obj fs) k =
      match fs.reverse.find? (fun p => p.1 = k) with
      | some p => p.2
      | none => Json.null := rfl

/-- `jsGet` after `setField` on a present key reads the written value. -/
theorem jsGet_setField (j : Json) (k : List Char) (v : Json) (h : jsGet j k ≠ .null) :
    jsGet (setField j k v) k = v := by
  cases j with
  | obj fs =>
    rw [show setField (Json.obj fs) k v =
          Json.obj (fs.map fun p => if p.1 = k then (p.1, v) else p) from rfl,
        jsGet_obj, ← List.map_reverse, find_map_update]
    rw [jsGet_obj] at h
    rcases hf : fs.reverse.find? (fun p => p.1 = k) with _ | p
    · rw [hf] at h
      exact absurd rfl h
    · rw [hf]
      rfl
  | null => exact absurd rfl h
  | bool b => exact absurd rfl h
  | num q => exact absurd rfl h
  | nan => exact absurd rfl h
  | str s2 => exact absurd rfl h
  | arr a => exact absurd rfl h

/-- Folding the share sum from any accumulator. -/
theorem geoTotal_foldl (l : List Json) :
    ∀ a : Rat, l.foldl (fun s r => s + shareOf r) a = a + geoTotal l := by
  induction l with
  | nil => intro a; simp [geoTotal]
  | cons x t ih =>
    intro a
    show t.foldl _ (a + shareOf x) = _
    rw [ih (a + shareOf x)]
    show _ = a + t.foldl _ (0 + shareOf x)
    rw [ih (0 + shareOf x)]
    ring

/-- Share sum of a cons cell. -/
theorem geoTotal_cons (x : Json) (t : List Json) : geoTotal (x :: t) = shareOf x + geoTotal t := by
  show (x :: t).foldl _ 0 = _
  rw [List.foldl_cons, geoTotal_foldl]
  ring

/-- Dividing every share divides the sum. -/
theorem geoTotal_map_div (t : Rat) (f : Json → Json) :
    ∀ l : List Json, (∀ r ∈ l, shareOf (f r) = shareOf r / t) →
      geoTotal (l.map f) = geoTotal l / t
  | [], _ => by simp [geoTotal, zero_div]
  | x :: l, h => by
    rw [List.map_cons, geoTotal_cons, geoTotal_cons, h x (List.mem_cons_self x l),
      geoTotal_map_div t f l (fun r hr => h r (List.mem_cons_of_mem x hr)), add_div]

/-- C10 (confirmed): in `IndustryProcessor.process`, when the parsed
`geographic_distribution` is an array of regions with numeric
`market_share` values whose total is positive and falls outside
`[0.95, 1.05]`, every region's share is divided by that total, so the
stored shares sum to exactly 1 (exact-rational model of the JS numbers);
when the total lies inside `[0.95, 1.05]` the parsed data is returned
untouched, and when it is zero the shares are left unchanged as well. -/
theorem c10_geo_normalization (parsed : Json) (regions : List Json)
    (hget : jsGet parsed gdName = .arr regions)
    (hbind : ∀ fs, parsed = .obj fs → ∀ p ∈ fs, p.1 = gdName → p.2 = .arr regions)
    (hnum : ∀ r ∈ regions, ∃ q : Rat, jsGet r msName = .num q) :
    (0 < geoTotal regions → (geoTotal regions < 0.95 ∨ 1.05 < geoTotal regions) →
      ∃ regions2 : List Json,
        jsGet (normalizeGeoDistribution parsed) gdName = .arr regions2 ∧
        geoTotal regions2 = 1) ∧
    ((0.95 ≤ geoTotal regions ∧ geoTotal regions ≤ 1.05) ∨ geoTotal regions = 0 →
      normalizeGeoDistribution parsed = parsed) := by
  constructor
  · intro hpos hout
    have hcond : (geoTotal regions < (0.95 : Rat) || geoTotal regions > (1.05 : Rat)) = true := by
      rcases hout with h | h <;> simp [h]
    refine ⟨(regions.map (fun r =>
      if geoTotal regions > 0 then setField r msName (divShare r (geoTotal regions)) else r)), ?_, ?_⟩
    · unfold normalizeGeoDistribution
      rw [hget]
      simp only [hcond, if_true]
      exact jsGet_setField parsed gdName _ (by rw [hget]; intro hc; cases hc)
    · have hpos2 : (geoTotal regions > (0 : Rat)) = True := by simp [hpos]
      simp only [hpos2, if_true]
      rw [geoTotal_map_div (geoTotal regions) _ regions ?_]
      · exact div_self (ne_of_gt hpos)
      · intro r hr
        rcases hnum r hr with ⟨q, hq⟩
        have hdiv : divShare r (geoTotal regions) = .num (q / geoTotal regions) := by
          unfold divShare; rw [hq]
        have hset := jsGet_setField r msName (Json.num (q / geoTotal regions))
          (by rw [hq]; intro hc; cases hc)
        unfold shareOf
        rw [hdiv, hset, hq]
  · intro hin
    unfold normalizeGeoDistribution
    rw [hget]
    rcases hin with ⟨h1, h2⟩ | h0
    · have hcond : (geoTotal regions < (0.95 : Rat) || geoTotal regions > (1.05 : Rat)) = false := by
        simp only [Bool.or_eq_false_iff, decide_eq_false_iff_not, not_lt, gt_iff_lt]
        exact ⟨h1, h2⟩
      simp [hcond]
    · have hcond : (geoTotal regions < (0.95 : Rat) || geoTotal regions > (1.05 : Rat)) = true := by
        rw [h0]; norm_num
      simp only [hcond, if_true]
      have hmap : regions.map (fun r =>
          if geoTotal regions > 0 then setField r msName (divShare r (geoTotal regions)) else r) =
          regions := by
        rw [h0]
        simp
      rw [hmap]
      cases hp : parsed with
      | obj fs =>
        show Json.obj (fs.map _) = _
        have hid2 : fs.map (fun p => if p.1 = gdName then (p.1, Json.arr regions) else p) =
            fs.map id := by
          apply List.map_congr_left
          intro p hp2
          by_cases hk : p.1 = gdName
          · rw [if_pos hk, ← hbind fs hp p hp2 hk]
            exact Prod.mk.eta
          · rw [if_neg hk]
            rfl
        rw [hid2, List.map_id]
      | null => rfl
      | bool b => rfl
      | num q => rfl
      | nan => rfl
      | str s2 => rfl
      | arr a => rfl

/-- Witness for `c10_geo_normalization` at a one-region distribution whose
share is 0.5: the normalized shares sum to 1. -/
theorem c10_geo_normalization_witness :
    ∃ regions2 : List Json,
      jsGet (normalizeGeoDistribution
        (.obj [(gdName, .arr [.obj [(msName, .num (1/2))]])])) gdName = .arr regions2 ∧
      geoTotal regions2 = 1 :=
  (c10_geo_normalization (.obj [(gdName, .arr [.obj [(msName, .num (1/2))]])])
    [.obj [(msName, .num (1/2))]]
    rfl
    (by intro fs hfs p hp hk
        cases hfs
        rcases List.mem_singleton.mp hp with rfl
        rfl)
    (by intro r hr
        rcases List.mem_singleton.mp hr with rfl
        exact ⟨1/2, rfl⟩)).1
    (by show (0:Rat) < geoTotal _; norm_num [geoTotal, shareOf, jsGet, msName, List.foldl])
    (Or.inl (by show geoTotal _ < _; norm_num [geoTotal, shareOf, jsGet, msName, List.foldl]))

/-- C8 counterexample: `market_sizing_data` and `geographic_distribution`
are list-valued fields of the industry record, yet when they are absent
from the recovery the record stores `null` for them (lines 188 and 191),
not an empty array as the claim's defaulting rule states. -/
theorem c8_counterexample :
    (buildIndustryData (.obj []) (cl "ACME") (cl "e1") (cl "p1") [] (cl "t0")).lookup
        (cl "market_sizing_data") = some Json.null ∧
    (buildIndustryData (.obj []) (cl "ACME") (cl "e1") (cl "p1") [] (cl "t0")).lookup
        (cl "geographic_distribution") = some Json.null ∧
    Json.null ≠ Json.arr [] :=
  ⟨rfl, rfl, fun h => Json.noConfusion h⟩

/-- C8 (corrected): every non-null parsed mapping is reshaped into a
complete record and handed to the persistence call — the attempt never
fails for absent optional fields — and each missing (or falsy) optional
field is defaulted: the seven string-list fields to `[]`, the scalar and
object fields to `null`, `industry_name` to a company-derived name, but the
list fields `market_sizing_data` and `geographic_distribution` to `null`
rather than to an empty array. -/
theorem c8_amended (parsed : Json) (companyName entityId profileId : List Char)
    (citations : List Json) (now : List Char) :
    (industryAttempt (some parsed) companyName entityId profileId citations now =
      .ok (buildIndustryData (normalizeGeoDistribution parsed) companyName entityId profileId
        citations now)) ∧
    (∀ f ∈ [cl "growth_drivers", cl "key_trends", cl "regulatory_factors",
        cl "technology_disruptions", cl "barriers_to_entry", cl "key_opportunities",
        cl "key_challenges"],
      jsTruthy (jsGet parsed f) = false →
      (buildIndustryData parsed companyName entityId profileId citations now).lookup f =
        some (Json.arr [])) ∧
    (∀ f ∈ [cl "industry_description", cl "market_size_usd_m", cl "market_growth_rate",
        cl "market_maturity", cl "competitive_intensity", cl "avg_gross_margin",
        cl "avg_ebitda_margin", cl "regulatory_risk", cl "technology_risk",
        cl "competitive_risk", cl "market_sizing_data", cl "industry_lifecycle_stage",
        cl "market_overview", cl "geographic_distribution"],
      jsTruthy (jsGet parsed f) = false →
      (buildIndustryData parsed companyName entityId profileId citations now).lookup f =
        some Json.null) ∧
    (jsTruthy (jsGet parsed (cl "industry_name")) = false →
      (buildIndustryData parsed companyName entityId profileId citations now).lookup
          (cl "industry_name") =
        some (.str (companyName ++ cl " Market"))) := by
  refine ⟨rfl, ?_, ?_, ?_⟩
  · intro f hf h
    simp only [List.mem_cons, List.not_mem_nil, or_false] at hf
    rcases hf with rfl | rfl | rfl | rfl | rfl | rfl | rfl <;>
      · show some (jsOr _ _) = _
        simp [jsOr, h]
  · intro f hf h
    simp only [List.mem_cons, List.not_mem_nil, or_false] at hf
    rcases hf with rfl | rfl | rfl | rfl | rfl | rfl | rfl | rfl | rfl | rfl | rfl | rfl | rfl | rfl <;>
      · show some (jsOr _ _) = _
        simp [jsOr, h]
  · intro h
    show some (jsOr _ _) = _
    simp [jsOr, h]

/-- Witness for `c8_amended` at the empty parsed mapping: the attempt
succeeds and the absent `market_sizing_data` is stored as `null`. -/
theorem c8_amended_witness :
    industryAttempt (some (.obj [])) (cl "ACME") (cl "e1") (cl "p1") [] (cl "t0") =
      .ok (buildIndustryData (normalizeGeoDistribution (.obj [])) (cl "ACME") (cl "e1")
        (cl "p1") [] (cl "t0")) ∧
    (buildIndustryData (.obj []) (cl "ACME") (cl "e1") (cl "p1") [] (cl "t0")).lookup
        (cl "market_sizing_data") = some Json.null :=
  ⟨(c8_amended (.obj []) (cl "ACME") (cl "e1") (cl "p1") [] (cl "t0")).1,
   (c8_amended (.obj []) (cl "ACME") (cl "e1") (cl "p1") [] (cl "t0")).2.2.1
     (cl "market_sizing_data") (by simp) rfl⟩

/-- One step of the depth count the balanced scans maintain. -/
def depthStep (oc cc : Char) (d : Int) (c : Char) : Int :=
  if c = oc then d + 1 else if c = cc then d - 1 else d

/-- Net bracket-nesting depth of a character list for a bracket pair. -/
def netDepth (oc cc : Char) (l : List Char) : Int := l.foldl (depthStep oc cc) 0

/-- What a successful balanced scan means: the scanned slice, up to and
including the closing token found, brings the running depth back to
zero. -/
theorem scanBalGo_spec (oc cc : Char) :
    ∀ (l : List Char) (d : Int) (i e : Nat), scanBalGo oc cc l d i = some e →
      i ≤ e ∧ e - i < l.length ∧ (l.take (e - i + 1)).foldl (depthStep oc cc) d = 0
  | [], _, _, _ => by intro h; cases h
  | c :: cs, d, i, e => by
    intro h
    unfold scanBalGo at h
    by_cases hoc : c = oc
    · rw [if_pos hoc] at h
      obtain ⟨h1, h2, h3⟩ := scanBalGo_spec oc cc cs (d + 1) (i + 1) e h
      refine ⟨by omega, by simp only [List.length_cons]; omega, ?_⟩
      have he : e - i + 1 = (e - (i + 1) + 1) + 1 := by omega
      rw [he, List.take_succ_cons, List.foldl_cons]
      have hd : depthStep oc cc d c = d + 1 := by unfold depthStep; rw [if_pos hoc]
      rw [hd]
      exact h3
    · rw [if_neg hoc] at h
      by_cases hcc : c = cc
      · rw [if_pos hcc] at h
        by_cases hz : d - 1 = 0
        · rw [if_pos hz] at h
          injection h with he
          subst he
          refine ⟨le_refl _, by simp, ?_⟩
          simp only [Nat.sub_self, List.take_succ_cons, List.take_zero, List.foldl_cons,
            List.foldl_nil]
          have hd : depthStep oc cc d c = d - 1 := by
            unfold depthStep; rw [if_neg hoc, if_pos hcc]
          rw [hd]
          exact hz
        · rw [if_neg hz] at h
          obtain ⟨h1, h2, h3⟩ := scanBalGo_spec oc cc cs (d - 1) (i + 1) e h
          refine ⟨by omega, by simp only [List.length_cons]; omega, ?_⟩
          have he : e - i + 1 = (e - (i + 1) + 1) + 1 := by omega
          rw [he, List.take_succ_cons, List.foldl_cons]
          have hd : depthStep oc cc d c = d - 1 := by
            unfold depthStep; rw [if_neg hoc, if_pos hcc]
          rw [hd]
          exact h3
      · rw [if_neg hcc] at h
        obtain ⟨h1, h2, h3⟩ := scanBalGo_spec oc cc cs d (i + 1) e h
        refine ⟨by omega, by simp only [List.length_cons]; omega, ?_⟩
        have he : e - i + 1 = (e - (i + 1) + 1) + 1 := by omega
        rw [he, List.take_succ_cons, List.foldl_cons]
        have hd : depthStep oc cc d c = d := by
          unfold depthStep; rw [if_neg hoc, if_neg hcc]
        rw [hd]
        exact h3

/-- Membership in the extraction result certifies a successful extractor
chain: the fold only ever appends fields whose chain produced a value. -/
theorem mem_extract_foldl (content : List Char) :
    ∀ (fields : List (List Char)) (acc : List (List Char × Json)) (name : List Char) (v : Json),
      (name, v) ∈ fields.foldl (extractStep content) acc →
      (name, v) ∈ acc ∨ extractFieldValue content name = some v
  | [], acc, name, v => by intro h; exact Or.inl h
  | f :: t, acc, name, v => by
    intro h
    rcases mem_extract_foldl content t (extractStep content acc f) name v h with hacc | hchain
    · unfold extractStep at hacc
      rcases hv : extractFieldValue content f with _ | w
      · rw [hv] at hacc
        exact Or.inl hacc
      · rw [hv] at hacc
        rcases List.mem_append.mp hacc with h1 | h2
        · exact Or.inl h1
        · rcases List.mem_singleton.mp h2 with h3
          injection h3 with hn hv2
          subst hn
          subst hv2
          exact Or.inr hv
    · exact Or.inr hchain

/-- C6 (confirmed): the per-field salvage never yields a field whose
bracket or brace nesting fails to balance in the supplied text.
`extractCompleteArray` (resp. `extractCompleteObject`) returns a value only
when the balanced scan finds a matching closing token — so the extracted
slice has net depth zero — and the slice parses as JSON after the
trailing-comma cleanup; and a field appears in the extraction result only
when its extractor chain produced a value, so a field failing all three
extractors is omitted. -/
theorem c6_extractors_balanced :
    (∀ content name v, extractCompleteArray content name = some v →
      ∃ start endIdx, findFieldOpen name '[' content = some start ∧
        scanBalanced '[' ']' content start = some endIdx ∧ start ≤ endIdx ∧
        netDepth '[' ']' ((content.drop start).take (endIdx + 1 - start)) = 0 ∧
        jsonParse (cleanTrailing [']'] ((content.drop start).take (endIdx + 1 - start))) =
          some v) ∧
    (∀ content name v, extractCompleteObject content name = some v →
      ∃ start endIdx, findFieldOpen name '{' content = some start ∧
        scanBalanced '{' '}' content start = some endIdx ∧ start ≤ endIdx ∧
        netDepth '{' '}' ((content.drop start).take (endIdx + 1 - start)) = 0 ∧
        jsonParse (cleanTrailing ['}'] ((content.drop start).take (endIdx + 1 - start))) =
          some v) ∧
    (∀ content fields name v, (name, v) ∈ extractCompleteSubObjects content fields →
      extractFieldValue content name = some v) := by
  refine ⟨?_, ?_, ?_⟩
  · intro content name v h
    unfold extractCompleteArray at h
    split at h
    next => cases h
    next start heq =>
      split at h
      next => cases h
      next endIdx heq2 =>
        obtain ⟨h1, _, h3⟩ := scanBalGo_spec '[' ']' (content.drop start) 0 start endIdx heq2
        refine ⟨start, endIdx, heq, heq2, h1, ?_, h⟩
        have he : endIdx + 1 - start = endIdx - start + 1 := by omega
        rw [he]
        exact h3
  · intro content name v h
    unfold extractCompleteObject at h
    split at h
    next => cases h
    next start heq =>
      split at h
      next => cases h
      next endIdx heq2 =>
        obtain ⟨h1, _, h3⟩ := scanBalGo_spec '{' '}' (content.drop start) 0 start endIdx heq2
        refine ⟨start, endIdx, heq, heq2, h1, ?_, h⟩
        have he : endIdx + 1 - start = endIdx - start + 1 := by omega
        rw [he]
        exact h3
  · intro content fields name v h
    rcases mem_extract_foldl content fields [] name v h with hacc | hchain
    · cases hacc
    · exact hchain

/-- A small document for the extractor witnesses: a complete array field, a
complete object field, and a truncated array field. -/
def extractorWitnessText : List Char :=
  ("\x7b\"b\": [3, 4], \"o\": \x7b\"x\": 1\x7d, \"t\": [5").toList

/-- Witness for `c6_extractors_balanced` on a concrete document: the
complete array field is extracted with a balanced slice, and the truncated
field is omitted from the result. -/
theorem c6_extractors_balanced_witness :
    (∃ start endIdx, findFieldOpen (cl "b") '[' extractorWitnessText = some start ∧
      scanBalanced '[' ']' extractorWitnessText start = some endIdx ∧ start ≤ endIdx ∧
      netDepth '[' ']' ((extractorWitnessText.drop start).take (endIdx + 1 - start)) = 0 ∧
      jsonParse (cleanTrailing [']']
        ((extractorWitnessText.drop start).take (endIdx + 1 - start))) =
        some (.arr [.num 3, .num 4])) ∧
    extractFieldValue extractorWitnessText (cl "o") = some (.obj [(cl "x", .num 1)]) := by
  refine ⟨c6_extractors_balanced.1 extractorWitnessText (cl "b") (.arr [.num 3, .num 4]) rfl,
    c6_extractors_balanced.2.2 extractorWitnessText [cl "b", cl "o", cl "t"] (cl "o")
      (.obj [(cl "x", .num 1)]) ?_⟩
  have hres : extractCompleteSubObjects extractorWitnessText [cl "b", cl "o", cl "t"] =
      [(cl "b", .arr [.num 3, .num 4]), (cl "o", .obj [(cl "x", .num 1)])] := rfl
  rw [hres]
  simp

/-- C2 counterexample: on the complete document `{}` with expected field
`a` the parser returns the empty mapping — a non-null result — although
zero expected fields are salvageable from the text, so null is not
equivalent to "zero fields salvageable". -/
theorem c2_counterexample :
    parseResponseWithTruncationHandling (cl "\x7b\x7d") [cl "a"] = some (Json.obj []) ∧
    extractCompleteSubObjects (stripFences (stripThink (jsTrim (cl "\x7b\x7d")))) [cl "a"] = [] :=
  ⟨rfl, rfl⟩

/-- C2 (corrected): the null-iff-nothing-salvageable equivalence holds on
the truncation path — when the cleaned text contains `{` and `}` and the
balanced scan detects truncation, the result is null exactly when the
per-field extraction over the expected fields is empty — but not in
general: a whole-document parse may return a non-null mapping containing
none of the expected fields, and a text with no brace at all returns null
without attempting salvage. -/
theorem c2_amended (searchResult : List Char) (expectedFields : List (List Char))
    (jsonStartIndex : Nat)
    (hstart : indexOfChar '{' (stripFences (stripThink (jsTrim searchResult))) =
      some jsonStartIndex)
    (hend : (lastIndexOfChar '}' (stripFences (stripThink (jsTrim searchResult)))).isSome)
    (htrunc : scanBalanced '{' '}' (stripFences (stripThink (jsTrim searchResult)))
      jsonStartIndex = none) :
    parseResponseWithTruncationHandling searchResult expectedFields = none ↔
      extractCompleteSubObjects (stripFences (stripThink (jsTrim searchResult)))
        expectedFields = [] := by
  simp only [parseResponseWithTruncationHandling]
  rw [hstart]
  rcases he : lastIndexOfChar '}' (stripFences (stripThink (jsTrim searchResult))) with _ | e
  · rw [he] at hend
    cases hend
  · simp only [htrunc]
    rcases hx : extractCompleteSubObjects (stripFences (stripThink (jsTrim searchResult)))
        expectedFields with _ | ⟨p, t⟩
    · simp [hx]
    · simp [hx]

/-- Witness for `c2_amended` on a truncated document with a salvageable
field: the hypotheses hold and the parser result is non-null. -/
theorem c2_amended_witness :
    indexOfChar '{' (stripFences (stripThink (jsTrim truncWithBraceText))) = some 0 ∧
    (lastIndexOfChar '}' (stripFences (stripThink (jsTrim truncWithBraceText)))).isSome = true ∧
    scanBalanced '{' '}' (stripFences (stripThink (jsTrim truncWithBraceText))) 0 = none ∧
    (parseResponseWithTruncationHandling truncWithBraceText [cl "a"] = none ↔
      extractCompleteSubObjects (stripFences (stripThink (jsTrim truncWithBraceText)))
        [cl "a"] = []) :=
  ⟨rfl, rfl, rfl, c2_amended truncWithBraceText [cl "a"] 0 rfl rfl rfl⟩

/-- C7 counterexample: on the per-field salvage path nothing normalizes
underscores — the numeric pattern `[0-9.]+` stops at the `_`, so a complete
field emitted as `55_750` in a truncated document is salvaged as the number
55, not 55750. -/
theorem c7_counterexample :
    parseResponseWithTruncationHandling underscoreTruncText [cl "market_size_usd_m"] =
      some (Json.obj [(cl "market_size_usd_m", Json.num 55)]) :=
  rfl

/-- C7 (corrected): thousands-separator underscores are normalized only on
the whole-document parse paths inside `query` — where `55_750` indeed
parses as the number 55750 — and not in
`parseResponseWithTruncationHandling`'s per-field salvage, where the
underscore truncates the matched numeral: the simple-field extractor
returns 55 for a field written `55_750`. -/
theorem c7_amended :
    fixUnderscores (cl "55_750") = cl "55750" ∧
    queryContentParse underscoreQueryText =
      some (Sum.inl (Json.obj [(cl "x", Json.num 55750)])) ∧
    extractSimpleField underscoreTruncText (cl "market_size_usd_m") = some (Json.num 55) :=
  ⟨rfl, rfl, rfl⟩

/-- C1 counterexample: a document truncated immediately after the two
fully-closed fields `a` and `b` and mid-way through a third field, which
happens to contain no closing brace anywhere, is answered with null — not
with the mapping `a`, `b` — because lines 1556–1562 bail out when
`lastIndexOf('}')` finds nothing, before any salvage is attempted. -/
theorem c1_counterexample :
    parseResponseWithTruncationHandling truncNoBraceText [cl "a", cl "b"] = none ∧
    extractCompleteArray truncNoBraceText (cl "a") = some (Json.arr [Json.num 1, Json.num 2]) :=
  ⟨rfl, rfl⟩

/-- C5 counterexample: the complete JSON object `{"a": {"b": "}"}}` — whose
string value contains a closing brace — denotes a two-level mapping (our
`jsonParse` model of `JSON.parse` accepts it), yet the parser returns null:
the brace-counting boundary scan of lines 1565–1576 treats the brace inside
the string literal as structure, cuts the document short, the cut slice
fails to parse, and the per-field salvage also trips over the same brace. -/
theorem c5_counterexample :
    jsonParse braceInStringText =
      some (Json.obj [(cl "a", Json.obj [(cl "b", Json.str (cl "\x7d"))])]) ∧
    parseResponseWithTruncationHandling braceInStringText [cl "a"] = none :=
  ⟨rfl, rfl⟩

mutual

/-- Fuel bound needed by `parseVal` to reconstruct a value: one unit per
parser call. -/
def sizeJ : Json → Nat
  | .null => 1
  | .bool _ => 1
  | .num _ => 1
  | .nan => 1
  | .str _ => 1
  | .arr [] => 1
  | .arr (v :: vs) => 1 + sizeL (v :: vs)
  | .obj [] => 1
  | .obj (f :: fs) => 1 + sizeF (f :: fs)

def sizeL : List Json → Nat
  | [] => 0
  | v :: vs => 1 + max (sizeJ v) (sizeL vs)

def sizeF : List (List Char × Json) → Nat
  | [] => 0
  | (_, v) :: fs => 1 + max (sizeJ v) (sizeF fs)

end

/-- Characters allowed inside rendered string literals for the round-trip
results: no quote, no backslash, no control character (so the literal needs
no escapes), and no brace, bracket or backtick (so the boundary scans, the
trailing-comma cleanup and the fence stripper cannot fire inside the
literal). -/
def strOkChar (c : Char) : Bool :=
  !(c = '"' || c = '\\' || c = '{' || c = '}' || c = '[' || c = ']' ||
    c = Char.ofNat 96 || decide (c.toNat < 32))

/-- A rational with a finite decimal expansion, the only numbers the
canonical renderer emits. -/
def renderableRat (q : Rat) : Bool := (decExp q).isSome

mutual

/-- Safety of a value for the round-trip theorems: strings and keys use
only `strOkChar` characters, numbers are renderable, `nan` never occurs. -/
def safeJson : Json → Bool
  | .null => true
  | .bool _ => true
  | .num q => renderableRat q
  | .nan => false
  | .str s => s.all strOkChar
  | .arr xs => safeL xs
  | .obj fs => safeF fs

def safeL : List Json → Bool
  | [] => true
  | v :: vs => safeJson v && safeL vs

def safeF : List (List Char × Json) → Bool
  | [] => true
  | (k, v) :: fs => k.all strOkChar && safeJson v && safeF fs

end

/-- `digitsToNat` as a fold from an arbitrary seed. -/
theorem digitsToNat_foldl :
    ∀ (b : List Char) (v : Nat),
      b.foldl (fun a c => a * 10 + (c.toNat - '0'.toNat)) v =
        v * 10 ^ b.length + digitsToNat b
  | [], v => by simp [digitsToNat]
  | c :: b, v => by
    rw [List.foldl_cons, digitsToNat_foldl b (v * 10 + (c.toNat - '0'.toNat))]
    have hc : digitsToNat (c :: b) = (c.toNat - '0'.toNat) * 10 ^ b.length + digitsToNat b := by
      show (c :: b).foldl _ 0 = _
      rw [List.foldl_cons, digitsToNat_foldl b (0 * 10 + (c.toNat - '0'.toNat))]
      ring_nf
    rw [hc]
    simp [List.length_cons, pow_succ]
    ring

/-- Concatenation law for digit values. -/
theorem digitsToNat_append (a b : List Char) :
    digitsToNat (a ++ b) = digitsToNat a * 10 ^ b.length + digitsToNat b := by
  show (a ++ b).foldl _ 0 = _
  rw [List.foldl_append]
  exact digitsToNat_foldl b (digitsToNat a)

/-- Leading zeros do not change a digit value. -/
theorem digitsToNat_replicate_zero (z : Nat) (b : List Char) :
    digitsToNat (List.replicate z '0' ++ b) = digitsToNat b := by
  rw [digitsToNat_append]
  have hz : digitsToNat (List.replicate z '0') = 0 := by
    induction z with
    | zero => rfl
    | succ n ih =>
      show (List.replicate (n + 1) '0').foldl _ 0 = 0
      rw [List.replicate_succ, List.foldl_cons]
      simpa [digitsToNat] using ih
  rw [hz]
  simp

/-- Fuel irrelevance of the digit expansion. -/
theorem natDigitsGo_fuel :
    ∀ f1 f2 n, n < f1 → n < f2 → natDigitsGo f1 n = natDigitsGo f2 n
  | 0, _, _, h1, _ => absurd h1 (Nat.not_lt_zero _)
  | _ + 1, 0, _, _, h2 => absurd h2 (Nat.not_lt_zero _)
  | f1 + 1, f2 + 1, n, h1, h2 => by
    unfold natDigitsGo
    by_cases h : n < 10
    · rw [if_pos h, if_pos h]
    · rw [if_neg h, if_neg h]
      have hd : n / 10 < n := Nat.div_lt_self (by omega) (by omega)
      rw [natDigitsGo_fuel f1 f2 (n / 10) (by omega) (by omega)]

/-- Recursion equation of `natDigits` free of fuel. -/
theorem natDigits_eq (n : Nat) :
    natDigits n = if n < 10 then [digitChar n] else natDigits (n / 10) ++ [digitChar (n % 10)] := by
  show natDigitsGo (n + 1) n = _
  rw [show natDigitsGo (n + 1) n =
        if n < 10 then [digitChar n] else natDigitsGo n (n / 10) ++ [digitChar (n % 10)] from rfl]
  by_cases h : n < 10
  · rw [if_pos h, if_pos h]
  · rw [if_neg h, if_neg h]
    have hd : n / 10 < n := Nat.div_lt_self (by omega) (by omega)
    show natDigitsGo n (n / 10) ++ _ = natDigits (n / 10) ++ _
    unfold natDigits
    rw [natDigitsGo_fuel n (n / 10 + 1) (n / 10) (by omega) (by omega)]

/-- Digit characters are digits. -/
theorem digitChar_isDigit {d : Nat} (h : d < 10) : (digitChar d).isDigit = true := by
  interval_cases d <;> decide

/-- Value of a digit character. -/
theorem digitChar_val {d : Nat} (h : d < 10) : (digitChar d).toNat - '0'.toNat = d := by
  interval_cases d <;> decide

/-- The digit expansion is never empty. -/
theorem natDigits_ne_nil (n : Nat) : natDigits n ≠ [] := by
  rw [natDigits_eq]
  by_cases h : n < 10
  · rw [if_pos h]; simp
  · rw [if_neg h]; simp

/-- Every character of the expansion is a digit. -/
theorem natDigits_all_digits (n : Nat) : ∀ c ∈ natDigits n, c.isDigit = true := by
  induction n using Nat.strong_induction_on with
  | _ n ih =>
    rw [natDigits_eq]
    by_cases h : n < 10
    · rw [if_pos h]
      intro c hc
      rcases List.mem_singleton.mp hc with rfl
      exact digitChar_isDigit h
    · rw [if_neg h]
      intro c hc
      rcases List.mem_append.mp hc with h1 | h2
      · exact ih (n / 10) (Nat.div_lt_self (by omega) (by omega)) c h1
      · rcases List.mem_singleton.mp h2 with rfl
        exact digitChar_isDigit (Nat.mod_lt _ (by omega))

/-- The expansion denotes the number it was built from. -/
theorem digitsToNat_natDigits (n : Nat) : digitsToNat (natDigits n) = n := by
  induction n using Nat.strong_induction_on with
  | _ n ih =>
    rw [natDigits_eq]
    by_cases h : n < 10
    · rw [if_pos h]
      show digitsToNat [digitChar n] = n
      rw [show digitsToNat [digitChar n] = 0 * 10 + ((digitChar n).toNat - '0'.toNat) from rfl]
      rw [digitChar_val h]
      omega
    · rw [if_neg h, digitsToNat_append,
        ih (n / 10) (Nat.div_lt_self (by omega) (by omega))]
      rw [show digitsToNat [digitChar (n % 10)] =
            0 * 10 + ((digitChar (n % 10)).toNat - '0'.toNat) from rfl]
      rw [digitChar_val (Nat.mod_lt _ (by omega))]
      simp only [List.length_singleton, pow_one]
      omega

/-- A multi-digit expansion never starts with a zero. -/
theorem natDigits_head_ne_zero (n : Nat) (h : 1 ≤ n) :
    (natDigits n).head? ≠ some '0' := by
  induction n using Nat.strong_induction_on with
  | _ n ih =>
    rw [natDigits_eq]
    by_cases h10 : n < 10
    · rw [if_pos h10]
      intro hc
      injection hc with hc2
      interval_cases n <;> exact absurd hc2 (by decide)
    · rw [if_neg h10]
      rcases hd : natDigits (n / 10) with _ | ⟨c, t⟩
      · exact absurd hd (natDigits_ne_nil _)
      · intro hc
        rw [List.cons_append, List.head?_cons] at hc
        apply ih (n / 10) (Nat.div_lt_self (by omega) (by omega)) (by
          have := Nat.div_pos (show 10 ≤ n by omega) (by omega)
          omega)
        rw [hd]
        exact hc

/-- The expansion of a small number is one character. -/
theorem natDigits_lt_ten (n : Nat) (h : n < 10) : natDigits n = [digitChar n] := by
  rw [natDigits_eq, if_pos h]

/-- `takeWhile` stops exactly at an append boundary whose left part all
satisfies the predicate and whose right part starts by refuting it. -/
theorem takeWhile_append_boundary (p : Char → Bool) :
    ∀ (a b : List Char), (∀ c ∈ a, p c = true) → (∀ c, b.head? = some c → p c = false) →
      (a ++ b).takeWhile p = a
  | [], b, _, hb => by
    rcases b with _ | ⟨c, t⟩
    · rfl
    · simp [List.takeWhile_cons, hb c rfl]
  | c :: a, b, ha, hb => by
    rw [List.cons_append, List.takeWhile_cons, ha c (List.mem_cons_self c a),
      takeWhile_append_boundary p a b (fun x hx => ha x (List.mem_cons_of_mem c hx)) hb]
    simp

/-- A successful `decExp` really scales to an integer. -/
theorem decExp_den (q : Rat) (k : Nat) (h : decExp q = some k) :
    (q * (10 : Rat) ^ k).den = 1 := by
  have := List.find?_some h
  simpa using this

/-- For non-negative `q`, `renderNumChars` carries no sign. -/
theorem renderNumChars_nonneg (q : Rat) (h : 0 ≤ q) :
    renderNumChars q =
      match decExp q with
      | some 0 => natDigits q.num.natAbs
      | some (k + 1) => renderDec (q * (10 : Rat) ^ (k + 1)).num.natAbs (k + 1)
      | none => ['0'] := by
  unfold renderNumChars
  rw [if_neg (not_lt.mpr h)]
  simp

/-- For negative `q`, `renderNumChars` is the sign and the magnitude. -/
theorem renderNumChars_neg (q : Rat) (h : q < 0) :
    renderNumChars q =
      '-' :: match decExp q with
      | some 0 => natDigits q.num.natAbs
      | some (k + 1) => renderDec (q * (10 : Rat) ^ (k + 1)).num.natAbs (k + 1)
      | none => ['0'] := by
  unfold renderNumChars
  rw [if_pos h]
  simp

/-- Structure of `renderDec m k` with `k ≥ 1`: an all-digit integer part
with no spurious leading zero, a dot, and exactly `k` fraction digits whose
combined value is `m`. -/
theorem renderDec_parts (m : Nat) (k : Nat) (hk : 1 ≤ k) :
    ∃ ip fp : List Char,
      renderDec m k = ip ++ '.' :: fp ∧
      ip ≠ [] ∧ (∀ c ∈ ip, c.isDigit = true) ∧
      (ip.head? = some '0' → ip.length = 1) ∧
      fp.length = k ∧ (∀ c ∈ fp, c.isDigit = true) ∧
      digitsToNat ip * 10 ^ k + digitsToNat fp = m := by
  unfold renderDec
  set ds := List.replicate (k + 1 - (natDigits m).length) '0' ++ natDigits m with hds
  have hlen : k + 1 ≤ ds.length := by
    rw [hds]
    simp only [List.length_append, List.length_replicate]
    omega
  have hall : ∀ c ∈ ds, c.isDigit = true := by
    intro c hc
    rcases List.mem_append.mp hc with h1 | h2
    · rcases List.eq_of_mem_replicate h1 with rfl
      decide
    · exact natDigits_all_digits m c h2
  have hval : digitsToNat ds = m := by
    rw [hds, digitsToNat_replicate_zero, digitsToNat_natDigits]
  refine ⟨ds.take (ds.length - k), ds.drop (ds.length - k), rfl, ?_, ?_, ?_, ?_, ?_, ?_⟩
  · have : (ds.take (ds.length - k)).length = ds.length - k := by
      rw [List.length_take]
      omega
    intro hnil
    rw [hnil] at this
    simp at this
    omega
  · intro c hc
    exact hall c (List.mem_of_mem_take hc)
  · intro h0
    by_cases hpad : (natDigits m).length ≤ k
    · rw [List.length_take]
      rw [hds]
      simp only [List.length_append, List.length_replicate]
      omega
    · exfalso
      have hrep : k + 1 - (natDigits m).length = 0 := by omega
      rw [hds, hrep] at h0
      simp only [List.replicate_zero, List.nil_append] at h0
      have hm1 : 1 ≤ m := by
        by_contra hm
        have : m = 0 := by omega
        subst this
        rw [natDigits_lt_ten 0 (by omega)] at hpad
        simp at hpad
        omega
      apply natDigits_head_ne_zero m hm1
      have htk : (natDigits m).length - k ≥ 1 := by
        rw [hds, hrep] at hlen
        simp only [List.replicate_zero, List.nil_append] at hlen ⊢
        omega
      rcases hnd : natDigits m with _ | ⟨c, t⟩
      · exact absurd hnd (natDigits_ne_nil m)
      · rw [hnd] at h0
        rcases hj : (c :: t).length - k with _ | j
        · rw [hnd] at htk
          omega
        · rw [hj, List.take_succ_cons, List.head?_cons] at h0
          injection h0 with h0e
          rw [List.head?_cons, h0e]
  · rw [List.length_drop]
    omega
  · intro c hc
    exact hall c (List.mem_of_mem_drop hc)
  · have hsplit := List.take_append_drop (ds.length - k) ds
    have := digitsToNat_append (ds.take (ds.length - k)) (ds.drop (ds.length - k))
    rw [hsplit, hval] at this
    have hdl : (ds.drop (ds.length - k)).length = k := by
      rw [List.length_drop]
      omega
    rw [hdl] at this
    omega

/-- The character after a rendered number must not continue the numeral:
not a digit, not a dot, not an exponent marker. -/
def numStop (rest : List Char) : Bool :=
  match rest.head? with
  | none => true
  | some c => !(c.isDigit || c = '.' || c = 'e' || c = 'E')

/-- Number-boundary obligation: only numeric values constrain what may
follow their rendering. -/
def numOk (j : Json) (rest : List Char) : Bool :=
  match j with
  | .num _ => numStop rest
  | _ => true

theorem numStop_facts (rest : List Char) (h : numStop rest = true) :
    ∀ c, rest.head? = some c → c.isDigit = false ∧ c ≠ '.' ∧ c ≠ 'e' ∧ c ≠ 'E' := by
  intro c hc
  unfold numStop at h
  rw [hc] at h
  simp only [Bool.not_eq_true', Bool.or_eq_false_iff, decide_eq_false_iff_not] at h
  exact ⟨h.1.1.1, h.1.1.2, h.1.2, h.2⟩

/-- `parseIntDigits` consumes exactly a well-formed digit block. -/
theorem parseIntDigits_exact (ds rest : List Char) (hne : ds ≠ [])
    (hall : ∀ c ∈ ds, c.isDigit = true)
    (hzero : ds.head? = some '0' → ds.length = 1)
    (hrest : ∀ c, rest.head? = some c → c.isDigit = false) :
    parseIntDigits (ds ++ rest) = some (ds, rest) := by
  simp only [parseIntDigits]
  rw [takeWhile_append_boundary _ ds rest hall hrest]
  rw [if_neg hne]
  have hz : (ds.head? = some '0' && decide (1 < ds.length)) = false := by
    by_cases h0 : ds.head? = some '0'
    · have := hzero h0
      simp [this]
    · simp only [Bool.and_eq_false_iff]
      left
      simpa using h0
  rw [hz, if_neg (by simp), List.drop_left]

/-- `parseExpPart` is the identity when no exponent marker follows. -/
theorem parseExpPart_none (neg : Bool) (base : Rat) (s : List Char)
    (h : ∀ c, s.head? = some c → c ≠ 'e' ∧ c ≠ 'E') :
    parseExpPart neg base s = some (signApply neg base, s) := by
  unfold parseExpPart
  split
  next t => exact absurd (h 'e' rfl).1 (by simp)
  next t => exact absurd (h 'E' rfl).2 (by simp)
  next => rfl

/-- `parseNumberBody` on an integer digit block. -/
theorem parseNumberBody_int (neg : Bool) (ds rest : List Char) (hne : ds ≠ [])
    (hall : ∀ c ∈ ds, c.isDigit = true)
    (hzero : ds.head? = some '0' → ds.length = 1)
    (hrest : numStop rest = true) :
    parseNumberBody neg (ds ++ rest) =
      some (signApply neg (digitsToNat ds : Rat), rest) := by
  unfold parseNumberBody
  rw [parseIntDigits_exact ds rest hne hall hzero (fun c hc => (numStop_facts rest hrest c hc).1)]
  have hexp : parseExpPart neg (digitsToNat ds : Rat) rest =
      some (signApply neg (digitsToNat ds : Rat), rest) :=
    parseExpPart_none neg _ rest
      (fun c hc => ⟨(numStop_facts rest hrest c hc).2.2.1, (numStop_facts rest hrest c hc).2.2.2⟩)
  show parseFracExp neg ds rest = some (signApply neg (digitsToNat ds : Rat), rest)
  unfold parseFracExp
  split
  next t =>
    exfalso
    exact absurd rfl (numStop_facts ('.' :: t) hrest '.' rfl).2.1
  next => exact hexp

/-- `parseNumberBody` on a digit block, a dot and a fraction block. -/
theorem parseNumberBody_dec (neg : Bool) (ip fp rest : List Char) (hipne : ip ≠ [])
    (hipall : ∀ c ∈ ip, c.isDigit = true)
    (hipzero : ip.head? = some '0' → ip.length = 1)
    (hfpne : fp ≠ [])
    (hfpall : ∀ c ∈ fp, c.isDigit = true)
    (hrest : numStop rest = true) :
    parseNumberBody neg (ip ++ '.' :: (fp ++ rest)) =
      some (signApply neg
        ((digitsToNat ip : Rat) + (digitsToNat fp : Rat) / (10 : Rat) ^ fp.length), rest) := by
  unfold parseNumberBody
  rw [parseIntDigits_exact ip ('.' :: (fp ++ rest)) hipne hipall hipzero
    (fun c hc => by injection hc with hc2; rw [← hc2]; decide)]
  have htw : List.takeWhile Char.isDigit (fp ++ rest) = fp :=
    takeWhile_append_boundary _ fp rest hfpall (fun c hc => (numStop_facts rest hrest c hc).1)
  show parseFracExp neg ip ('.' :: (fp ++ rest)) =
    some (signApply neg
      ((digitsToNat ip : Rat) + (digitsToNat fp : Rat) / (10 : Rat) ^ fp.length), rest)
  show (let fds := List.takeWhile Char.isDigit (fp ++ rest)
        if fds = [] then none
        else parseExpPart neg
          ((digitsToNat ip : Rat) + (digitsToNat fds : Rat) / (10 : Rat) ^ fds.length)
          (List.drop fds.length (fp ++ rest))) =
      some (signApply neg
        ((digitsToNat ip : Rat) + (digitsToNat fp : Rat) / (10 : Rat) ^ fp.length), rest)
  simp only [htw, if_neg hfpne, List.drop_left]
  exact parseExpPart_none neg _ rest
    (fun c hc => ⟨(numStop_facts rest hrest c hc).2.2.1, (numStop_facts rest hrest c hc).2.2.2⟩)

/-- A digit character is none of the structural characters the parser
dispatches on. -/
theorem isDigit_ne_structural (c : Char) (h : c.isDigit = true) :
    c ≠ '-' ∧ c ≠ '{' ∧ c ≠ '[' ∧ c ≠ '"' ∧ c ≠ 't' ∧ c ≠ 'f' ∧ c ≠ 'n' ∧
      isWsChar c = false ∧ c ≠ ']' ∧ c ≠ '}' := by
  refine ⟨?_, ?_, ?_, ?_, ?_, ?_, ?_, ?_, ?_, ?_⟩ <;>
    first
      | (intro hq; rw [hq] at h; cases h)
      | (by_cases hw : isWsChar c = false
         · exact hw
         · exfalso
           simp only [Bool.not_eq_false] at hw
           unfold isWsChar at hw
           simp only [Bool.or_eq_true, decide_eq_true_eq] at hw
           rcases hw with ((rfl | rfl) | rfl) | rfl <;> cases h)

/-- A dash begins the body of a negative number directly. -/
theorem parseNumber_dash (t : List Char) : parseNumber ('-' :: t) = parseNumberBody true t := rfl

/-- A non-dash head is parsed unsigned. -/
theorem parseNumber_not_dash (c : Char) (x : List Char) (hc : c ≠ '-') :
    parseNumber (c :: x) = parseNumberBody false (c :: x) := by
  unfold parseNumber
  split
  next t heq =>
    injection heq with h1 _
    exact absurd h1 hc
  next => rfl

/-- Single-step equation of the renderer for integral rationals. -/
theorem renderNumChars_int (q : Rat) (h : decExp q = some 0) :
    renderNumChars q = (if q < 0 then ['-'] else []) ++ natDigits q.num.natAbs := by
  unfold renderNumChars
  rw [h]

/-- Single-step equation of the renderer for proper decimals. -/
theorem renderNumChars_dec (q : Rat) (k : Nat) (h : decExp q = some (k + 1)) :
    renderNumChars q =
      (if q < 0 then ['-'] else []) ++ renderDec (q * (10 : Rat) ^ (k + 1)).num.natAbs (k + 1) := by
  unfold renderNumChars
  rw [h]

/-- The digit expansion only starts with `'0'` when it is exactly `"0"`. -/
theorem natDigits_zero_head (n : Nat) (h : (natDigits n).head? = some '0') :
    (natDigits n).length = 1 := by
  rcases Nat.eq_zero_or_pos n with rfl | hpos
  · rw [natDigits_lt_ten 0 (by omega)]
    rfl
  · exact absurd h (natDigits_head_ne_zero n hpos)

/-- Dividing after applying the sign is applying the sign after dividing. -/
theorem signApply_div (b : Bool) (x p : Rat) : signApply b x / p = signApply b (x / p) := by
  cases b <;> simp [signApply, neg_div]

/-- An integral rational is the cast of its numerator. -/
theorem rat_eq_cast_num (q : Rat) (h : q.den = 1) : ((q.num : Rat)) = q :=
  Rat.coe_int_num_of_den_eq_one h

/-- Signed reconstruction of `q` from the absolute value of a scaled
numerator. -/
theorem signApply_natAbs (q : Rat) (k : Nat) (hden : (q * (10 : Rat) ^ k).den = 1) :
    signApply (decide (q < 0)) (((q * (10 : Rat) ^ k).num.natAbs : Nat) : Rat) =
      q * (10 : Rat) ^ k := by
  have hcast : (((q * (10 : Rat) ^ k).num.natAbs : Nat) : Rat) = |((q * (10 : Rat) ^ k).num : Rat)| := by
    push_cast [Int.cast_natAbs]
    ring
  have hnum : (((q * (10 : Rat) ^ k).num : Rat)) = q * (10 : Rat) ^ k := rat_eq_cast_num _ hden
  rw [hcast, hnum]
  have hpow : (0 : Rat) < (10 : Rat) ^ k := by positivity
  by_cases hneg : q < 0
  · have : q * (10 : Rat) ^ k < 0 := mul_neg_of_neg_of_pos hneg hpow
    simp [signApply, hneg, abs_of_neg this]
  · have h0 : 0 ≤ q := not_lt.mp hneg
    have : 0 ≤ q * (10 : Rat) ^ k := mul_nonneg h0 (le_of_lt hpow)
    simp [signApply, hneg, abs_of_nonneg this]

/-- The renderer followed by the number grammar is the identity on
renderable rationals, for any continuation that does not extend the
numeral. -/
theorem parseNumber_render (q : Rat) (k : Nat) (hk : decExp q = some k) (rest : List Char)
    (hrest : numStop rest = true) :
    parseNumber (renderNumChars q ++ rest) = some (q, rest) := by
  rcases k with _ | k
  · -- integral case
    have hden : q.den = 1 := by
      have := decExp_den q 0 hk
      rwa [pow_zero, mul_one] at this
    have hmain : parseNumberBody (decide (q < 0)) (natDigits q.num.natAbs ++ rest) =
        some (q, rest) := by
      rw [parseNumberBody_int _ _ _ (natDigits_ne_nil _) (natDigits_all_digits _)
        (natDigits_zero_head _) hrest, digitsToNat_natDigits]
      have := signApply_natAbs q 0 (by rwa [pow_zero, mul_one])
      rw [pow_zero, mul_one] at this
      rw [this]
    rw [renderNumChars_int q hk]
    by_cases hneg : q < 0
    · rw [if_pos hneg]
      show parseNumber ('-' :: (natDigits q.num.natAbs ++ rest)) = some (q, rest)
      rw [parseNumber_dash]
      simpa [hneg] using hmain
    · rw [if_neg hneg]
      simp only [List.nil_append]
      rcases hnd : natDigits q.num.natAbs with _ | ⟨c, t⟩
      · exact absurd hnd (natDigits_ne_nil _)
      · have hcd : c.isDigit = true := by
          apply natDigits_all_digits q.num.natAbs
          rw [hnd]
          exact List.mem_cons_self c t
        rw [show (c :: t) ++ rest = c :: (t ++ rest) from rfl,
          parseNumber_not_dash c (t ++ rest) (isDigit_ne_structural c hcd).1,
          show c :: (t ++ rest) = (c :: t) ++ rest from rfl, ← hnd]
        simpa [hneg] using hmain
  · -- decimal case
    have hden := decExp_den q (k + 1) hk
    obtain ⟨ip, fp, hsplit, hipne, hipall, hipzero, hfplen, hfpall, hval⟩ :=
      renderDec_parts (q * (10 : Rat) ^ (k + 1)).num.natAbs (k + 1) (by omega)
    have hmain : parseNumberBody (decide (q < 0))
        (renderDec (q * (10 : Rat) ^ (k + 1)).num.natAbs (k + 1) ++ rest) = some (q, rest) := by
      rw [hsplit, List.append_assoc, List.cons_append,
        parseNumberBody_dec _ _ _ _ hipne hipall hipzero
          (by intro hfp; rw [hfp] at hfplen; simp at hfplen) hfpall hrest]
      have harith : (digitsToNat ip : Rat) + (digitsToNat fp : Rat) / (10 : Rat) ^ fp.length =
          (((q * (10 : Rat) ^ (k + 1)).num.natAbs : Nat) : Rat) / (10 : Rat) ^ (k + 1) := by
        rw [hfplen, ← hval]
        have hpow : ((10 : Rat) ^ (k + 1)) ≠ 0 := by positivity
        field_simp
        try push_cast
        try ring
      rw [harith]
      have hsig := signApply_natAbs q (k + 1) hden
      have hpow : ((10 : Rat) ^ (k + 1)) ≠ 0 := by positivity
      have : signApply (decide (q < 0))
          ((((q * (10 : Rat) ^ (k + 1)).num.natAbs : Nat) : Rat) / (10 : Rat) ^ (k + 1)) = q := by
        rw [← signApply_div, hsig, mul_div_assoc, div_self hpow, mul_one]
      rw [this]
    rw [renderNumChars_dec q k hk]
    by_cases hneg : q < 0
    · rw [if_pos hneg]
      show parseNumber ('-' :: (renderDec (q * (10 : Rat) ^ (k + 1)).num.natAbs (k + 1) ++ rest)) =
        some (q, rest)
      rw [parseNumber_dash]
      simpa [hneg] using hmain
    · rw [if_neg hneg]
      simp only [List.nil_append]
      rcases hrd : renderDec (q * (10 : Rat) ^ (k + 1)).num.natAbs (k + 1) with _ | ⟨c, t⟩
      · rw [hrd] at hsplit
        exact absurd hsplit.symm (by simp [hipne])
      · have hcd : c.isDigit = true := by
          rcases ip with _ | ⟨i0, it⟩
          · exact absurd rfl hipne
          · rw [hrd] at hsplit
            injection hsplit with h1 _
            rw [h1]
            exact hipall i0 (List.mem_cons_self i0 it)
        rw [show (c :: t) ++ rest = c :: (t ++ rest) from rfl,
          parseNumber_not_dash c (t ++ rest) (isDigit_ne_structural c hcd).1,
          show c :: (t ++ rest) = (c :: t) ++ rest from rfl, ← hrd]
        simpa [hneg] using hmain

/-- Whitespace skipping does not touch a non-whitespace head. -/
theorem skipWs_cons (c : Char) (t : List Char) (h : isWsChar c = false) :
    skipWs (c :: t) = c :: t := by
  simp [skipWs, List.dropWhile, h]

/-- A closing quote ends the string body at once. -/
theorem parseStringBody_quote (rest : List Char) : parseStringBody ('"' :: rest) = some ([], rest) := by
  rw [parseStringBody.eq_def]
  rfl

/-- An ordinary character is consumed into the string body. -/
theorem parseStringBody_other (c : Char) (rest : List Char) (h1 : ¬ c = '"') (h2 : ¬ c = '\\')
    (h3 : ¬ c.toNat < 32) :
    parseStringBody (c :: rest) = (parseStringBody rest).map (fun p => (c :: p.1, p.2)) := by
  rw [parseStringBody.eq_def]
  split
  next _ heq => cases heq
  next c' cs' heq =>
    injection heq with e1 e2
    subst e1
    subst e2
    rw [if_neg h1, if_neg h2, if_neg h3]

/-- The string grammar consumes exactly an escape-free literal body up to
its closing quote. -/
theorem parseStringBody_safe (s : List Char) (rest : List Char) (h : s.all strOkChar = true) :
    parseStringBody (s ++ '"' :: rest) = some (s, rest) := by
  induction s with
  | nil => exact parseStringBody_quote rest
  | cons c cs ih =>
    simp only [List.all_cons, Bool.and_eq_true] at h
    obtain ⟨hc, hcs⟩ := h
    simp only [strOkChar, Bool.or_eq_true, Bool.not_eq_true', Bool.or_eq_false_iff,
      decide_eq_false_iff_not] at hc
    show parseStringBody (c :: (cs ++ '"' :: rest)) = some (c :: cs, rest)
    rw [parseStringBody_other c _ hc.1.1.1.1.1.1.1 hc.1.1.1.1.1.1.2 hc.2, ih hcs]
    rfl

/-- The tail of a rendered array continues with a comma or the closing
bracket, never extending a numeral. -/
theorem numStop_elems (vs : List Json) (rest : List Char) :
    numStop (renderElemsTail vs ++ ']' :: rest) = true := by
  cases vs <;> rfl

/-- The tail of a rendered object continues with a comma or the closing
brace, never extending a numeral. -/
theorem numStop_fields (fs : List (List Char × Json)) (rest : List Char) :
    numStop (renderFieldsTail fs ++ '}' :: rest) = true := by
  cases fs <;> rfl

/-- A continuation at which numerals stop is acceptable after any value. -/
theorem numOk_of_stop (j : Json) (rest : List Char) (h : numStop rest = true) :
    numOk j rest = true := by
  cases j <;> simp [numOk, h]

/-- A rendered number starts with a minus sign or a digit. -/
theorem renderNumChars_head (q : Rat) (k : Nat) (hk : decExp q = some k) :
    ∃ c t, renderNumChars q = c :: t ∧ (c = '-' ∨ c.isDigit = true) := by
  rcases k with _ | k
  · rw [renderNumChars_int q hk]
    by_cases hneg : q < 0
    · exact ⟨'-', natDigits q.num.natAbs, by rw [if_pos hneg]; rfl, Or.inl rfl⟩
    · rcases hnd : natDigits q.num.natAbs with _ | ⟨c, t⟩
      · exact absurd hnd (natDigits_ne_nil _)
      · refine ⟨c, t, ?_, Or.inr ?_⟩
        · rw [if_neg hneg]
          rfl
        · exact natDigits_all_digits _ c (by rw [hnd]; exact List.mem_cons_self c t)
  · rw [renderNumChars_dec q k hk]
    by_cases hneg : q < 0
    · exact ⟨'-', _, by rw [if_pos hneg]; rfl, Or.inl rfl⟩
    · obtain ⟨ip, fp, hsplit, hipne, hipall, _, _, _, _⟩ :=
        renderDec_parts (q * (10 : Rat) ^ (k + 1)).num.natAbs (k + 1) (by omega)
      rcases ip with _ | ⟨c, it⟩
      · exact absurd rfl hipne
      · refine ⟨c, it ++ '.' :: fp, ?_, Or.inr (hipall c (List.mem_cons_self c it))⟩
        rw [if_neg hneg, hsplit]
        rfl

/-- A rendered safe value starts with a non-whitespace character distinct
from the closing brackets. -/
theorem renderJson_head (j : Json) (hs : safeJson j = true) :
    ∃ c t, renderJson j = c :: t ∧ isWsChar c = false ∧ c ≠ ']' ∧ c ≠ '}' := by
  cases j with
  | null => refine ⟨'n', _, rfl, ?_, ?_, ?_⟩ <;> decide
  | bool b =>
    cases b
    · refine ⟨'f', _, rfl, ?_, ?_, ?_⟩ <;> decide
    · refine ⟨'t', _, rfl, ?_, ?_, ?_⟩ <;> decide
  | num q =>
    have hq : (decExp q).isSome = true := hs
    obtain ⟨k, hk⟩ := Option.isSome_iff_exists.mp hq
    obtain ⟨c, t, hct, hc⟩ := renderNumChars_head q k hk
    refine ⟨c, t, hct, ?_, ?_, ?_⟩ <;>
      rcases hc with rfl | hd
    · decide
    · exact (isDigit_ne_structural c hd).2.2.2.2.2.2.2.1
    · decide
    · exact (isDigit_ne_structural c hd).2.2.2.2.2.2.2.2.1
    · decide
    · exact (isDigit_ne_structural c hd).2.2.2.2.2.2.2.2.2
  | nan => exact absurd hs (by simp [safeJson])
  | str s => refine ⟨'"', _, rfl, ?_, ?_, ?_⟩ <;> decide
  | arr xs =>
    cases xs
    · refine ⟨'[', _, rfl, ?_, ?_, ?_⟩ <;> decide
    · refine ⟨'[', _, rfl, ?_, ?_, ?_⟩ <;> decide
  | obj fs =>
    cases fs
    · refine ⟨'{', _, rfl, ?_, ?_, ?_⟩ <;> decide
    · refine ⟨'{', _, rfl, ?_, ?_, ?_⟩ <;> decide

/-- One-step evaluation of the value grammar on an opening bracket. -/
theorem parseVal_arrStep (f : Nat) (x : List Char) :
    parseVal (f + 1) ('[' :: x) =
      (match skipWs x with
        | ']' :: r => some (.arr [], r)
        | _ => (parseElems f x).map (fun p => (Json.arr p.1, p.2))) := rfl

/-- One-step evaluation of the value grammar on an opening brace. -/
theorem parseVal_objStep (f : Nat) (x : List Char) :
    parseVal (f + 1) ('{' :: x) =
      (match skipWs x with
        | '}' :: r => some (.obj [], r)
        | _ => (parseFields f x).map (fun p => (Json.obj p.1, p.2))) := rfl

/-- One-step evaluation of the value grammar on an opening quote. -/
theorem parseVal_strStep (f : Nat) (x : List Char) :
    parseVal (f + 1) ('"' :: x) =
      (parseStringBody x).map (fun p => (Json.str p.1, p.2)) := rfl

/-- One-step evaluation of the value grammar on a number head. -/
theorem parseVal_numStep (f : Nat) (c : Char) (x : List Char) (hws : isWsChar c = false)
    (h1 : ¬ c = '{') (h2 : ¬ c = '[') (h3 : ¬ c = '"') (h4 : ¬ c = 't') (h5 : ¬ c = 'f')
    (h6 : ¬ c = 'n') :
    parseVal (f + 1) (c :: x) = (parseNumber (c :: x)).map (fun p => (Json.num p.1, p.2)) := by
  simp only [parseVal]
  rw [skipWs_cons c x hws]
  split
  next heq => cases heq
  next c' cs' heq =>
    injection heq with e1 e2
    subst e1
    subst e2
    rw [if_neg h1, if_neg h2, if_neg h3, if_neg h4, if_neg h5, if_neg h6]

/-- One-step evaluation of the field grammar after the opening quote of a
key. -/
theorem parseFields_step (f : Nat) (x : List Char) :
    parseFields (f + 1) ('"' :: x) =
      (match parseStringBody x with
        | none => none
        | some (k, r) =>
          match skipWs r with
          | ':' :: r2 =>
            (match parseVal f r2 with
              | none => none
              | some (v, r3) =>
                match skipWs r3 with
                | ',' :: r4 => (parseFields f r4).map (fun p => ((k, v) :: p.1, p.2))
                | '}' :: r4 => some ([(k, v)], r4)
                | _ => none)
          | _ => none) := rfl

/-- Fuel-indexed round trip of the `JSON.parse` grammar against the
canonical renderer: rendered safe values, element lists and field lists are
recovered exactly, with the continuation untouched. -/
theorem parse_render_all (fuel : Nat) :
    (∀ j rest, safeJson j = true → numOk j rest = true →
      (renderJson j).length ≤ fuel →
      parseVal fuel (renderJson j ++ rest) = some (j, rest)) ∧
    (∀ v vs rest, safeL (v :: vs) = true →
      (renderJson v).length + (renderElemsTail vs).length + 1 ≤ fuel →
      parseElems fuel (renderJson v ++ (renderElemsTail vs ++ ']' :: rest)) =
        some (v :: vs, rest)) ∧
    (∀ fld fs rest, safeF (fld :: fs) = true →
      (renderField fld).length + (renderFieldsTail fs).length + 1 ≤ fuel →
      parseFields fuel (renderField fld ++ (renderFieldsTail fs ++ '}' :: rest)) =
        some (fld :: fs, rest)) := by
  induction fuel with
  | zero =>
    refine ⟨?_, ?_, ?_⟩
    · intro j rest hs _ hsz
      obtain ⟨c, t, hct, -, -, -⟩ := renderJson_head j hs
      rw [hct] at hsz
      simp at hsz
    · intro v vs rest _ hsz
      omega
    · intro fld fs rest _ hsz
      omega
  | succ f ih =>
    obtain ⟨ih1, ih2, ih3⟩ := ih
    refine ⟨?_, ?_, ?_⟩
    · intro j rest hs hn hsz
      cases j with
      | null => rfl
      | bool b => cases b <;> rfl
      | nan => exact absurd hs (by simp [safeJson])
      | num q =>
        have hq : (decExp q).isSome = true := hs
        obtain ⟨k, hk⟩ := Option.isSome_iff_exists.mp hq
        obtain ⟨c, t, hct, hc⟩ := renderNumChars_head q k hk
        have hws : isWsChar c = false := by
          rcases hc with rfl | hd
          · decide
          · exact (isDigit_ne_structural c hd).2.2.2.2.2.2.2.1
        have hne : ¬ c = '{' ∧ ¬ c = '[' ∧ ¬ c = '"' ∧ ¬ c = 't' ∧ ¬ c = 'f' ∧ ¬ c = 'n' := by
          rcases hc with rfl | hd
          · exact ⟨by decide, by decide, by decide, by decide, by decide, by decide⟩
          · obtain ⟨-, h2, h3, h4, h5, h6, h7, -⟩ := isDigit_ne_structural c hd
            exact ⟨h2, h3, h4, h5, h6, h7⟩
        have hre : renderJson (.num q) ++ rest = c :: (t ++ rest) := by
          show renderNumChars q ++ rest = c :: (t ++ rest)
          rw [hct]
          rfl
        rw [hre, parseVal_numStep f c (t ++ rest) hws hne.1 hne.2.1 hne.2.2.1 hne.2.2.2.1
          hne.2.2.2.2.1 hne.2.2.2.2.2]
        have hpn : parseNumber (c :: (t ++ rest)) = some (q, rest) := by
          rw [show c :: (t ++ rest) = (c :: t) ++ rest from rfl, ← hct]
          exact parseNumber_render q k hk rest hn
        rw [hpn]
        rfl
      | str s =>
        have hsafe : s.all strOkChar = true := hs
        have hre : renderJson (.str s) ++ rest = '"' :: ((s ++ ['"']) ++ rest) := rfl
        rw [hre, parseVal_strStep]
        rw [show (s ++ ['"']) ++ rest = s ++ '"' :: rest by simp]
        rw [parseStringBody_safe s rest hsafe]
        rfl
      | arr xs =>
        cases xs with
        | nil => rfl
        | cons v vs =>
          have hsafe : safeL (v :: vs) = true := hs
          have hv : safeJson v = true := by
            simp only [safeL, Bool.and_eq_true] at hsafe
            exact hsafe.1
          have hsafe2 : safeL (v :: vs) = true := hs
          have hre : renderJson (.arr (v :: vs)) ++ rest =
              '[' :: (renderJson v ++ (renderElemsTail vs ++ ']' :: rest)) := by
            show ('[' :: (renderJson v ++ renderElemsTail vs)) ++ [']'] ++ rest = _
            simp
          have hlen : (renderJson (.arr (v :: vs))).length =
              (renderJson v).length + (renderElemsTail vs).length + 2 := by
            show (('[' :: (renderJson v ++ renderElemsTail vs)) ++ [']']).length = _
            simp
            omega
          rw [hre, parseVal_arrStep]
          obtain ⟨c, t, hct, hws, hne1, -⟩ := renderJson_head v hv
          have hsk : skipWs (renderJson v ++ (renderElemsTail vs ++ ']' :: rest)) =
              c :: (t ++ (renderElemsTail vs ++ ']' :: rest)) := by
            rw [hct]
            exact skipWs_cons _ _ hws
          rw [hsk]
          split
          next r heq =>
            injection heq with e1 _
            exact absurd e1 hne1
          next heq =>
            rw [ih2 v vs rest hsafe2 (by omega)]
            rfl
      | obj fs0 =>
        cases fs0 with
        | nil => rfl
        | cons fld fs =>
          obtain ⟨k0, v0⟩ := fld
          have hsafe : safeF ((k0, v0) :: fs) = true := hs
          have hre : renderJson (.obj ((k0, v0) :: fs)) ++ rest =
              '{' :: (renderField (k0, v0) ++ (renderFieldsTail fs ++ '}' :: rest)) := by
            show ('{' :: (renderField (k0, v0) ++ renderFieldsTail fs)) ++ ['}'] ++ rest = _
            simp
          have hlen : (renderJson (.obj ((k0, v0) :: fs))).length =
              (renderField (k0, v0)).length + (renderFieldsTail fs).length + 2 := by
            show (('{' :: (renderField (k0, v0) ++ renderFieldsTail fs)) ++ ['}']).length = _
            simp
            omega
          rw [hre, parseVal_objStep]
          have hsk : skipWs (renderField (k0, v0) ++ (renderFieldsTail fs ++ '}' :: rest)) =
              '"' :: ((k0 ++ '"' :: ':' :: renderJson v0) ++ (renderFieldsTail fs ++ '}' :: rest)) := by
            show skipWs ('"' :: ((k0 ++ '"' :: ':' :: renderJson v0) ++
              (renderFieldsTail fs ++ '}' :: rest))) = _
            exact skipWs_cons _ _ (by decide)
          rw [hsk]
          split
          next r heq =>
            injection heq with e1 _
            exact absurd e1 (by decide)
          next heq =>
            rw [ih3 (k0, v0) fs rest hsafe (by omega)]
            rfl
    · intro v vs rest hs hsz
      have hv : safeJson v = true := by
        have h := hs
        simp only [safeL, Bool.and_eq_true] at h
        exact h.1
      have hnum : numOk v (renderElemsTail vs ++ ']' :: rest) = true :=
        numOk_of_stop _ _ (numStop_elems vs rest)
      simp only [parseElems]
      rw [ih1 v _ hv hnum (by omega)]
      cases vs with
      | nil => rfl
      | cons v2 vs2 =>
        have hvs2 : safeL (v2 :: vs2) = true := by
          have h := hs
          simp only [safeL, Bool.and_eq_true] at h
          have h2 := h.2
          simp only [safeL, Bool.and_eq_true]
          exact h2
        have hlen : (renderElemsTail (v2 :: vs2)).length =
            1 + (renderJson v2).length + (renderElemsTail vs2).length := by
          show ((',' :: renderJson v2) ++ renderElemsTail vs2).length = _
          simp
          omega
        show (parseElems f ((renderJson v2 ++ renderElemsTail vs2) ++ ']' :: rest)).map
            (fun p => (v :: p.1, p.2)) = some (v :: v2 :: vs2, rest)
        rw [List.append_assoc]
        rw [ih2 v2 vs2 rest hvs2 (by omega)]
        rfl
    · intro fld fs rest hs hsz
      obtain ⟨k0, v0⟩ := fld
      have hks : k0.all strOkChar = true := by
        have h := hs
        simp only [safeF, Bool.and_eq_true] at h
        exact h.1.1
      have hv : safeJson v0 = true := by
        have h := hs
        simp only [safeF, Bool.and_eq_true] at h
        exact h.1.2
      have hlenF : (renderField (k0, v0)).length = k0.length + (renderJson v0).length + 3 := by
        show (('"' :: k0) ++ '"' :: ':' :: renderJson v0).length = _
        simp
        omega
      have hre : renderField (k0, v0) ++ (renderFieldsTail fs ++ '}' :: rest) =
          '"' :: ((k0 ++ '"' :: ':' :: renderJson v0) ++ (renderFieldsTail fs ++ '}' :: rest)) := rfl
      rw [hre, parseFields_step]
      have hps : parseStringBody ((k0 ++ '"' :: ':' :: renderJson v0) ++
          (renderFieldsTail fs ++ '}' :: rest)) =
          some (k0, ':' :: (renderJson v0 ++ (renderFieldsTail fs ++ '}' :: rest))) := by
        rw [List.append_assoc]
        exact parseStringBody_safe k0 _ hks
      rw [hps]
      show (match parseVal f (renderJson v0 ++ (renderFieldsTail fs ++ '}' :: rest)) with
        | none => none
        | some (v, r3) =>
          match skipWs r3 with
          | ',' :: r4 => (parseFields f r4).map (fun p => ((k0, v) :: p.1, p.2))
          | '}' :: r4 => some ([(k0, v)], r4)
          | _ => none) = some ((k0, v0) :: fs, rest)
      have hnum : numOk v0 (renderFieldsTail fs ++ '}' :: rest) = true :=
        numOk_of_stop _ _ (numStop_fields fs rest)
      rw [ih1 v0 _ hv hnum (by omega)]
      cases fs with
      | nil => rfl
      | cons f2 fs2 =>
        have hfs2 : safeF (f2 :: fs2) = true := by
          have h := hs
          rw [show safeF ((k0, v0) :: f2 :: fs2) =
            (k0.all strOkChar && safeJson v0 && safeF (f2 :: fs2)) from rfl] at h
          simp only [Bool.and_eq_true] at h
          exact h.2
        have hlenT : (renderFieldsTail (f2 :: fs2)).length =
            1 + (renderField f2).length + (renderFieldsTail fs2).length := by
          show ((',' :: renderField f2) ++ renderFieldsTail fs2).length = _
          simp
          omega
        show (parseFields f ((renderField f2 ++ renderFieldsTail fs2) ++ '}' :: rest)).map
            (fun p => ((k0, v0) :: p.1, p.2)) = some ((k0, v0) :: f2 :: fs2, rest)
        rw [List.append_assoc]
        rw [ih3 f2 fs2 rest hfs2 (by omega)]
        rfl

/-- `JSON.parse` recovers every safe value from its canonical rendering. -/
theorem jsonParse_render (j : Json) (hs : safeJson j = true) :
    jsonParse (renderJson j) = some j := by
  unfold jsonParse
  have h := (parse_render_all ((renderJson j).length + 1)).1 j [] hs
    (numOk_of_stop j [] rfl) (by omega)
  rw [List.append_nil] at h
  rw [h]
  rfl

/-- Signed contribution of one character to the bracket depth. -/
def contribB (oc cc : Char) (c : Char) : Int :=
  if c = oc then 1 else if c = cc then -1 else 0

/-- The depth step adds the character contribution. -/
theorem depthStep_eq (oc cc : Char) (d : Int) (c : Char) :
    depthStep oc cc d c = d + contribB oc cc c := by
  unfold depthStep contribB
  split_ifs <;> omega

/-- The depth fold from any seed shifts the net depth. -/
theorem foldl_depthStep_shift (oc cc : Char) :
    ∀ (l : List Char) (d : Int), l.foldl (depthStep oc cc) d = d + netDepth oc cc l := by
  intro l
  induction l with
  | nil => intro d; simp [netDepth]
  | cons c t ih =>
    intro d
    rw [List.foldl_cons, ih]
    rw [show netDepth oc cc (c :: t) = depthStep oc cc 0 c + netDepth oc cc t from by
      rw [netDepth, List.foldl_cons, ih]]
    rw [depthStep_eq, depthStep_eq]
    omega

/-- Net depth is additive over concatenation. -/
theorem netDepth_append (oc cc : Char) (a b : List Char) :
    netDepth oc cc (a ++ b) = netDepth oc cc a + netDepth oc cc b := by
  unfold netDepth
  rw [List.foldl_append, foldl_depthStep_shift]
  rfl

/-- Net depth of a cons. -/
theorem netDepth_cons (oc cc : Char) (c : Char) (t : List Char) :
    netDepth oc cc (c :: t) = contribB oc cc c + netDepth oc cc t := by
  rw [netDepth, List.foldl_cons, foldl_depthStep_shift, depthStep_eq]
  omega

/-- A prefix of a concatenation is a prefix of the left part or extends
it. -/
theorem prefix_split (a b p : List Char) (h : p <+: a ++ b) :
    p <+: a ∨ ∃ q, q <+: b ∧ p = a ++ q := by
  by_cases hl : p.length ≤ a.length
  · exact Or.inl (List.prefix_of_prefix_length_le h (a.prefix_append b) hl)
  · right
    have ha : a <+: p := List.prefix_of_prefix_length_le (a.prefix_append b) h (by omega)
    obtain ⟨q, rfl⟩ := ha
    refine ⟨q, ?_, rfl⟩
    obtain ⟨r, hr⟩ := h
    rw [List.append_assoc] at hr
    exact ⟨r, List.append_cancel_left hr⟩

/-- All structural facts needed of a rendered fragment by the
whole-document pipeline: no backtick (so the fence stripper cannot fire),
a balanced brace profile whose prefixes never dip below zero and whose
closing braces sit at strictly positive depth (so the boundary scan stops
only at the very end), and transparency for the trailing-comma cleanup. -/
def renderFacts (x : List Char) : Prop :=
  (Char.ofNat 96 ∉ x) ∧
  netDepth '{' '}' x = 0 ∧
  (∀ p, p <+: x → 0 ≤ netDepth '{' '}' p) ∧
  (∀ p c, p ++ [c] <+: x → c = '}' → 1 ≤ netDepth '{' '}' p) ∧
  (∀ rest, cleanTrailing ['}', ']'] (x ++ rest) = x ++ cleanTrailing ['}', ']'] rest)

theorem renderFacts_nil : renderFacts [] := by
  refine ⟨by simp, by simp [netDepth], ?_, ?_, ?_⟩
  · intro p hp
    rw [List.prefix_nil.mp hp]
    simp [netDepth]
  · intro p c hpc
    have := List.prefix_nil.mp hpc
    simp at this
  · intro rest
    simp

/-- The cleanup copies a non-comma character unchanged. -/
theorem cleanTrailing_other (cl : List Char) (c : Char) (cs : List Char) (h : ¬ c = ',') :
    cleanTrailing cl (c :: cs) = c :: cleanTrailing cl cs := by
  rw [cleanTrailing.eq_def]
  split
  next heq => cases heq
  next c' cs' heq =>
    injection heq with e1 e2
    subst e1
    subst e2
    rw [if_neg h]

/-- The cleanup copies a comma whose following non-space character is not a
closer. -/
theorem cleanTrailing_comma (cl : List Char) (cs : List Char)
    (h : ∀ r rs, cs.dropWhile isWsChar = r :: rs → cl.contains r = false) :
    cleanTrailing cl (',' :: cs) = ',' :: cleanTrailing cl cs := by
  rw [cleanTrailing.eq_def]
  split
  next heq => cases heq
  next c' cs' heq =>
    injection heq with e1 e2
    subst e1
    subst e2
    rw [if_pos rfl]
    split
    next r rs heq2 =>
      rw [h r rs heq2]
      simp
    next => rfl

/-- A character that is neither a backtick, a brace nor a comma can be
prepended to any fragment satisfying the structural facts. -/
theorem renderFacts_other (c : Char) (x : List Char)
    (hc : ¬ c = Char.ofNat 96 ∧ ¬ c = '{' ∧ ¬ c = '}' ∧ ¬ c = ',')
    (hx : renderFacts x) : renderFacts (c :: x) := by
  obtain ⟨h96, hnd, hpre, hclose, hclean⟩ := hx
  have hcontrib : contribB '{' '}' c = 0 := by
    unfold contribB
    rw [if_neg hc.2.1, if_neg hc.2.2.1]
  refine ⟨?_, ?_, ?_, ?_, ?_⟩
  · intro hm
    rcases List.mem_cons.mp hm with h | h
    · exact hc.1 h.symm
    · exact h96 h
  · rw [netDepth_cons, hcontrib, hnd]
    omega
  · intro p hp
    cases p with
    | nil => simp [netDepth]
    | cons d q =>
      obtain ⟨rfl, hq⟩ := List.cons_prefix_cons.mp hp
      rw [netDepth_cons, hcontrib]
      have := hpre q hq
      omega
  · intro p ch hp hch
    cases p with
    | nil =>
      simp only [List.nil_append] at hp
      obtain ⟨rfl, -⟩ := List.cons_prefix_cons.mp hp
      exact absurd hch hc.2.2.1
    | cons d q =>
      rw [List.cons_append] at hp
      obtain ⟨rfl, hq⟩ := List.cons_prefix_cons.mp hp
      rw [netDepth_cons, hcontrib]
      have := hclose q ch hq hch
      omega
  · intro rest
    show cleanTrailing ['}', ']'] (c :: (x ++ rest)) = c :: (x ++ cleanTrailing ['}', ']'] rest)
    rw [cleanTrailing_other _ c _ hc.2.2.2, hclean rest]

/-- Every character-wise harmless list satisfies the structural facts. -/
theorem renderFacts_ofChars (l : List Char)
    (h : ∀ c ∈ l, ¬ c = Char.ofNat 96 ∧ ¬ c = '{' ∧ ¬ c = '}' ∧ ¬ c = ',') :
    renderFacts l := by
  induction l with
  | nil => exact renderFacts_nil
  | cons c t ih =>
    exact renderFacts_other c t (h c (List.mem_cons_self c t))
      (ih (fun d hd => h d (List.mem_cons_of_mem c hd)))

/-- The structural facts are closed under concatenation. -/
theorem renderFacts_append (a b : List Char) (ha : renderFacts a) (hb : renderFacts b) :
    renderFacts (a ++ b) := by
  obtain ⟨h96a, hnda, hprea, hclosea, hcleana⟩ := ha
  obtain ⟨h96b, hndb, hpreb, hcloseb, hcleanb⟩ := hb
  refine ⟨?_, ?_, ?_, ?_, ?_⟩
  · intro hm
    rcases List.mem_append.mp hm with h | h
    · exact h96a h
    · exact h96b h
  · rw [netDepth_append, hnda, hndb]
    omega
  · intro p hp
    rcases prefix_split a b p hp with h | ⟨q, hq, rfl⟩
    · exact hprea p h
    · rw [netDepth_append, hnda]
      have := hpreb q hq
      omega
  · intro p ch hp hch
    by_cases hl : (p ++ [ch]).length ≤ a.length
    · exact hclosea p ch (List.prefix_of_prefix_length_le hp (a.prefix_append b) hl) hch
    · rcases prefix_split a b p ((p.prefix_append [ch]).trans hp) with hpa | ⟨q, hq, rfl⟩
      · -- p <+: a with p ++ [ch] longer than a: p = a
        have hpl : p.length = a.length := by
          have := hpa.length_le
          simp at hl
          omega
        have hpa2 : p = a := List.IsPrefix.eq_of_length hpa hpl
        subst hpa2
        -- then [ch] begins b, so b opens with a closing brace: impossible
        have hcb : [ch] <+: b := by
          obtain ⟨r, hr⟩ := hp
          rw [List.append_assoc] at hr
          exact ⟨r, List.append_cancel_left hr⟩
        have := hcloseb [] ch (by simpa using hcb) hch
        simp [netDepth] at this
      · have hqc : q ++ [ch] <+: b := by
          obtain ⟨r, hr⟩ := hp
          refine ⟨r, ?_⟩
          have h2 : a ++ ((q ++ [ch]) ++ r) = a ++ b := by
            rw [← hr]
            simp [List.append_assoc]
          exact List.append_cancel_left h2
        rw [netDepth_append, hnda]
        have := hcloseb q ch hqc hch
        omega
  · intro rest
    rw [List.append_assoc, hcleana (b ++ rest), hcleanb rest, List.append_assoc]

/-- A separating comma is transparent when the following character is a
non-space value head. -/
theorem renderFacts_comma (c : Char) (t : List Char)
    (hw : isWsChar c = false) (h1 : ¬ c = '}') (h2 : ¬ c = ']')
    (hx : renderFacts (c :: t)) : renderFacts (',' :: (c :: t)) := by
  obtain ⟨h96, hnd, hpre, hclose, hclean⟩ := hx
  have hcontrib : contribB '{' '}' ',' = 0 := by decide
  refine ⟨?_, ?_, ?_, ?_, ?_⟩
  · intro hm
    rcases List.mem_cons.mp hm with h | h
    · cases h
    · exact h96 h
  · rw [netDepth_cons, hcontrib, hnd]
    omega
  · intro p hp
    cases p with
    | nil => simp [netDepth]
    | cons d q =>
      obtain ⟨rfl, hq⟩ := List.cons_prefix_cons.mp hp
      rw [netDepth_cons, hcontrib]
      have := hpre q hq
      omega
  · intro p ch hp hch
    cases p with
    | nil =>
      simp only [List.nil_append] at hp
      obtain ⟨rfl, -⟩ := List.cons_prefix_cons.mp hp
      cases hch
    | cons d q =>
      rw [List.cons_append] at hp
      obtain ⟨rfl, hq⟩ := List.cons_prefix_cons.mp hp
      rw [netDepth_cons, hcontrib]
      have := hclose q ch hq hch
      omega
  · intro rest
    show cleanTrailing ['}', ']'] (',' :: ((c :: t) ++ rest)) =
      ',' :: ((c :: t) ++ cleanTrailing ['}', ']'] rest)
    rw [cleanTrailing_comma _ _ ?_, hclean rest]
    intro r rs heq
    rw [show List.dropWhile isWsChar ((c :: t) ++ rest) = c :: (t ++ rest) from by
      simp [List.dropWhile, hw]] at heq
    injection heq with e1 _
    subst e1
    simp [List.contains, h1, h2]


/-- A prefix of a one-element list is empty or that list. -/
theorem prefix_singleton (c : Char) (q : List Char) (h : q <+: [c]) : q = [] ∨ q = [c] := by
  cases q with
  | nil => exact Or.inl rfl
  | cons e q2 =>
    obtain ⟨rfl, hq2⟩ := List.cons_prefix_cons.mp h
    rw [List.prefix_nil.mp hq2]
    exact Or.inr rfl

/-- Wrapping a fragment in braces preserves the structural facts. -/
theorem renderFacts_braces (x : List Char) (hx : renderFacts x) :
    renderFacts ('{' :: (x ++ ['}'])) := by
  obtain ⟨h96, hnd, hpre, hclose, hclean⟩ := hx
  have hco : contribB '{' '}' '{' = 1 := by decide
  have hnd2 : netDepth '{' '}' (x ++ ['}']) = -1 := by
    rw [netDepth_append, hnd]
    decide
  refine ⟨?_, ?_, ?_, ?_, ?_⟩
  · intro hm
    rcases List.mem_cons.mp hm with h | h
    · cases h
    · rcases List.mem_append.mp h with h | h
      · exact h96 h
      · simp at h
  · rw [netDepth_cons, hco, hnd2]
    omega
  · intro p hp
    cases p with
    | nil => simp [netDepth]
    | cons d q =>
      obtain ⟨rfl, hq⟩ := List.cons_prefix_cons.mp hp
      rw [netDepth_cons, hco]
      rcases prefix_split x ['}'] q hq with h | ⟨q2, hq2, rfl⟩
      · have := hpre q h
        omega
      · rw [netDepth_append, hnd]
        rcases prefix_singleton '}' q2 hq2 with rfl | rfl
        · simp [netDepth]
        · have : netDepth '{' '}' ['}'] = -1 := by decide
          omega
  · intro p ch hp hch
    cases p with
    | nil =>
      simp only [List.nil_append] at hp
      obtain ⟨rfl, -⟩ := List.cons_prefix_cons.mp hp
      cases hch
    | cons d q =>
      rw [List.cons_append] at hp
      obtain ⟨rfl, hq⟩ := List.cons_prefix_cons.mp hp
      rw [netDepth_cons, hco]
      have hq0 : 0 ≤ netDepth '{' '}' q := by
        rcases prefix_split x ['}'] (q ++ [ch]) hq with h | ⟨q2, hq2, heq⟩
        · exact hpre q ((q.prefix_append [ch]).trans h)
        · rcases prefix_singleton '}' q2 hq2 with rfl | rfl
          · rw [List.append_nil] at heq
            have : q <+: x := heq ▸ q.prefix_append [ch]
            exact hpre q this
          · have hlen : q.length = x.length := by
              have := congrArg List.length heq
              simp at this
              omega
            obtain ⟨rfl, -⟩ := List.append_inj heq hlen
            rw [hnd]
      omega
  · intro rest
    show cleanTrailing ['}', ']'] ('{' :: ((x ++ ['}']) ++ rest)) =
      '{' :: ((x ++ ['}']) ++ cleanTrailing ['}', ']'] rest)
    rw [cleanTrailing_other _ '{' _ (by decide)]
    rw [show (x ++ ['}']) ++ rest = x ++ ('}' :: rest) from by simp]
    rw [hclean ('}' :: rest), cleanTrailing_other _ '}' _ (by decide)]
    simp

/-- Wrapping a fragment in square brackets preserves the structural
facts. -/
theorem renderFacts_bracks (x : List Char) (hx : renderFacts x) :
    renderFacts ('[' :: (x ++ [']'])) := by
  obtain ⟨h96, hnd, hpre, hclose, hclean⟩ := hx
  have hco : contribB '{' '}' '[' = 0 := by decide
  have hnd2 : netDepth '{' '}' (x ++ [']']) = 0 := by
    rw [netDepth_append, hnd]
    decide
  refine ⟨?_, ?_, ?_, ?_, ?_⟩
  · intro hm
    rcases List.mem_cons.mp hm with h | h
    · cases h
    · rcases List.mem_append.mp h with h | h
      · exact h96 h
      · simp at h
  · rw [netDepth_cons, hco, hnd2]
    omega
  · intro p hp
    cases p with
    | nil => simp [netDepth]
    | cons d q =>
      obtain ⟨rfl, hq⟩ := List.cons_prefix_cons.mp hp
      rw [netDepth_cons, hco]
      rcases prefix_split x [']'] q hq with h | ⟨q2, hq2, rfl⟩
      · have := hpre q h
        omega
      · rw [netDepth_append, hnd]
        rcases prefix_singleton ']' q2 hq2 with rfl | rfl
        · simp [netDepth]
        · have : netDepth '{' '}' [']'] = 0 := by decide
          omega
  · intro p ch hp hch
    cases p with
    | nil =>
      simp only [List.nil_append] at hp
      obtain ⟨rfl, -⟩ := List.cons_prefix_cons.mp hp
      cases hch
    | cons d q =>
      rw [List.cons_append] at hp
      obtain ⟨rfl, hq⟩ := List.cons_prefix_cons.mp hp
      rw [netDepth_cons, hco]
      rcases prefix_split x [']'] (q ++ [ch]) hq with h | ⟨q2, hq2, heq⟩
      · have := hclose q ch h hch
        omega
      · rcases prefix_singleton ']' q2 hq2 with rfl | rfl
        · rw [List.append_nil] at heq
          have hqx : q <+: x := heq ▸ q.prefix_append [ch]
          -- ch is then the first char of [']'], contradicting ch = '}'
          -- actually heq : q ++ [ch] = x, so q ++ [ch] <+: x
          have := hclose q ch (heq ▸ List.prefix_refl _) hch
          omega
        · have hlen : q.length = x.length := by
            have := congrArg List.length heq
            simp at this
            omega
          obtain ⟨rfl, hch2⟩ := List.append_inj heq hlen
          injection hch2 with h3
          rw [hch] at h3
          cases h3
  · intro rest
    show cleanTrailing ['}', ']'] ('[' :: ((x ++ [']']) ++ rest)) =
      '[' :: ((x ++ [']']) ++ cleanTrailing ['}', ']'] rest)
    rw [cleanTrailing_other _ '[' _ (by decide)]
    rw [show (x ++ [']']) ++ rest = x ++ (']' :: rest) from by simp]
    rw [hclean (']' :: rest), cleanTrailing_other _ ']' _ (by decide)]
    simp

/-- Unpacked form of the string-safety predicate. -/
theorem strOk_facts (c : Char) (h : strOkChar c = true) :
    ¬ c = '"' ∧ ¬ c = '\\' ∧ ¬ c = '{' ∧ ¬ c = '}' ∧ ¬ c = '[' ∧ ¬ c = ']' ∧
      ¬ c = Char.ofNat 96 ∧ ¬ c.toNat < 32 := by
  simp only [strOkChar, Bool.or_eq_true, Bool.not_eq_true', Bool.or_eq_false_iff,
    decide_eq_false_iff_not] at h
  exact ⟨h.1.1.1.1.1.1.1, h.1.1.1.1.1.1.2, h.1.1.1.1.1.2, h.1.1.1.1.2, h.1.1.1.2,
    h.1.1.2, h.1.2, h.2⟩

/-- After a safe string body, the first non-space lookahead character is
never a closer. -/
theorem strOk_dropWs_contains (s : List Char) (hs : ∀ c ∈ s, strOkChar c = true)
    (x : List Char)
    (hx : ∀ r rs, x.dropWhile isWsChar = r :: rs → (['}', ']'] : List Char).contains r = false) :
    ∀ r rs, (s ++ x).dropWhile isWsChar = r :: rs →
      (['}', ']'] : List Char).contains r = false := by
  induction s with
  | nil => simpa using hx
  | cons c t ih =>
    intro r rs heq
    by_cases hw : isWsChar c = true
    · rw [show ((c :: t) ++ x).dropWhile isWsChar = (t ++ x).dropWhile isWsChar from by
        simp [List.dropWhile, hw]] at heq
      exact ih (fun d hd => hs d (List.mem_cons_of_mem c hd)) r rs heq
    · rw [Bool.not_eq_true] at hw
      rw [show ((c :: t) ++ x).dropWhile isWsChar = c :: (t ++ x) from by
        simp [List.dropWhile, hw]] at heq
      injection heq with e1 _
      subst e1
      have hc := strOk_facts c (hs c (List.mem_cons_self c t))
      simp [List.contains, hc.2.2.2.1, hc.2.2.2.2.2.1]

/-- The trailing-comma cleanup copies a safe string body unchanged. -/
theorem cleanTrailing_strOk (s : List Char) (hs : ∀ c ∈ s, strOkChar c = true)
    (x : List Char)
    (hx : ∀ r rs, x.dropWhile isWsChar = r :: rs → (['}', ']'] : List Char).contains r = false) :
    cleanTrailing ['}', ']'] (s ++ x) = s ++ cleanTrailing ['}', ']'] x := by
  induction s with
  | nil => simp
  | cons c t ih =>
    have iht := ih (fun d hd => hs d (List.mem_cons_of_mem c hd))
    show cleanTrailing ['}', ']'] (c :: (t ++ x)) = c :: (t ++ cleanTrailing ['}', ']'] x)
    by_cases hc : c = ','
    · subst hc
      rw [cleanTrailing_comma _ _ (strOk_dropWs_contains t
        (fun d hd => hs d (List.mem_cons_of_mem ',' hd)) x hx), iht]
    · rw [cleanTrailing_other _ c _ hc, iht]

/-- A fragment without braces has the trivial depth profile. -/
theorem netDepth_zero_of_noBrace (l : List Char)
    (h : ∀ c ∈ l, ¬ c = '{' ∧ ¬ c = '}') : netDepth '{' '}' l = 0 := by
  induction l with
  | nil => simp [netDepth]
  | cons c t ih =>
    rw [netDepth_cons, show contribB '{' '}' c = 0 from by
      unfold contribB
      rw [if_neg (h c (List.mem_cons_self c t)).1, if_neg (h c (List.mem_cons_self c t)).2],
      ih (fun d hd => h d (List.mem_cons_of_mem c hd))]
    omega

/-- A rendered string literal satisfies all the structural facts. -/
theorem renderFacts_str (s : List Char) (hs : ∀ c ∈ s, strOkChar c = true) :
    renderFacts ('"' :: (s ++ ['"'])) := by
  have hnb : ∀ c ∈ '"' :: (s ++ ['"']), ¬ c = '{' ∧ ¬ c = '}' := by
    intro c hc
    rcases List.mem_cons.mp hc with rfl | hc2
    · exact ⟨by decide, by decide⟩
    · rcases List.mem_append.mp hc2 with hc3 | hc3
      · have := strOk_facts c (hs c hc3)
        exact ⟨this.2.2.1, this.2.2.2.1⟩
      · simp at hc3
        subst hc3
        exact ⟨by decide, by decide⟩
  refine ⟨?_, ?_, ?_, ?_, ?_⟩
  · intro hm
    rcases List.mem_cons.mp hm with h | h
    · cases h
    · rcases List.mem_append.mp h with h | h
      · exact (strOk_facts _ (hs _ h)).2.2.2.2.2.2.1 rfl
      · simp at h
  · exact netDepth_zero_of_noBrace _ hnb
  · intro p hp
    rw [netDepth_zero_of_noBrace p (fun c hc => hnb c (hp.subset hc))]
  · intro p ch hp hch
    subst hch
    exact absurd rfl (hnb '}' (hp.subset (by simp))).2
  · intro rest
    show cleanTrailing ['}', ']'] ('"' :: ((s ++ ['"']) ++ rest)) =
      '"' :: ((s ++ ['"']) ++ cleanTrailing ['}', ']'] rest)
    rw [cleanTrailing_other _ '"' _ (by decide)]
    rw [show (s ++ ['"']) ++ rest = s ++ ('"' :: rest) from by simp]
    rw [cleanTrailing_strOk s hs ('"' :: rest) ?_, cleanTrailing_other _ '"' _ (by decide)]
    · simp
    · intro r rs heq
      rw [show ('"' :: rest).dropWhile isWsChar = '"' :: rest from rfl] at heq
      injection heq with e1 _
      subst e1
      decide

/-- Digit characters are harmless for the structural facts. -/
theorem isDigit_ne_extra (c : Char) (h : c.isDigit = true) :
    ¬ c = Char.ofNat 96 ∧ ¬ c = '{' ∧ ¬ c = '}' ∧ ¬ c = ',' := by
  refine ⟨?_, ?_, ?_, ?_⟩ <;>
    · intro hq
      rw [hq] at h
      exact absurd h (by decide)

/-- Characters a rendered number can contain. -/
theorem renderNumChars_chars (q : Rat) (k : Nat) (hk : decExp q = some k) :
    ∀ c ∈ renderNumChars q, c = '-' ∨ c = '.' ∨ c.isDigit = true := by
  intro c hc
  rcases k with _ | k
  · rw [renderNumChars_int q hk] at hc
    rcases List.mem_append.mp hc with h | h
    · left
      by_cases hneg : q < 0
      · rw [if_pos hneg] at h
        simpa using h
      · rw [if_neg hneg] at h
        simp at h
    · exact Or.inr (Or.inr (natDigits_all_digits _ c h))
  · rw [renderNumChars_dec q k hk] at hc
    rcases List.mem_append.mp hc with h | h
    · left
      by_cases hneg : q < 0
      · rw [if_pos hneg] at h
        simpa using h
      · rw [if_neg hneg] at h
        simp at h
    · obtain ⟨ip, fp, hsplit, -, hipall, -, -, hfpall, -⟩ :=
        renderDec_parts (q * (10 : Rat) ^ (k + 1)).num.natAbs (k + 1) (by omega)
      rw [hsplit] at h
      rcases List.mem_append.mp h with h2 | h2
      · exact Or.inr (Or.inr (hipall c h2))
      · rcases List.mem_cons.mp h2 with rfl | h3
        · exact Or.inr (Or.inl rfl)
        · exact Or.inr (Or.inr (hfpall c h3))

/-- Fuel-indexed structural facts of the canonical renderer: every safe
rendered value, element tail and field tail satisfies `renderFacts`. -/
theorem renderFacts_all (fuel : Nat) :
    (∀ j, safeJson j = true → (renderJson j).length ≤ fuel → renderFacts (renderJson j)) ∧
    (∀ v vs, safeL (v :: vs) = true →
      (renderJson v).length + (renderElemsTail vs).length + 1 ≤ fuel →
      renderFacts (renderJson v ++ renderElemsTail vs)) ∧
    (∀ fld fs, safeF (fld :: fs) = true →
      (renderField fld).length + (renderFieldsTail fs).length + 1 ≤ fuel →
      renderFacts (renderField fld ++ renderFieldsTail fs)) := by
  induction fuel with
  | zero =>
    refine ⟨?_, ?_, ?_⟩
    · intro j hs hsz
      obtain ⟨c, t, hct, -, -, -⟩ := renderJson_head j hs
      rw [hct] at hsz
      simp at hsz
    · intro v vs hs hsz
      exact absurd hsz (by omega)
    · intro fld fs hs hsz
      exact absurd hsz (by omega)
  | succ f ih =>
    obtain ⟨ih1, ih2, ih3⟩ := ih
    refine ⟨?_, ?_, ?_⟩
    · intro j hs hsz
      cases j with
      | null => exact renderFacts_ofChars _ (by decide)
      | bool b => cases b <;> exact renderFacts_ofChars _ (by decide)
      | nan => exact absurd hs (by simp [safeJson])
      | num q =>
        have hq : (decExp q).isSome = true := hs
        obtain ⟨k, hk⟩ := Option.isSome_iff_exists.mp hq
        show renderFacts (renderNumChars q)
        refine renderFacts_ofChars _ (fun c hc => ?_)
        rcases renderNumChars_chars q k hk c hc with rfl | rfl | hd
        · exact ⟨by decide, by decide, by decide, by decide⟩
        · exact ⟨by decide, by decide, by decide, by decide⟩
        · exact isDigit_ne_extra c hd
      | str s =>
        show renderFacts ('"' :: (s ++ ['"']))
        exact renderFacts_str s (List.all_eq_true.mp hs)
      | arr xs =>
        cases xs with
        | nil => exact renderFacts_ofChars _ (by decide)
        | cons v vs =>
          have hlen : (renderJson (.arr (v :: vs))).length =
              (renderJson v).length + (renderElemsTail vs).length + 2 := by
            show (('[' :: (renderJson v ++ renderElemsTail vs)) ++ [']']).length = _
            simp
            omega
          show renderFacts ('[' :: ((renderJson v ++ renderElemsTail vs) ++ [']']))
          exact renderFacts_bracks _ (ih2 v vs hs (by omega))
      | obj fs0 =>
        cases fs0 with
        | nil =>
          show renderFacts ('{' :: ([] ++ ['}']))
          exact renderFacts_braces [] renderFacts_nil
        | cons fld fs =>
          have hlen : (renderJson (.obj (fld :: fs))).length =
              (renderField fld).length + (renderFieldsTail fs).length + 2 := by
            show (('{' :: (renderField fld ++ renderFieldsTail fs)) ++ ['}']).length = _
            simp
            omega
          show renderFacts ('{' :: ((renderField fld ++ renderFieldsTail fs) ++ ['}']))
          exact renderFacts_braces _ (ih3 fld fs hs (by omega))
    · intro v vs hs hsz
      have hv : safeJson v = true := by
        have h := hs
        simp only [safeL, Bool.and_eq_true] at h
        exact h.1
      cases vs with
      | nil =>
        rw [show renderElemsTail [] = [] from rfl, List.append_nil]
        exact ih1 v hv (by omega)
      | cons v2 vs2 =>
        have hvs2 : safeL (v2 :: vs2) = true := by
          have h := hs
          rw [show safeL (v :: v2 :: vs2) = (safeJson v && safeL (v2 :: vs2)) from rfl] at h
          simp only [Bool.and_eq_true] at h
          exact h.2
        have hv2 : safeJson v2 = true := by
          have h := hvs2
          simp only [safeL, Bool.and_eq_true] at h
          exact h.1
        have hlen : (renderElemsTail (v2 :: vs2)).length =
            1 + (renderJson v2).length + (renderElemsTail vs2).length := by
          show ((',' :: renderJson v2) ++ renderElemsTail vs2).length = _
          simp
          omega
        have h2 := ih2 v2 vs2 hvs2 (by omega)
        obtain ⟨c, t, hct, hws, hne1, hne2⟩ := renderJson_head v2 hv2
        rw [hct] at h2
        have h3 : renderFacts (',' :: (c :: (t ++ renderElemsTail vs2))) :=
          renderFacts_comma c (t ++ renderElemsTail vs2) hws hne2 hne1 h2
        have h4 : renderFacts (renderElemsTail (v2 :: vs2)) := by
          show renderFacts (',' :: (renderJson v2 ++ renderElemsTail vs2))
          rw [hct]
          exact h3
        exact renderFacts_append _ _ (ih1 v hv (by omega)) h4
    · intro fld fs hs hsz
      obtain ⟨k0, v0⟩ := fld
      have hks : ∀ c ∈ k0, strOkChar c = true := by
        have h := hs
        simp only [safeF, Bool.and_eq_true] at h
        exact List.all_eq_true.mp h.1.1
      have hv : safeJson v0 = true := by
        have h := hs
        simp only [safeF, Bool.and_eq_true] at h
        exact h.1.2
      have hlenF : (renderField (k0, v0)).length = k0.length + (renderJson v0).length + 3 := by
        show (('"' :: k0) ++ '"' :: ':' :: renderJson v0).length = _
        simp
        omega
      have hY : renderFacts (renderJson v0 ++ renderFieldsTail fs) := by
        cases fs with
        | nil =>
          rw [show renderFieldsTail [] = [] from rfl, List.append_nil]
          exact ih1 v0 hv (by omega)
        | cons f2 fs2 =>
          have hfs2 : safeF (f2 :: fs2) = true := by
            have h := hs
            rw [show safeF ((k0, v0) :: f2 :: fs2) =
              (k0.all strOkChar && safeJson v0 && safeF (f2 :: fs2)) from rfl] at h
            simp only [Bool.and_eq_true] at h
            exact h.2
          obtain ⟨k2, v2⟩ := f2
          have hlenT : (renderFieldsTail ((k2, v2) :: fs2)).length =
              1 + (renderField (k2, v2)).length + (renderFieldsTail fs2).length := by
            show ((',' :: renderField (k2, v2)) ++ renderFieldsTail fs2).length = _
            simp
            omega
          have h2 := ih3 (k2, v2) fs2 hfs2 (by omega)
          have h3 : renderFacts (renderFieldsTail ((k2, v2) :: fs2)) :=
            renderFacts_comma '"' ((k2 ++ '"' :: ':' :: renderJson v2) ++ renderFieldsTail fs2)
              (by decide) (by decide) (by decide) h2
          exact renderFacts_append _ _ (ih1 v0 hv (by omega)) h3
      have hdec : renderField (k0, v0) ++ renderFieldsTail fs =
          ('"' :: (k0 ++ ['"'])) ++ (':' :: (renderJson v0 ++ renderFieldsTail fs)) := by
        show ('"' :: (k0 ++ ('"' :: ':' :: renderJson v0))) ++ renderFieldsTail fs = _
        simp
      rw [hdec]
      exact renderFacts_append _ _ (renderFacts_str k0 hks)
        (renderFacts_other ':' _ ⟨by decide, by decide, by decide, by decide⟩ hY)

/-- The balanced scan passes over a region in which no closing brace sits
at depth one, accumulating the region's net depth. -/
theorem scanBalGo_through (body : List Char) : ∀ (rest : List Char) (d : Int) (i : Nat),
    (∀ p c, p ++ [c] <+: body → c = '}' → d + netDepth '{' '}' p ≠ 1) →
    scanBalGo '{' '}' (body ++ rest) d i =
      scanBalGo '{' '}' rest (d + netDepth '{' '}' body) (i + body.length) := by
  induction body with
  | nil =>
    intro rest d i h
    simp [netDepth]
  | cons c t ih =>
    intro rest d i h
    have htrans : ∀ stepd : Int, (∀ p ch, p ++ [ch] <+: t → ch = '}' →
        (d + contribB '{' '}' c) + netDepth '{' '}' p ≠ 1) := by
      intro _ p ch hp hch
      have := h (c :: p) ch (by
        rw [List.cons_append]
        exact List.cons_prefix_cons.mpr ⟨rfl, hp⟩) hch
      rw [netDepth_cons] at this
      omega
    show scanBalGo '{' '}' (c :: (t ++ rest)) d i = _
    simp only [scanBalGo]
    by_cases hoc : c = '{'
    · rw [if_pos hoc, ih rest (d + 1) (i + 1) (by
        have := htrans 0
        intro p ch hp hch
        have h2 := this p ch hp hch
        rw [hoc] at h2
        simpa [contribB] using h2)]
      rw [netDepth_cons, hoc]
      have hc1 : contribB '{' '}' '{' = 1 := by decide
      rw [hc1]
      congr 1
      · omega
      · simp [List.length_cons]
        omega
    · by_cases hcc : c = '}'
      · rw [if_neg hoc, if_pos hcc]
        have hstop : ¬ (d - 1 = 0) := by
          have := h [] c (by
            simp only [List.nil_append]
            exact ⟨t, rfl⟩) hcc
          simp [netDepth] at this
          omega
        rw [if_neg hstop, ih rest (d - 1) (i + 1) (by
          have := htrans 0
          intro p ch hp hch
          have h2 := this p ch hp hch
          rw [hcc] at h2
          simpa [contribB] using h2)]
        rw [netDepth_cons, hcc]
        have hc1 : contribB '{' '}' '}' = -1 := by decide
        rw [hc1]
        congr 1
        · omega
        · simp [List.length_cons]
          omega
      · rw [if_neg hoc, if_neg hcc, ih rest d (i + 1) (by
          have := htrans 0
          intro p ch hp hch
          have h2 := this p ch hp hch
          have hc0 : contribB '{' '}' c = 0 := by
            unfold contribB
            rw [if_neg hoc, if_neg hcc]
          rw [hc0] at h2
          simpa using h2)]
        rw [netDepth_cons]
        have hc0 : contribB '{' '}' c = 0 := by
          unfold contribB
          rw [if_neg hoc, if_neg hcc]
        rw [hc0]
        congr 1
        · omega
        · simp [List.length_cons]
          omega

/-- On a brace-wrapped fragment with the structural facts, the boundary
scan stops exactly at the closing brace of the wrapper. -/
theorem scanBalGo_close (tail : List Char) (d : Int) (i : Nat) (hd : d - 1 = 0) :
    scanBalGo '{' '}' ('}' :: tail) d i = some i := by
  simp only [scanBalGo, if_true]
  rw [if_neg (show ¬ ('}' : Char) = '{' by decide), if_pos hd]

theorem scanBalanced_complete (inner tail : List Char) (hin : renderFacts inner) :
    scanBalGo '{' '}' ('{' :: (inner ++ ('}' :: tail))) 0 0 = some (inner.length + 1) := by
  obtain ⟨-, hnd, -, hclose, -⟩ := hin
  simp only [scanBalGo, if_true]
  show scanBalGo '{' '}' (inner ++ '}' :: tail) 1 1 = some (inner.length + 1)
  rw [scanBalGo_through inner ('}' :: tail) 1 1 (by
    intro p c hp hc
    have := hclose p c hp hc
    omega)]
  rw [hnd]
  rw [scanBalGo_close tail (1 + 0) (1 + inner.length) (by omega)]
  congr 1
  omega

/-- The global replace leaves an empty input alone at any fuel. -/
theorem removePatGo_nil (pat : List Char) (fuel : Nat) : removePatGo pat fuel [] = [] := by
  cases fuel <;> rfl

/-- The global replace is the identity on text missing the pattern's first
character. -/
theorem removePatGo_noop (pat : List Char) (h0 : Char) (hh : pat.head? = some h0) :
    ∀ fuel s, h0 ∉ s → removePatGo pat fuel s = s := by
  intro fuel
  induction fuel with
  | zero =>
    intro s h
    cases s <;> rfl
  | succ f ih =>
    intro s h
    cases s with
    | nil => rfl
    | cons c cs =>
      have hmem : ¬ h0 = c ∧ h0 ∉ cs := by
        simp only [List.mem_cons, not_or] at h
        exact h
      have hpre : pat.isPrefixOf (c :: cs) = false := by
        cases pat with
        | nil => simp at hh
        | cons p0 pt =>
          have hp0 : p0 = h0 := by
            simp only [List.head?_cons, Option.some.injEq] at hh
            exact hh
          subst hp0
          show List.isPrefixOf (p0 :: pt) (c :: cs) = false
          simp only [List.isPrefixOf]
          have : (p0 == c) = false := by
            simp only [beq_eq_false_iff_ne, ne_eq]
            exact hmem.1
          rw [this]
          simp
      show removePatGo pat (f + 1) (c :: cs) = c :: cs
      simp only [removePatGo, hpre, Bool.false_and]
      rw [if_neg (show ¬ false = true by decide), ih cs hmem.2]

theorem removePat_noop (pat : List Char) (h0 : Char) (hh : pat.head? = some h0)
    (s : List Char) (h : h0 ∉ s) : removePat pat s = s :=
  removePatGo_noop pat h0 hh s.length s h

/-- The fence stripper is the identity on backtick-free text. -/
theorem stripFences_noop (s : List Char) (h : Char.ofNat 96 ∉ s) : stripFences s = s := by
  unfold stripFences
  rw [removePat_noop (fenceChars ++ ['j', 's', 'o', 'n']) (Char.ofNat 96) rfl s h,
    removePat_noop fenceChars (Char.ofNat 96) rfl s h]

/-- The think-block stripper is the identity when the text does not open
with `<`. -/
theorem stripThink_noop (c : Char) (t : List Char) (hc : ¬ c = '<') :
    stripThink (c :: t) = c :: t := by
  unfold stripThink
  rw [if_neg ?_]
  show ¬ thinkOpen.isPrefixOf (c :: t) = true
  show ¬ List.isPrefixOf ('<' :: ['t', 'h', 'i', 'n', 'k', '>']) (c :: t) = true
  simp only [List.isPrefixOf]
  have : (('<' : Char) == c) = false := by
    simp only [beq_eq_false_iff_ne, ne_eq]
    intro h2
    exact hc h2.symm
  rw [this]
  simp

/-- Trimming is the identity when both edges are non-whitespace. -/
theorem jsTrim_noop (c d : Char) (a : List Char) (hc : isWsChar c = false)
    (hd : isWsChar d = false) : jsTrim (c :: (a ++ [d])) = c :: (a ++ [d]) := by
  unfold jsTrim
  rw [show List.dropWhile isWsChar (c :: (a ++ [d])) = c :: (a ++ [d]) from by
    simp [List.dropWhile, hc]]
  rw [show (c :: (a ++ [d])).reverse = d :: (a.reverse ++ [c]) from by simp]
  rw [show List.dropWhile isWsChar (d :: (a.reverse ++ [c])) = d :: (a.reverse ++ [c]) from by
    simp [List.dropWhile, hd]]
  simp

/-- The first `{` of a brace-headed text sits at index zero. -/
theorem indexOfChar_head (t : List Char) : indexOfChar '{' ('{' :: t) = some 0 := by
  unfold indexOfChar
  rw [List.findIdx?_cons]
  simp

/-- A text containing `}` has a last index for it. -/
theorem lastIndexOfChar_isSome (s : List Char) (h : '}' ∈ s) :
    ∃ i, lastIndexOfChar '}' s = some i := by
  unfold lastIndexOfChar
  have : (s.reverse.findIdx? (· = '}')).isSome = true := by
    rw [List.findIdx?_isSome]
    exact List.any_eq_true.mpr ⟨'}', List.mem_reverse.mpr h, by simp⟩
  obtain ⟨i, hi⟩ := Option.isSome_iff_exists.mp this
  exact ⟨_, by rw [hi]; rfl⟩

/-- The structural facts hold of every safe rendered value. -/
theorem renderFacts_render (j : Json) (hs : safeJson j = true) : renderFacts (renderJson j) :=
  (renderFacts_all (renderJson j).length).1 j hs le_rfl

/-- A rendered object is a brace-wrapped body satisfying the structural
facts. -/
theorem renderObj_decomp (fs : List (List Char × Json)) (hs : safeJson (.obj fs) = true) :
    ∃ inner, renderJson (.obj fs) = '{' :: (inner ++ ['}']) ∧ renderFacts inner := by
  cases fs with
  | nil => exact ⟨[], rfl, renderFacts_nil⟩
  | cons fld t =>
    refine ⟨renderField fld ++ renderFieldsTail t, rfl, ?_⟩
    have hlen : (renderJson (.obj (fld :: t))).length =
        (renderField fld).length + (renderFieldsTail t).length + 2 := by
      show (('{' :: (renderField fld ++ renderFieldsTail t)) ++ ['}']).length = _
      simp
      omega
    exact (renderFacts_all ((renderField fld).length + (renderFieldsTail t).length + 1)).2.2
      fld t hs le_rfl

/-- The whole-document path of the salvage parser succeeds on any cleaned
content consisting of a safe rendered object followed by residual text that
cannot confuse the boundary scan start. -/
theorem parseResponse_complete (s trail : List Char) (fs : List (List Char × Json))
    (expected : List (List Char)) (hs : safeJson (.obj fs) = true)
    (hcontent : stripFences (stripThink (jsTrim s)) = renderJson (.obj fs) ++ trail) :
    parseResponseWithTruncationHandling s expected = some (.obj fs) := by
  obtain ⟨inner, hdec, hfacts⟩ := renderObj_decomp fs hs
  have hRfacts : renderFacts (renderJson (.obj fs)) := renderFacts_render _ hs
  have hcontent2 : stripFences (stripThink (jsTrim s)) = '{' :: (inner ++ ('}' :: trail)) := by
    rw [hcontent, hdec]
    simp
  have hidx : indexOfChar '{' ('{' :: (inner ++ ('}' :: trail))) = some 0 :=
    indexOfChar_head _
  obtain ⟨L, hlast⟩ := lastIndexOfChar_isSome ('{' :: (inner ++ ('}' :: trail)))
    (by simp)
  have hscan : scanBalanced '{' '}' ('{' :: (inner ++ ('}' :: trail))) 0 =
      some (inner.length + 1) := by
    unfold scanBalanced
    rw [List.drop_zero]
    exact scanBalanced_complete inner trail hfacts
  have htake : (('{' :: (inner ++ ('}' :: trail))).drop 0).take (inner.length + 1 + 1 - 0) =
      renderJson (.obj fs) := by
    rw [List.drop_zero, hdec]
    rw [show inner.length + 1 + 1 - 0 = (inner.length + 1) + 1 from by omega]
    rw [List.take_succ_cons]
    congr 1
    rw [show inner.length + 1 = inner.length + [('}' : Char)].length from by simp]
    rw [show inner ++ ('}' :: trail) = (inner ++ ['}']) ++ trail from by simp]
    rw [show inner.length + [('}' : Char)].length = (inner ++ ['}']).length from by simp]
    exact List.take_left _ _
  have hclean : cleanTrailing ['}', ']'] (renderJson (.obj fs)) = renderJson (.obj fs) := by
    have h5 := hRfacts.2.2.2.2 []
    have hnil : cleanTrailing ['}', ']'] ([] : List Char) = [] := by
      rw [cleanTrailing.eq_def]
    rw [List.append_nil, hnil, List.append_nil] at h5
    exact h5
  have hparse : jsonParse (cleanTrailing ['}', ']'] ((('{' :: (inner ++ ('}' :: trail))).drop 0).take
      (inner.length + 1 + 1 - 0))) = some (Json.obj fs) := by
    rw [htake, hclean]
    exact jsonParse_render _ hs
  simp only [parseResponseWithTruncationHandling, hcontent2, hidx, hlast, hscan, hparse]

/-- A pattern cannot be a prefix of text starting with a different
character. -/
theorem isPrefixOf_head_ne (pat : List Char) (h0 c : Char) (hh : pat.head? = some h0)
    (hne : ¬ h0 = c) (cs : List Char) : pat.isPrefixOf (c :: cs) = false := by
  cases pat with
  | nil => simp at hh
  | cons p0 pt =>
    have hp0 : p0 = h0 := by
      simp only [List.head?_cons, Option.some.injEq] at hh
      exact hh
    subst hp0
    show List.isPrefixOf (p0 :: pt) (c :: cs) = false
    simp only [List.isPrefixOf]
    rw [show (p0 == c) = false from by
      simp only [beq_eq_false_iff_ne, ne_eq]
      exact hne]
    simp

/-- A leading pattern occurrence is removed together with the following
whitespace. -/
theorem removePatGo_lead (p0 : Char) (pt z : List Char) (f : Nat) :
    removePatGo (p0 :: pt) (f + 1) ((p0 :: pt) ++ z) =
      removePatGo (p0 :: pt) f (z.dropWhile isWsChar) := by
  show removePatGo (p0 :: pt) (f + 1) (p0 :: (pt ++ z)) = _
  simp only [removePatGo]
  have hpre : (p0 :: pt).isPrefixOf (p0 :: (pt ++ z)) = true :=
    List.isPrefixOf_iff_prefix.mpr ⟨z, by simp⟩
  rw [hpre]
  rw [show ((p0 :: (pt ++ z)).drop (p0 :: pt).length) = z from List.drop_left (p0 :: pt) z]
  simp

/-- The global replace copies a region free of the pattern's first
character. -/
theorem removePatGo_free (pat : List Char) (h0 : Char) (hh : pat.head? = some h0) :
    ∀ (x : List Char), h0 ∉ x → ∀ (y : List Char) (f : Nat),
      removePatGo pat (x.length + f) (x ++ y) = x ++ removePatGo pat f y := by
  intro x
  induction x with
  | nil =>
    intro _ y f
    simp
  | cons c t ih =>
    intro hx y f
    have hmem : ¬ h0 = c ∧ h0 ∉ t := by
      simp only [List.mem_cons, not_or] at hx
      exact hx
    have hpre := isPrefixOf_head_ne pat h0 c hh hmem.1 (t ++ y)
    rw [show (c :: t).length + f = (t.length + f) + 1 from by simp; omega]
    show removePatGo pat ((t.length + f) + 1) (c :: (t ++ y)) = c :: (t ++ removePatGo pat f y)
    simp only [removePatGo, hpre, Bool.false_and]
    rw [if_neg (show ¬ false = true by decide), ih hmem.2 y f]

/-- Fuel-flexible form of `removePatGo_free`. -/
theorem removePatGo_free' (pat : List Char) (h0 : Char) (hh : pat.head? = some h0)
    (x : List Char) (hx : h0 ∉ x) (y : List Char) (f n : Nat) (hn : n = x.length + f) :
    removePatGo pat n (x ++ y) = x ++ removePatGo pat f y := by
  subst hn
  exact removePatGo_free pat h0 hh x hx y f

/-- The seven-character fence-json pattern never matches inside a bare
three-backtick fence. -/
theorem removePat_fence_json_tail (m : Nat) :
    removePatGo (fenceChars ++ ['j', 's', 'o', 'n']) (m + 3) fenceChars = fenceChars := by
  show removePatGo (fenceChars ++ ['j', 's', 'o', 'n']) (m + 3)
    (Char.ofNat 96 :: Char.ofNat 96 :: Char.ofNat 96 :: []) = _
  simp only [removePatGo,
    show (fenceChars ++ ['j', 's', 'o', 'n']).isPrefixOf
      (Char.ofNat 96 :: Char.ofNat 96 :: Char.ofNat 96 :: []) = false from by decide,
    show (fenceChars ++ ['j', 's', 'o', 'n']).isPrefixOf
      (Char.ofNat 96 :: Char.ofNat 96 :: []) = false from by decide,
    show (fenceChars ++ ['j', 's', 'o', 'n']).isPrefixOf
      (Char.ofNat 96 :: []) = false from by decide,
    Bool.false_and, removePatGo_nil]
  simp [fenceChars]

/-- A bare fence is consumed whole by its own pattern. -/
theorem removePat_fence_self : removePatGo fenceChars 3 fenceChars = [] := by
  show removePatGo fenceChars 3 (Char.ofNat 96 :: Char.ofNat 96 :: Char.ofNat 96 :: []) = []
  simp only [removePatGo]
  rw [show (fenceChars.isPrefixOf (Char.ofNat 96 :: Char.ofNat 96 :: Char.ofNat 96 :: []) &&
    !fenceChars.isEmpty) = true from by decide]
  rw [if_pos rfl]

/-- Cleaned content of a bare rendered object. -/
theorem content_plain (fs : List (List Char × Json)) (hs : safeJson (.obj fs) = true) :
    stripFences (stripThink (jsTrim (renderJson (.obj fs)))) = renderJson (.obj fs) ++ [] := by
  obtain ⟨inner, hdec, -⟩ := renderObj_decomp fs hs
  have h96 : Char.ofNat 96 ∉ renderJson (.obj fs) := (renderFacts_render _ hs).1
  rw [List.append_nil]
  rw [hdec] at h96 ⊢
  rw [jsTrim_noop '{' '}' inner (by decide) (by decide)]
  rw [stripThink_noop '{' (inner ++ ['}']) (by decide)]
  exact stripFences_noop _ h96

/-- Cleaned content of a fenced rendered object: the fences and the
newline after the opener disappear, the newline before the closer
remains. -/
theorem content_fenced (fs : List (List Char × Json)) (hs : safeJson (.obj fs) = true) :
    stripFences (stripThink (jsTrim (fenceChars ++ ('j' :: 's' :: 'o' :: 'n' :: '\n' ::
        (renderJson (.obj fs) ++ ('\n' :: fenceChars)))))) =
      renderJson (.obj fs) ++ ['\n'] := by
  obtain ⟨inner, hdec, -⟩ := renderObj_decomp fs hs
  have h96 : Char.ofNat 96 ∉ renderJson (.obj fs) := (renderFacts_render _ hs).1
  have hshape : fenceChars ++ ('j' :: 's' :: 'o' :: 'n' :: '\n' ::
      (renderJson (.obj fs) ++ ('\n' :: fenceChars))) =
      Char.ofNat 96 :: ((Char.ofNat 96 :: Char.ofNat 96 :: 'j' :: 's' :: 'o' :: 'n' :: '\n' ::
        (renderJson (.obj fs) ++ ('\n' :: Char.ofNat 96 :: [Char.ofNat 96]))) ++
          [Char.ofNat 96]) := by
    simp [fenceChars]
  rw [hshape, jsTrim_noop _ _ _ (by decide) (by decide), ← hshape]
  have hth : stripThink (fenceChars ++ ('j' :: 's' :: 'o' :: 'n' :: '\n' ::
      (renderJson (.obj fs) ++ ('\n' :: fenceChars)))) =
      fenceChars ++ ('j' :: 's' :: 'o' :: 'n' :: '\n' ::
        (renderJson (.obj fs) ++ ('\n' :: fenceChars))) :=
    stripThink_noop (Char.ofNat 96) _ (by decide)
  rw [hth]
  unfold stripFences
  have hstep1 : removePat (fenceChars ++ ['j', 's', 'o', 'n'])
      (fenceChars ++ ('j' :: 's' :: 'o' :: 'n' :: '\n' ::
        (renderJson (.obj fs) ++ ('\n' :: fenceChars)))) =
      renderJson (.obj fs) ++ ('\n' :: fenceChars) := by
    unfold removePat
    have hfuel1 : (fenceChars ++ ('j' :: 's' :: 'o' :: 'n' :: '\n' ::
        (renderJson (.obj fs) ++ ('\n' :: fenceChars)))).length =
        ((renderJson (.obj fs)).length + 11) + 1 := by
      simp [fenceChars]
    rw [hfuel1]
    rw [show (fenceChars ++ ['j', 's', 'o', 'n'] : List Char) =
      Char.ofNat 96 :: (Char.ofNat 96 :: Char.ofNat 96 :: 'j' :: 's' :: 'o' :: 'n' :: []) from rfl]
    rw [show fenceChars ++ ('j' :: 's' :: 'o' :: 'n' :: '\n' ::
        (renderJson (.obj fs) ++ ('\n' :: fenceChars))) =
      (Char.ofNat 96 :: (Char.ofNat 96 :: Char.ofNat 96 :: 'j' :: 's' :: 'o' :: 'n' :: [])) ++
        ('\n' :: (renderJson (.obj fs) ++ ('\n' :: fenceChars))) from rfl]
    rw [removePatGo_lead]
    rw [show (('\n' :: (renderJson (.obj fs) ++ ('\n' :: fenceChars))).dropWhile isWsChar) =
      renderJson (.obj fs) ++ ('\n' :: fenceChars) from by rw [hdec]; rfl]
    rw [removePatGo_free'
      (Char.ofNat 96 :: (Char.ofNat 96 :: Char.ofNat 96 :: 'j' :: 's' :: 'o' :: 'n' :: []))
      (Char.ofNat 96) rfl (renderJson (.obj fs)) h96
      ('\n' :: fenceChars) 11 ((renderJson (.obj fs)).length + 11) rfl]
    rw [show ('\n' :: fenceChars : List Char) = ['\n'] ++ fenceChars from rfl]
    rw [removePatGo_free'
      (Char.ofNat 96 :: (Char.ofNat 96 :: Char.ofNat 96 :: 'j' :: 's' :: 'o' :: 'n' :: []))
      (Char.ofNat 96) rfl ['\n'] (by decide) fenceChars 10 11 rfl]
    rw [show (Char.ofNat 96 :: (Char.ofNat 96 :: Char.ofNat 96 :: 'j' :: 's' :: 'o' :: 'n' :: []) :
      List Char) = fenceChars ++ ['j', 's', 'o', 'n'] from rfl]
    rw [show (10 : Nat) = 7 + 3 from by norm_num, removePat_fence_json_tail]
  rw [hstep1]
  have hstep2 : removePat fenceChars (renderJson (.obj fs) ++ ('\n' :: fenceChars)) =
      renderJson (.obj fs) ++ ['\n'] := by
    unfold removePat
    have hfuel2 : (renderJson (.obj fs) ++ ('\n' :: fenceChars)).length =
        (renderJson (.obj fs)).length + 4 := by
      simp [fenceChars]
    rw [hfuel2]
    rw [removePatGo_free' fenceChars (Char.ofNat 96) rfl (renderJson (.obj fs)) h96
      ('\n' :: fenceChars) 4 ((renderJson (.obj fs)).length + 4) rfl]
    rw [show ('\n' :: fenceChars : List Char) = ['\n'] ++ fenceChars from rfl]
    rw [removePatGo_free' fenceChars (Char.ofNat 96) rfl ['\n'] (by decide) fenceChars 3 4 rfl]
    rw [removePat_fence_self]
    simp
  rw [hstep2]

/-- In a list whose head character occurs nowhere later, the only suffix
starting with that character is the whole list. -/
theorem suffix_head_unique (h0 : Char) (x : List Char) (hnot : h0 ∉ x) :
    ∀ t, t <:+ (h0 :: x) → t.head? = some h0 → t = h0 :: x := by
  intro t hsuf hhead
  rcases List.suffix_cons_iff.mp hsuf with rfl | hsuf2
  · rfl
  · exfalso
    cases t with
    | nil => simp at hhead
    | cons c tt =>
      simp only [List.head?_cons, Option.some.injEq] at hhead
      subst hhead
      exact hnot (hsuf2.subset (List.mem_cons_self _ _))

/-- No nonempty suffix of `<think>` followed by a `<`-free body begins the
closing tag. -/
theorem think_no_early_close (tb : List Char) (htb : '<' ∉ tb) (y : List Char) :
    ∀ t, t <:+ (thinkOpen ++ tb) → t ≠ [] →
      thinkClose.isPrefixOf (t ++ (thinkClose ++ y)) = false := by
  intro t hsuf hne
  cases t with
  | nil => exact absurd rfl hne
  | cons c tt =>
    by_cases hc : c = '<'
    · subst hc
      have hx : '<' ∉ 't' :: 'h' :: 'i' :: 'n' :: 'k' :: '>' :: tb := by
        simp only [List.mem_cons, not_or]
        refine ⟨by decide, by decide, by decide, by decide, by decide, by decide, htb⟩
      have hwhole : '<' :: tt = '<' :: ('t' :: 'h' :: 'i' :: 'n' :: 'k' :: '>' :: tb) := by
        refine suffix_head_unique '<' ('t' :: 'h' :: 'i' :: 'n' :: 'k' :: '>' :: tb) hx
          ('<' :: tt) ?_ rfl
        exact hsuf
      rw [hwhole]
      show List.isPrefixOf ('<' :: '/' :: 't' :: 'h' :: 'i' :: 'n' :: 'k' :: '>' :: [])
        ('<' :: ('t' :: ('h' :: 'i' :: 'n' :: 'k' :: '>' :: tb) ++ (thinkClose ++ y))) = false
      simp [List.isPrefixOf]
    · show List.isPrefixOf ('<' :: '/' :: 't' :: 'h' :: 'i' :: 'n' :: 'k' :: '>' :: [])
        (c :: (tt ++ (thinkClose ++ y))) = false
      simp only [List.isPrefixOf]
      rw [show (('<' : Char) == c) = false from by
        simp only [beq_eq_false_iff_ne, ne_eq]
        intro h2
        exact hc h2.symm]
      simp

/-- With no earlier match possible, the first occurrence of the pattern
sits exactly after the leading region. -/
theorem indexOfSub_exact (pat : List Char) (x y : List Char) (hpat : pat ≠ [])
    (h : ∀ t, t <:+ x → t ≠ [] → pat.isPrefixOf (t ++ (pat ++ y)) = false) :
    indexOfSub pat (x ++ (pat ++ y)) = some x.length := by
  induction x with
  | nil =>
    simp only [List.nil_append]
    cases pat with
    | nil => exact absurd rfl hpat
    | cons p0 pt =>
      show indexOfSub (p0 :: pt) (p0 :: (pt ++ y)) = some 0
      simp only [indexOfSub]
      rw [show (p0 :: pt).isPrefixOf (p0 :: (pt ++ y)) = true from
        List.isPrefixOf_iff_prefix.mpr ⟨y, by simp⟩]
      rw [if_pos rfl]
  | cons c t ih =>
    show indexOfSub pat (c :: (t ++ (pat ++ y))) = some ((c :: t).length)
    simp only [indexOfSub]
    have hfalse : pat.isPrefixOf (c :: (t ++ (pat ++ y))) = false :=
      h (c :: t) (List.suffix_refl _) (by simp)
    rw [hfalse, if_neg (show ¬ false = true by decide)]
    rw [ih (fun t2 ht2 hne => h t2 (ht2.trans (List.suffix_cons c t)) hne)]
    simp

/-- Cleaned content of a think-prefixed rendered object. -/
theorem content_think (fs : List (List Char × Json)) (hs : safeJson (.obj fs) = true)
    (tb : List Char) (htb : '<' ∉ tb) :
    stripFences (stripThink (jsTrim (thinkOpen ++ (tb ++ (thinkClose ++
        renderJson (.obj fs)))))) = renderJson (.obj fs) ++ [] := by
  obtain ⟨inner, hdec, -⟩ := renderObj_decomp fs hs
  have h96 : Char.ofNat 96 ∉ renderJson (.obj fs) := (renderFacts_render _ hs).1
  rw [List.append_nil]
  have hshape : thinkOpen ++ (tb ++ (thinkClose ++ renderJson (.obj fs))) =
      '<' :: (('t' :: 'h' :: 'i' :: 'n' :: 'k' :: '>' ::
        (tb ++ ('<' :: '/' :: 't' :: 'h' :: 'i' :: 'n' :: 'k' :: '>' :: ('{' :: inner)))) ++
          ['}']) := by
    rw [hdec]
    simp [thinkOpen, thinkClose]
  rw [hshape, jsTrim_noop _ _ _ (by decide) (by decide), ← hshape]
  unfold stripThink
  rw [show thinkOpen.isPrefixOf (thinkOpen ++ (tb ++ (thinkClose ++ renderJson (.obj fs)))) =
    true from List.isPrefixOf_iff_prefix.mpr ⟨_, rfl⟩]
  rw [if_pos rfl]
  have hidx : indexOfSub thinkClose (thinkOpen ++ (tb ++ (thinkClose ++
      renderJson (.obj fs)))) = some ((thinkOpen ++ tb).length) := by
    rw [show thinkOpen ++ (tb ++ (thinkClose ++ renderJson (.obj fs))) =
      (thinkOpen ++ tb) ++ (thinkClose ++ renderJson (.obj fs)) from by simp]
    exact indexOfSub_exact thinkClose (thinkOpen ++ tb) (renderJson (.obj fs)) (by decide)
      (think_no_early_close tb htb _)
  rw [hidx]
  show stripFences (jsTrim ((thinkOpen ++ (tb ++ (thinkClose ++
    renderJson (.obj fs)))).drop ((thinkOpen ++ tb).length + 8))) = renderJson (.obj fs)
  have hdrop : (thinkOpen ++ (tb ++ (thinkClose ++ renderJson (.obj fs)))).drop
      ((thinkOpen ++ tb).length + 8) = renderJson (.obj fs) := by
    rw [show (thinkOpen ++ tb).length + 8 = ((thinkOpen ++ tb) ++ thinkClose).length from by
      simp [thinkOpen, thinkClose]]
    rw [show thinkOpen ++ (tb ++ (thinkClose ++ renderJson (.obj fs))) =
      ((thinkOpen ++ tb) ++ thinkClose) ++ renderJson (.obj fs) from by simp]
    exact List.drop_left _ _
  rw [hdrop, hdec, jsTrim_noop '{' '}' inner (by decide) (by decide)]
  refine stripFences_noop _ ?_
  rw [hdec] at h96
  exact h96

/-- C5 (corrected): a syntactically complete JSON object — rendered
canonically with escape-free strings (no quote, backslash, brace, bracket,
backtick or control characters), finite-decimal numbers and no `NaN` — is
returned as a structurally equal mapping by
`parseResponseWithTruncationHandling`, whether presented bare, wrapped in
```` ```json ```` fences, or preceded by a `<think>` block whose body
contains no `<`; the claim's unconditional version is refuted separately by
a complete object carrying a brace inside a string literal. -/
theorem c5_amended (fs : List (List Char × Json)) (expected : List (List Char))
    (tb : List Char) (hs : safeJson (.obj fs) = true) (htb : '<' ∉ tb) :
    parseResponseWithTruncationHandling (renderJson (.obj fs)) expected = some (.obj fs) ∧
    parseResponseWithTruncationHandling (fenceChars ++ ('j' :: 's' :: 'o' :: 'n' :: '\n' ::
      (renderJson (.obj fs) ++ ('\n' :: fenceChars)))) expected = some (.obj fs) ∧
    parseResponseWithTruncationHandling (thinkOpen ++ (tb ++ (thinkClose ++
      renderJson (.obj fs)))) expected = some (.obj fs) := by
  refine ⟨?_, ?_, ?_⟩
  · exact parseResponse_complete _ [] fs expected hs (content_plain fs hs)
  · exact parseResponse_complete _ ['\n'] fs expected hs (content_fenced fs hs)
  · exact parseResponse_complete _ [] fs expected hs (content_think fs hs tb htb)

/-- Witness for `c5_amended` at a one-field object with a string value. -/
theorem c5_amended_witness :
    safeJson (.obj [(cl "a", .str (cl "x"))]) = true ∧ ('<' ∉ cl "hm") ∧
    parseResponseWithTruncationHandling (renderJson (.obj [(cl "a", .str (cl "x"))]))
      [cl "a"] = some (.obj [(cl "a", .str (cl "x"))]) :=
  ⟨by decide, by decide,
    (c5_amended [(cl "a", .str (cl "x"))] [cl "a"] (cl "hm") (by decide) (by decide)).1⟩

/-- Dropping the matched while-prefix is the while-drop. -/
theorem drop_takeWhile_len (p : Char → Bool) :
    ∀ l : List Char, l.drop ((l.takeWhile p).length) = l.dropWhile p := by
  intro l
  induction l with
  | nil => rfl
  | cons c t ih =>
    by_cases hc : p c = true
    · rw [show (c :: t).takeWhile p = c :: t.takeWhile p from by simp [List.takeWhile_cons, hc],
        show (c :: t).dropWhile p = t.dropWhile p from by simp [List.dropWhile_cons, hc]]
      simpa using ih
    · rw [Bool.not_eq_true] at hc
      rw [show (c :: t).takeWhile p = [] from by simp [List.takeWhile_cons, hc],
        show (c :: t).dropWhile p = c :: t from by simp [List.dropWhile_cons, hc]]
      rfl

/-- Every suffix is a drop, at an index bounded by the length. -/
theorem suffix_eq_drop (t T : List Char) (h : t <:+ T) :
    ∃ i, i ≤ T.length ∧ t = T.drop i := by
  obtain ⟨u, hu⟩ := h
  refine ⟨u.length, ?_, ?_⟩
  · rw [← hu]
    simp
  · rw [← hu, List.drop_left]

/-- Occurrence uniqueness for a key token, in the bounded form the
witnesses can evaluate. -/
def keyUniqueAt (T : List Char) (k : List Char) (suf : List Char) : Prop :=
  ∀ i, i < T.length → (keyToken k).isPrefixOf (T.drop i) = true → T.drop i = suf

instance (T k suf) : Decidable (keyUniqueAt T k suf) := by
  unfold keyUniqueAt
  infer_instance

/-- The suffix form of occurrence uniqueness. -/
theorem keyUniqueAt_suffix (T k suf : List Char) (h : keyUniqueAt T k suf) :
    ∀ t, t <:+ T → (keyToken k).isPrefixOf t = true → t = suf := by
  intro t ht hm
  obtain ⟨i, hi, rfl⟩ := suffix_eq_drop t T ht
  rcases Nat.lt_or_ge i T.length with hlt | hge
  · exact h i hlt hm
  · have : T.drop i = [] := List.drop_eq_nil_of_le hge
    rw [this] at hm
    cases hm

/-- The key token is never empty. -/
theorem keyToken_ne_nil (k : List Char) : keyToken k ≠ [] := by
  show '"' :: (k ++ ['"', ':']) ≠ []
  simp

/-- `keyValOffset` at a match. -/
theorem keyValOffset_pos (name t : List Char) (h : (keyToken name).isPrefixOf t = true) :
    keyValOffset name t =
      some ((keyToken name).length + ((t.drop (keyToken name).length).takeWhile isWsChar).length) := by
  unfold keyValOffset
  rw [if_pos h]

/-- `keyValOffset` at a mismatch. -/
theorem keyValOffset_neg (name t : List Char) (h : (keyToken name).isPrefixOf t = false) :
    keyValOffset name t = none := by
  unfold keyValOffset
  rw [h]
  simp

/-- The text after the key token and its whitespace run. -/
theorem drop_keyValOffset (name t : List Char) :
    t.drop ((keyToken name).length +
        ((t.drop (keyToken name).length).takeWhile isWsChar).length) =
      (t.drop (keyToken name).length).dropWhile isWsChar := by
  rw [← drop_takeWhile_len isWsChar (t.drop (keyToken name).length), List.drop_drop]

/-- Cons-step of the opener search at a key match. -/
theorem findFieldOpen_cons_pos (name : List Char) (opener c : Char) (cs : List Char)
    (K : Nat) (hK : keyValOffset name (c :: cs) = some K) :
    findFieldOpen name opener (c :: cs) =
      if ((c :: cs).drop K).head? = some opener then some K
      else (findFieldOpen name opener cs).map (· + 1) := by
  simp only [findFieldOpen, hK]

/-- Cons-step of the opener search at a key mismatch. -/
theorem findFieldOpen_cons_neg (name : List Char) (opener c : Char) (cs : List Char)
    (h : keyValOffset name (c :: cs) = none) :
    findFieldOpen name opener (c :: cs) = (findFieldOpen name opener cs).map (· + 1) := by
  simp only [findFieldOpen, h]

/-- The opener search fails when no key occurrence is followed by the
opener. -/
theorem findFieldOpen_none (name : List Char) (opener : Char) :
    ∀ s : List Char,
      (∀ t, t <:+ s → (keyToken name).isPrefixOf t = true →
        ((t.drop (keyToken name).length).dropWhile isWsChar).head? ≠ some opener) →
      findFieldOpen name opener s = none := by
  intro s
  induction s with
  | nil => intro _; rfl
  | cons c cs ih =>
    intro h
    have hrec := ih (fun t ht hm => h t (ht.trans (List.suffix_cons c cs)) hm)
    by_cases hm : (keyToken name).isPrefixOf (c :: cs) = true
    · rw [findFieldOpen_cons_pos name opener c cs _ (keyValOffset_pos name (c :: cs) hm)]
      rw [if_neg ?_, hrec]
      · rfl
      · rw [drop_keyValOffset]
        exact h (c :: cs) (List.suffix_refl _) hm
    · rw [Bool.not_eq_true] at hm
      rw [findFieldOpen_cons_neg name opener c cs (keyValOffset_neg name (c :: cs) hm), hrec]
      rfl

/-- The opener search skips a region without key occurrences. -/
theorem findFieldOpen_append (name : List Char) (opener : Char) (y : List Char) :
    ∀ x : List Char,
      (∀ t, t <:+ x → t ≠ [] → (keyToken name).isPrefixOf (t ++ y) = false) →
      findFieldOpen name opener (x ++ y) = (findFieldOpen name opener y).map (· + x.length) := by
  intro x
  induction x with
  | nil =>
    intro _
    rcases hfy : findFieldOpen name opener y with _ | v <;> simp [hfy]
  | cons c t ih =>
    intro h
    have hm : (keyToken name).isPrefixOf ((c :: t) ++ y) = false :=
      h (c :: t) (List.suffix_refl _) (by simp)
    show findFieldOpen name opener (c :: (t ++ y)) = _
    rw [findFieldOpen_cons_neg name opener c (t ++ y) (keyValOffset_neg name _ hm)]
    rw [ih (fun t2 ht2 hne => h t2 (ht2.trans (List.suffix_cons c t)) hne)]
    rcases findFieldOpen name opener y with _ | v
    · rfl
    · simp [Option.map]
      omega

/-- The opener search hits a key followed directly by the opener. -/
theorem findFieldOpen_at (name : List Char) (opener : Char) (z : List Char)
    (hws : isWsChar opener = false) :
    findFieldOpen name opener (keyToken name ++ (opener :: z)) =
      some ((keyToken name).length) := by
  have hm : (keyToken name).isPrefixOf (keyToken name ++ (opener :: z)) = true :=
    List.isPrefixOf_iff_prefix.mpr ⟨_, rfl⟩
  have hdropLen : (keyToken name ++ (opener :: z)).drop (keyToken name).length = opener :: z :=
    List.drop_left _ _
  have hK : keyValOffset name (keyToken name ++ (opener :: z)) =
      some ((keyToken name).length) := by
    rw [keyValOffset_pos name _ hm, hdropLen]
    rw [show (opener :: z).takeWhile isWsChar = [] from by simp [List.takeWhile_cons, hws]]
    simp
  have hK2 : keyValOffset name ('"' :: ((name ++ ['"', ':']) ++ (opener :: z))) =
      some ((keyToken name).length) := hK
  show findFieldOpen name opener ('"' :: ((name ++ ['"', ':']) ++ (opener :: z))) =
    some ((keyToken name).length)
  rw [findFieldOpen_cons_pos name opener '"' ((name ++ ['"', ':']) ++ (opener :: z))
    ((keyToken name).length) hK2]
  have hd2 : ('"' :: ((name ++ ['"', ':']) ++ (opener :: z))).drop (keyToken name).length =
      opener :: z := hdropLen
  rw [hd2]
  simp

/-- Cons-step of the string-field search at a key mismatch. -/
theorem findStringField_cons_neg (name : List Char) (c : Char) (cs : List Char)
    (h : keyValOffset name (c :: cs) = none) :
    findStringField name (c :: cs) = findStringField name cs := by
  simp only [findStringField, h]

/-- Cons-step of the string-field search at a key match. -/
theorem findStringField_cons_pos (name : List Char) (c : Char) (cs : List Char) (K : Nat)
    (hK : keyValOffset name (c :: cs) = some K) :
    findStringField name (c :: cs) =
      (match (c :: cs).drop K with
        | '"' :: body =>
          if (body.drop (body.takeWhile (· ≠ '"')).length).head? = some '"' then
            some (body.takeWhile (· ≠ '"'))
          else findStringField name cs
        | _ => findStringField name cs) := by
  simp only [findStringField, hK]

/-- The string-field search skips a region without key occurrences. -/
theorem findStringField_append (name y : List Char) :
    ∀ x : List Char,
      (∀ t, t <:+ x → t ≠ [] → (keyToken name).isPrefixOf (t ++ y) = false) →
      findStringField name (x ++ y) = findStringField name y := by
  intro x
  induction x with
  | nil => intro _; rfl
  | cons c t ih =>
    intro h
    have hm : (keyToken name).isPrefixOf ((c :: t) ++ y) = false :=
      h (c :: t) (List.suffix_refl _) (by simp)
    show findStringField name (c :: (t ++ y)) = _
    rw [findStringField_cons_neg name c (t ++ y) (keyValOffset_neg name _ hm)]
    exact ih (fun t2 ht2 hne => h t2 (ht2.trans (List.suffix_cons c t)) hne)

/-- The string-field search captures the quoted value at its key. -/
theorem findStringField_at (name s rest2 : List Char) (hs : ∀ c ∈ s, ¬ c = '"') :
    findStringField name (keyToken name ++ ('"' :: (s ++ ('"' :: rest2)))) = some s := by
  have hm : (keyToken name).isPrefixOf (keyToken name ++ ('"' :: (s ++ ('"' :: rest2)))) = true :=
    List.isPrefixOf_iff_prefix.mpr ⟨_, rfl⟩
  have hdropLen : (keyToken name ++ ('"' :: (s ++ ('"' :: rest2)))).drop (keyToken name).length =
      '"' :: (s ++ ('"' :: rest2)) := List.drop_left _ _
  have hK : keyValOffset name (keyToken name ++ ('"' :: (s ++ ('"' :: rest2)))) =
      some ((keyToken name).length) := by
    rw [keyValOffset_pos name _ hm, hdropLen]
    rw [show ('"' :: (s ++ ('"' :: rest2))).takeWhile isWsChar = [] from rfl]
    simp
  have hK2 : keyValOffset name ('"' :: ((name ++ ['"', ':']) ++ ('"' :: (s ++ ('"' :: rest2))))) =
      some ((keyToken name).length) := hK
  show findStringField name ('"' :: ((name ++ ['"', ':']) ++ ('"' :: (s ++ ('"' :: rest2))))) =
    some s
  rw [findStringField_cons_pos name '"' ((name ++ ['"', ':']) ++ ('"' :: (s ++ ('"' :: rest2))))
    ((keyToken name).length) hK2]
  have hd2 : ('"' :: ((name ++ ['"', ':']) ++ ('"' :: (s ++ ('"' :: rest2))))).drop
      (keyToken name).length = '"' :: (s ++ ('"' :: rest2)) := hdropLen
  rw [hd2]
  show (if ((s ++ '"' :: rest2).drop ((s ++ '"' :: rest2).takeWhile (· ≠ '"')).length).head? =
      some '"' then some ((s ++ '"' :: rest2).takeWhile (· ≠ '"'))
    else findStringField name (name ++ ['"', ':'] ++ '"' :: (s ++ '"' :: rest2))) = some s
  have htake : (s ++ ('"' :: rest2)).takeWhile (· ≠ '"') = s := by
    refine takeWhile_append_boundary _ s _ ?_ ?_
    · intro c hc
      simpa using hs c hc
    · intro c hc
      simp only [List.head?_cons, Option.some.injEq] at hc
      subst hc
      simp
  rw [htake]
  rw [show (s ++ ('"' :: rest2)).drop s.length = '"' :: rest2 from List.drop_left _ _]
  simp

/-- The string-field search fails when no key occurrence is followed by a
quote. -/
theorem findStringField_none (name : List Char) :
    ∀ s : List Char,
      (∀ t, t <:+ s → (keyToken name).isPrefixOf t = true →
        ((t.drop (keyToken name).length).dropWhile isWsChar).head? ≠ some '"') →
      findStringField name s = none := by
  intro s
  induction s with
  | nil => intro _; rfl
  | cons c cs ih =>
    intro h
    have hrec := ih (fun t ht hm => h t (ht.trans (List.suffix_cons c cs)) hm)
    by_cases hm : (keyToken name).isPrefixOf (c :: cs) = true
    · rw [findStringField_cons_pos name c cs _ (keyValOffset_pos name (c :: cs) hm)]
      have hhead := h (c :: cs) (List.suffix_refl _) hm
      rw [show (c :: cs).drop ((keyToken name).length +
          (((c :: cs).drop (keyToken name).length).takeWhile isWsChar).length) =
        ((c :: cs).drop (keyToken name).length).dropWhile isWsChar from drop_keyValOffset name _]
      rcases hsh : ((c :: cs).drop (keyToken name).length).dropWhile isWsChar with _ | ⟨d, body⟩
      · exact hrec
      · rw [hsh] at hhead
        have hd : ¬ d = '"' := by
          intro hq
          rw [hq] at hhead
          exact hhead rfl
        split
        next body2 heq =>
          injection heq with e1 _
          exact absurd e1 hd
        next => exact hrec
    · rw [Bool.not_eq_true] at hm
      rw [findStringField_cons_neg name c cs (keyValOffset_neg name _ hm)]
      exact hrec

/-- Cons-step of the numeric-field search at a key mismatch. -/
theorem findNumField_cons_neg (name : List Char) (c : Char) (cs : List Char)
    (h : keyValOffset name (c :: cs) = none) :
    findNumField name (c :: cs) = findNumField name cs := by
  simp only [findNumField, h]

/-- Cons-step of the numeric-field search at a key match. -/
theorem findNumField_cons_pos (name : List Char) (c : Char) (cs : List Char) (K : Nat)
    (hK : keyValOffset name (c :: cs) = some K) :
    findNumField name (c :: cs) =
      (if ((c :: cs).drop K).takeWhile isNumRunChar = [] then findNumField name cs
       else some (((c :: cs).drop K).takeWhile isNumRunChar)) := by
  simp only [findNumField, hK]

/-- The numeric-field search fails when no key occurrence is followed by a
digit or dot. -/
theorem findNumField_none (name : List Char) :
    ∀ s : List Char,
      (∀ t, t <:+ s → (keyToken name).isPrefixOf t = true →
        ∀ r, (((t.drop (keyToken name).length).dropWhile isWsChar).head? = some r) →
          isNumRunChar r = false) →
      findNumField name s = none := by
  intro s
  induction s with
  | nil => intro _; rfl
  | cons c cs ih =>
    intro h
    have hrec := ih (fun t ht hm => h t (ht.trans (List.suffix_cons c cs)) hm)
    by_cases hm : (keyToken name).isPrefixOf (c :: cs) = true
    · rw [findNumField_cons_pos name c cs _ (keyValOffset_pos name (c :: cs) hm)]
      have hhead := h (c :: cs) (List.suffix_refl _) hm
      rw [show (c :: cs).drop ((keyToken name).length +
          (((c :: cs).drop (keyToken name).length).takeWhile isWsChar).length) =
        ((c :: cs).drop (keyToken name).length).dropWhile isWsChar from drop_keyValOffset name _]
      rcases hsh : ((c :: cs).drop (keyToken name).length).dropWhile isWsChar with _ | ⟨d, body⟩
      · simp [hrec]
      · rw [hsh] at hhead
        rw [show (d :: body).takeWhile isNumRunChar = [] from by
          simp [List.takeWhile_cons, hhead d rfl]]
        rw [if_pos rfl]
        exact hrec
    · rw [Bool.not_eq_true] at hm
      rw [findNumField_cons_neg name c cs (keyValOffset_neg name _ hm)]
      exact hrec

/-- A complete string field whose key occurs only at its own position is
salvaged with exactly its emitted contents. -/
theorem extractFieldValue_at (T pre k s rest2 : List Char)
    (hdecT : T = pre ++ (keyToken k ++ ('"' :: (s ++ ('"' :: rest2)))))
    (hu : keyUniqueAt T k (keyToken k ++ ('"' :: (s ++ ('"' :: rest2)))))
    (hsq : ∀ c ∈ s, ¬ c = '"') :
    extractFieldValue T k = some (.str s) := by
  have husuf := keyUniqueAt_suffix T k _ hu
  have hfollow : ∀ t, t <:+ T → (keyToken k).isPrefixOf t = true →
      ((t.drop (keyToken k).length).dropWhile isWsChar).head? = some '"' := by
    intro t ht hm
    rw [husuf t ht hm]
    rw [show (keyToken k ++ ('"' :: (s ++ ('"' :: rest2)))).drop (keyToken k).length =
      '"' :: (s ++ ('"' :: rest2)) from List.drop_left _ _]
    rfl
  have harr : extractCompleteArray T k = none := by
    unfold extractCompleteArray
    rw [findFieldOpen_none k '[' T (by
      intro t ht hm
      rw [hfollow t ht hm]
      simp)]
  have hobj : extractCompleteObject T k = none := by
    unfold extractCompleteObject
    rw [findFieldOpen_none k '{' T (by
      intro t ht hm
      rw [hfollow t ht hm]
      simp)]
  have hpre2 : ∀ t, t <:+ pre → t ≠ [] →
      (keyToken k).isPrefixOf (t ++ (keyToken k ++ ('"' :: (s ++ ('"' :: rest2))))) = false := by
    intro t ht hne
    by_cases hb : (keyToken k).isPrefixOf (t ++ (keyToken k ++ ('"' :: (s ++ ('"' :: rest2))))) =
        true
    · exfalso
      have hsufT : t ++ (keyToken k ++ ('"' :: (s ++ ('"' :: rest2)))) <:+ T := by
        obtain ⟨u, hu2⟩ := ht
        exact ⟨u, by rw [hdecT, ← hu2]; simp⟩
      have := husuf _ hsufT hb
      have hlen := congrArg List.length this
      simp at hlen
      rcases t with _ | ⟨a, b⟩
      · exact hne rfl
      · simp at hlen
    · exact Bool.not_eq_true _ |>.mp hb
  have hstr : findStringField k T = some s := by
    rw [hdecT, findStringField_append k _ pre hpre2, findStringField_at k s rest2 hsq]
  unfold extractFieldValue extractSimpleField
  rw [harr, hobj, hstr]
  rfl

/-- The truncated final field, opened with a brace that never closes, is
not salvaged. -/
theorem extractFieldValue_truncated (T pre k inner : List Char)
    (hdecT : T = pre ++ (keyToken k ++ ('{' :: inner)))
    (hu : keyUniqueAt T k (keyToken k ++ ('{' :: inner)))
    (hfacts : renderFacts inner) :
    extractFieldValue T k = none := by
  have husuf := keyUniqueAt_suffix T k _ hu
  have hfollow : ∀ t, t <:+ T → (keyToken k).isPrefixOf t = true →
      ((t.drop (keyToken k).length).dropWhile isWsChar).head? = some '{' := by
    intro t ht hm
    rw [husuf t ht hm]
    rw [show (keyToken k ++ ('{' :: inner)).drop (keyToken k).length = '{' :: inner from
      List.drop_left _ _]
    rfl
  have harr : extractCompleteArray T k = none := by
    unfold extractCompleteArray
    rw [findFieldOpen_none k '[' T (by
      intro t ht hm
      rw [hfollow t ht hm]
      simp)]
  have hstr : findStringField k T = none :=
    findStringField_none k T (by
      intro t ht hm
      rw [hfollow t ht hm]
      simp)
  have hnum : findNumField k T = none :=
    findNumField_none k T (by
      intro t ht hm r hr
      rw [hfollow t ht hm] at hr
      simp only [Option.some.injEq] at hr
      subst hr
      decide)
  have hpre2 : ∀ t, t <:+ pre → t ≠ [] →
      (keyToken k).isPrefixOf (t ++ (keyToken k ++ ('{' :: inner))) = false := by
    intro t ht hne
    by_cases hb : (keyToken k).isPrefixOf (t ++ (keyToken k ++ ('{' :: inner))) = true
    · exfalso
      have hsufT : t ++ (keyToken k ++ ('{' :: inner)) <:+ T := by
        obtain ⟨u, hu2⟩ := ht
        exact ⟨u, by rw [hdecT, ← hu2]; simp⟩
      have := husuf _ hsufT hb
      have hlen := congrArg List.length this
      simp at hlen
      rcases t with _ | ⟨a, b⟩
      · exact hne rfl
      · simp at hlen
    · exact Bool.not_eq_true _ |>.mp hb
  have hobj : extractCompleteObject T k = none := by
    unfold extractCompleteObject
    have hfind : findFieldOpen k '{' T =
        some ((keyToken k).length + pre.length) := by
      rw [hdecT, findFieldOpen_append k '{' _ pre hpre2,
        findFieldOpen_at k '{' inner (by decide)]
      rfl
    rw [hfind]
    have hdrop : T.drop ((keyToken k).length + pre.length) = '{' :: inner := by
      rw [hdecT, show pre ++ (keyToken k ++ ('{' :: inner)) =
        (pre ++ keyToken k) ++ ('{' :: inner) from by simp,
        show (keyToken k).length + pre.length = (pre ++ keyToken k).length from by
          simp [Nat.add_comm]]
      exact List.drop_left _ _
    have hscan : scanBalanced '{' '}' T ((keyToken k).length + pre.length) = none := by
      unfold scanBalanced
      rw [hdrop]
      simp only [scanBalGo, if_true]
      show scanBalGo '{' '}' inner 1 ((keyToken k).length + pre.length + 1) = none
      rw [← List.append_nil inner]
      rw [scanBalGo_through inner [] 1 _ (by
        intro p c hp hc
        have := hfacts.2.2.2.1 p c hp hc
        omega)]
      rfl
    show (match scanBalanced '{' '}' T ((keyToken k).length + pre.length) with
      | none => none
      | some endIdx => jsonParse (cleanTrailing ['}']
          ((T.drop ((keyToken k).length + pre.length)).take
            (endIdx + 1 - ((keyToken k).length + pre.length))))) = none
    rw [hscan]
  unfold extractFieldValue extractSimpleField
  rw [harr, hobj, hstr, hnum]
  rfl

/-- One emitted complete string field, `"key":"value"`. -/
def strFieldChunk (k s : List Char) : List Char := keyToken k ++ ('"' :: (s ++ ['"']))

/-- The emitted complete fields, each followed by its separating comma. -/
def strFieldsFlat : List (List Char × List Char) → List Char
  | [] => []
  | (k, s) :: rest => strFieldChunk k s ++ (',' :: strFieldsFlat rest)

/-- A provider document truncated mid-way through its last field: `N`
complete string fields, then the last key whose object value opens and
never closes. -/
def truncatedDoc (flds : List (List Char × List Char)) (klast inner : List Char) : List Char :=
  '{' :: (strFieldsFlat flds ++ (keyToken klast ++ ('{' :: inner)))

/-- Each complete field's suffix decomposition inside any flat region. -/
theorem strFieldsFlat_decomp :
    ∀ (flds : List (List Char × List Char)) (p : List Char × List Char), p ∈ flds →
      ∀ (pre0 tail0 : List Char), ∃ pre rest2,
        pre0 ++ (strFieldsFlat flds ++ tail0) =
          pre ++ (keyToken p.1 ++ ('"' :: (p.2 ++ ('"' :: rest2)))) := by
  intro flds
  induction flds with
  | nil => intro p hp; simp at hp
  | cons q rest ih =>
    intro p hp pre0 tail0
    rcases List.mem_cons.mp hp with rfl | hp2
    · refine ⟨pre0, ',' :: (strFieldsFlat rest ++ tail0), ?_⟩
      show pre0 ++ ((strFieldChunk p.1 p.2 ++ (',' :: strFieldsFlat rest)) ++ tail0) = _
      unfold strFieldChunk
      simp
    · obtain ⟨pre, rest2, hdec⟩ := ih p hp2
        (pre0 ++ (strFieldChunk q.1 q.2 ++ [','])) tail0
      refine ⟨pre, rest2, ?_⟩
      rw [← hdec]
      show pre0 ++ ((strFieldChunk q.1 q.2 ++ (',' :: strFieldsFlat rest)) ++ tail0) = _
      simp
  
/-- Characters of the flat region. -/
theorem strFieldsFlat_mem :
    ∀ (flds : List (List Char × List Char)) (c : Char), c ∈ strFieldsFlat flds →
      c = '"' ∨ c = ':' ∨ c = ',' ∨ ∃ p ∈ flds, (c ∈ p.1 ∨ c ∈ p.2) := by
  intro flds
  induction flds with
  | nil => intro c hc; simp [strFieldsFlat] at hc
  | cons q rest ih =>
    intro c hc
    show c = '"' ∨ c = ':' ∨ c = ',' ∨ ∃ p ∈ q :: rest, (c ∈ p.1 ∨ c ∈ p.2)
    have hc2 : c ∈ strFieldChunk q.1 q.2 ++ (',' :: strFieldsFlat rest) := by
      rcases q with ⟨k, s⟩
      exact hc
    rcases List.mem_append.mp hc2 with h | h
    · unfold strFieldChunk keyToken at h
      rcases List.mem_cons.mp h with rfl | h2
      · exact Or.inl rfl
      · rcases List.mem_append.mp h2 with h3 | h3
        · rcases List.mem_append.mp h3 with h4 | h4
          · exact Or.inr (Or.inr (Or.inr ⟨q, List.mem_cons_self _ _, Or.inl h4⟩))
          · rcases List.mem_cons.mp h4 with rfl | h5
            · exact Or.inl rfl
            · simp at h5
              subst h5
              exact Or.inr (Or.inl rfl)
        · rcases List.mem_cons.mp h3 with rfl | h4
          · exact Or.inl rfl
          · rcases List.mem_append.mp h4 with h5 | h5
            · exact Or.inr (Or.inr (Or.inr ⟨q, List.mem_cons_self _ _, Or.inr h5⟩))
            · simp at h5
              subst h5
              exact Or.inl rfl
    · rcases List.mem_cons.mp h with rfl | h2
      · exact Or.inr (Or.inr (Or.inl rfl))
      · rcases ih c h2 with h3 | h3 | h3 | ⟨p, hp, h3⟩
        · exact Or.inl h3
        · exact Or.inr (Or.inl h3)
        · exact Or.inr (Or.inr (Or.inl h3))
        · exact Or.inr (Or.inr (Or.inr ⟨p, List.mem_cons_of_mem q hp, h3⟩))

/-- Occurrence uniqueness in the double-index form, usable by witnesses. -/
def keyOnce (T k : List Char) : Prop :=
  ∀ i, i < T.length → ∀ j, j < T.length →
    (keyToken k).isPrefixOf (T.drop i) = true →
    (keyToken k).isPrefixOf (T.drop j) = true → i = j

instance (T k) : Decidable (keyOnce T k) := by
  unfold keyOnce
  infer_instance

/-- A unique occurrence with a designated witness pins every match. -/
theorem keyOnce_unique (T k suf pre : List Char) (h1 : keyOnce T k)
    (hdec : T = pre ++ suf) (hm : (keyToken k).isPrefixOf suf = true) (hsne : suf ≠ []) :
    keyUniqueAt T k suf := by
  intro i hi hmi
  have hi0 : T.drop pre.length = suf := by
    rw [hdec]
    exact List.drop_left _ _
  have hlen : pre.length < T.length := by
    rw [hdec]
    rcases suf with _ | ⟨a, b⟩
    · exact absurd rfl hsne
    · simp
  have := h1 i hi pre.length hlen hmi (by rw [hi0]; exact hm)
  rw [this, hi0]

/-- Folding the extractor over names that all succeed appends exactly
their values. -/
theorem foldl_extract_all (T : List Char) :
    ∀ (flds : List (List Char × List Char)) (acc : List (List Char × Json)),
      (∀ p ∈ flds, extractFieldValue T p.1 = some (.str p.2)) →
      (flds.map Prod.fst).foldl (extractStep T) acc =
        acc ++ flds.map (fun p => (p.1, Json.str p.2)) := by
  intro flds
  induction flds with
  | nil => intro acc _; simp
  | cons p rest ih =>
    intro acc h
    show List.foldl (extractStep T) (extractStep T acc p.1) (rest.map Prod.fst) = _
    rw [show extractStep T acc p.1 = acc ++ [(p.1, Json.str p.2)] from by
      unfold extractStep
      rw [h p (List.mem_cons_self _ _)]]
    rw [ih (acc ++ [(p.1, Json.str p.2)]) (fun q hq => h q (List.mem_cons_of_mem p hq))]
    simp

/-- C1 (corrected): a document truncated immediately after `N ≥ 1`
fully-closed top-level string fields and mid-way through the object value
of field `N + 1` yields exactly the first `N` fields with their emitted
values, and never throws — provided the text contains a closing brace
(otherwise the parser returns `null` before any salvage), each expected
key occurs only at its own field, and the emitted strings are escape-free.
The salvage runs on the truncation path: the boundary scan never returns
to depth zero. -/
theorem c1_amended (flds : List (List Char × List Char)) (klast inner : List Char)
    (hne : flds ≠ [])
    (hkeys : ∀ p ∈ flds, p.1.all strOkChar = true)
    (hvals : ∀ p ∈ flds, p.2.all strOkChar = true)
    (hklast : klast.all strOkChar = true)
    (hfacts : renderFacts inner)
    (hmem : '}' ∈ inner)
    (hin : ∃ a b, inner = a ++ [b] ∧ isWsChar b = false)
    (honce : ∀ p ∈ flds, keyOnce (truncatedDoc flds klast inner) p.1)
    (honcel : keyOnce (truncatedDoc flds klast inner) klast) :
    parseResponseWithTruncationHandling (truncatedDoc flds klast inner)
        (flds.map Prod.fst ++ [klast]) =
      some (.obj (flds.map (fun p => (p.1, Json.str p.2)))) := by
  obtain ⟨ia, ib, hinsplit, hibws⟩ := hin
  -- character facts of the pre-brace region
  have hchar : ∀ c, c ∈ strFieldsFlat flds ++ keyToken klast →
      ¬ c = '{' ∧ ¬ c = '}' ∧ ¬ c = Char.ofNat 96 := by
    intro c hc
    rcases List.mem_append.mp hc with h | h
    · rcases strFieldsFlat_mem flds c h with rfl | rfl | rfl | ⟨p, hp, hcp⟩
      · exact ⟨by decide, by decide, by decide⟩
      · exact ⟨by decide, by decide, by decide⟩
      · exact ⟨by decide, by decide, by decide⟩
      · rcases hcp with hck | hcv
        · have := strOk_facts c (List.all_eq_true.mp (hkeys p hp) c hck)
          exact ⟨this.2.2.1, this.2.2.2.1, this.2.2.2.2.2.2.1⟩
        · have := strOk_facts c (List.all_eq_true.mp (hvals p hp) c hcv)
          exact ⟨this.2.2.1, this.2.2.2.1, this.2.2.2.2.2.2.1⟩
    · show ¬ c = '{' ∧ ¬ c = '}' ∧ ¬ c = Char.ofNat 96
      have hc2 : c ∈ '"' :: (klast ++ ['"', ':']) := h
      rcases List.mem_cons.mp hc2 with rfl | h3
      · exact ⟨by decide, by decide, by decide⟩
      · rcases List.mem_append.mp h3 with h4 | h4
        · have := strOk_facts c (List.all_eq_true.mp hklast c h4)
          exact ⟨this.2.2.1, this.2.2.2.1, this.2.2.2.2.2.2.1⟩
        · rcases List.mem_cons.mp h4 with rfl | h5
          · exact ⟨by decide, by decide, by decide⟩
          · simp at h5
            subst h5
            exact ⟨by decide, by decide, by decide⟩
  -- no backtick anywhere
  have h96 : Char.ofNat 96 ∉ truncatedDoc flds klast inner := by
    intro hmemT
    have hmemT2 : Char.ofNat 96 ∈
        '{' :: (strFieldsFlat flds ++ (keyToken klast ++ ('{' :: inner))) := hmemT
    rcases List.mem_cons.mp hmemT2 with h | h
    · cases h
    · rcases List.mem_append.mp h with h | h
      · exact (hchar _ (List.mem_append.mpr (Or.inl h))).2.2 rfl
      · rcases List.mem_append.mp h with h | h
        · exact (hchar _ (List.mem_append.mpr (Or.inr h))).2.2 rfl
        · rcases List.mem_cons.mp h with h | h
          · cases h
          · exact hfacts.1 h
  -- the pipeline cleaning is the identity
  have hcontent : stripFences (stripThink (jsTrim (truncatedDoc flds klast inner))) =
      truncatedDoc flds klast inner := by
    have hshapeT : truncatedDoc flds klast inner =
        '{' :: ((strFieldsFlat flds ++ (keyToken klast ++ ('{' :: ia))) ++ [ib]) := by
      show '{' :: (strFieldsFlat flds ++ (keyToken klast ++ ('{' :: inner))) = _
      rw [hinsplit]
      simp
    rw [hshapeT, jsTrim_noop '{' ib _ (by decide) hibws,
      stripThink_noop '{' _ (by decide), ← hshapeT]
    exact stripFences_noop _ h96
  have hidx : indexOfChar '{' (truncatedDoc flds klast inner) = some 0 := indexOfChar_head _
  obtain ⟨L, hlast⟩ := lastIndexOfChar_isSome (truncatedDoc flds klast inner) (by
    show '}' ∈ '{' :: (strFieldsFlat flds ++ (keyToken klast ++ ('{' :: inner)))
    simp [hmem])
  -- the boundary scan runs off the end
  have hscan : scanBalanced '{' '}' (truncatedDoc flds klast inner) 0 = none := by
    unfold scanBalanced
    rw [List.drop_zero]
    show scanBalGo '{' '}'
      ('{' :: (strFieldsFlat flds ++ (keyToken klast ++ ('{' :: inner)))) 0 0 = none
    simp only [scanBalGo, if_true]
    rw [show strFieldsFlat flds ++ (keyToken klast ++ ('{' :: inner)) =
      (strFieldsFlat flds ++ keyToken klast) ++ ('{' :: inner) from by simp]
    rw [scanBalGo_through (strFieldsFlat flds ++ keyToken klast) ('{' :: inner) (0 + 1) (0 + 1)
      (by
        intro p c hp hc
        have hcm : c ∈ strFieldsFlat flds ++ keyToken klast :=
          hp.subset (List.mem_append.mpr (Or.inr (List.mem_cons_self c [])))
        exact absurd hc (hchar c hcm).2.1)]
    rw [netDepth_zero_of_noBrace _ (fun c hc => ⟨(hchar c hc).1, (hchar c hc).2.1⟩)]
    simp only [scanBalGo, if_true]
    show scanBalGo '{' '}' inner (0 + 1 + 0 + 1)
      (0 + 1 + (strFieldsFlat flds ++ keyToken klast).length + 1) = none
    rw [← List.append_nil inner]
    rw [scanBalGo_through inner [] (0 + 1 + 0 + 1) _ (by
      intro p c hp hc
      have := hfacts.2.2.1 p ((p.prefix_append [c]).trans hp)
      omega)]
    rfl
  -- per-field extraction
  have hall : ∀ p ∈ flds, extractFieldValue (truncatedDoc flds klast inner) p.1 =
      some (.str p.2) := by
    intro p hp
    obtain ⟨pre, rest2, hdec⟩ := strFieldsFlat_decomp flds p hp ['{']
      (keyToken klast ++ ('{' :: inner))
    have hdecT : truncatedDoc flds klast inner =
        pre ++ (keyToken p.1 ++ ('"' :: (p.2 ++ ('"' :: rest2)))) := hdec
    refine extractFieldValue_at _ pre p.1 p.2 rest2 hdecT ?_ ?_
    · refine keyOnce_unique _ _ _ pre (honce p hp) hdecT
        (List.isPrefixOf_iff_prefix.mpr ⟨_, rfl⟩) ?_
      exact fun h => keyToken_ne_nil p.1 (List.append_eq_nil.mp h).1
    · intro c hc
      exact (strOk_facts c (List.all_eq_true.mp (hvals p hp) c hc)).1
  have hklastnone : extractFieldValue (truncatedDoc flds klast inner) klast = none := by
    have hdecT : truncatedDoc flds klast inner =
        ('{' :: strFieldsFlat flds) ++ (keyToken klast ++ ('{' :: inner)) := by
      show '{' :: (strFieldsFlat flds ++ (keyToken klast ++ ('{' :: inner))) = _
      simp
    refine extractFieldValue_truncated _ ('{' :: strFieldsFlat flds) klast inner hdecT ?_ hfacts
    refine keyOnce_unique _ _ _ ('{' :: strFieldsFlat flds) honcel hdecT
      (List.isPrefixOf_iff_prefix.mpr ⟨_, rfl⟩) (by
        intro h
        have := congrArg List.length h
        simp at this)
  have hextr : extractCompleteSubObjects (truncatedDoc flds klast inner)
      (flds.map Prod.fst ++ [klast]) = flds.map (fun p => (p.1, Json.str p.2)) := by
    unfold extractCompleteSubObjects
    rw [List.foldl_append, foldl_extract_all _ flds [] hall]
    show extractStep (truncatedDoc flds klast inner)
      ([] ++ flds.map (fun p => (p.1, Json.str p.2))) klast = _
    unfold extractStep
    rw [hklastnone]
    simp
  have hempty : (flds.map (fun p => (p.1, Json.str p.2))).isEmpty = false := by
    rcases flds with _ | ⟨p, rest⟩
    · exact absurd rfl hne
    · rfl
  simp only [parseResponseWithTruncationHandling, hcontent, hidx, hlast, hscan, hextr, hempty]
  simp

/-- Witness for `c1_amended`: one complete string field `"a":"x"`, then
`"b"` truncated inside its object value; the salvage returns exactly the
first field. -/
theorem c1_amended_witness :
    parseResponseWithTruncationHandling
        (truncatedDoc [(cl "a", cl "x")] (cl "b")
          (renderField (cl "k", Json.obj []) ++ renderFieldsTail []))
        [cl "a", cl "b"] =
      some (.obj [(cl "a", Json.str (cl "x"))]) := by
  have h := c1_amended [(cl "a", cl "x")] (cl "b")
    (renderField (cl "k", Json.obj []) ++ renderFieldsTail [])
    (by decide) (by decide) (by decide) (by decide)
    ((renderFacts_all 9).2.2 (cl "k", Json.obj []) [] (by decide) (by decide))
    (by decide) ⟨['"', 'k', '"', ':', '{'], '}', by decide, by decide⟩ (by decide) (by decide)
  simpa using h
